import Mathlib

/-! gotk4 `gir/girgen/types/filter.go`: preprocessors, namespace resolver, filter engine.

A shallow embedding of the preprocessor pipeline, the namespace/version
resolver (`EqNamespace`) and the filter engine (`Filter`, `AbsoluteFilter`,
`RegexFilter`) of `gir/girgen/types/filter.go`, and of the callback trampoline
of `pkg/gsk/v4/gsk_export.go`.

Conventions of the embedding.

* A Go `string` is a `List Char` (`Str`); concrete strings are written
  `"Foo-1.Bar".toList`.
* A Go function that can panic returns `Except Panic _`; the three kinds of
  panic that occur are kept apart (`log.Panicf`, nil dereference, index out of
  range).
* The shared mutable model `gir.Repositories` is passed explicitly: a
  preprocessor is a function `Repositories → Except Panic Repositories`.
* `log.Printf` output is not part of the state.
* A slice rebuilt in place over its own backing array is modelled with that
  array (`keepLoop`).
-/

namespace Gotk4

/-- A Go string, as the list of its characters. -/
abbrev Str := List Char

/-! ## The `strings` functions used by `filter.go` -/

namespace strings

/-- Cut `s` around the first occurrence of the character `sep`
(`strings.Cut` with a one-character separator). -/
def Cut (sep : Char) : Str → Option (Str × Str)
  | [] => none
  | c :: cs =>
    if c = sep then some ([], cs)
    else match Cut sep cs with
      | none => none
      | some (a, b) => some (c :: a, b)

/-- Go `strings.SplitN(s, sep, n)` for a one-character separator and `n ≥ 0`: at most `n`
substrings, the last one being the unsplit remainder; `n = 0` gives the empty slice. -/
def SplitN (s : Str) (sep : Char) : Nat → List Str
  | 0 => []
  | 1 => [s]
  | n + 2 =>
    match Cut sep s with
    | none => [s]
    | some (a, b) => a :: SplitN b sep (n + 1)

/-- Go `strings.Join(elems, sep)`. -/
def Join (elems : List Str) (sep : Str) : Str :=
  sep.intercalate elems

/-- Go `strings.HasPrefix(s, prefix)`. -/
def HasPrefix (s pre : Str) : Bool :=
  pre.isPrefixOf s

/-- Go `strings.HasSuffix(s, suffix)`. -/
def HasSuffix (s suf : Str) : Bool :=
  suf.isSuffixOf s

/-- Go `strings.Contains(s, substr)`. -/
def Contains : Str → Str → Bool
  | [], sub => sub.isEmpty
  | c :: cs, sub => sub.isPrefixOf (c :: cs) || Contains cs sub

/-- Go `strings.Trim(s, cutset)` for a one-character cutset: all leading and all trailing
occurrences of the character removed. -/
def Trim (s : Str) (c : Char) : Str :=
  ((s.dropWhile (fun x => decide (x = c))).reverse.dropWhile (fun x => decide (x = c))).reverse

end strings

/-! ## Helpers of package `gir` that `filter.go` calls -/

namespace gir

/-- Modelled from the spec: `gir.SplitGIRType` is not part of the available sources. The spec
has the resolver split "the fully qualified name into its namespace and bare-name parts";
the namespace is the text before the first `.` (as in the `strings.SplitN(_, ".", 2)` calls
of `AbsoluteFilter` and `RegexFilter`), and a name without `.` has the empty namespace. -/
def SplitGIRType (typ : Str) : Str × Str :=
  match strings.Cut '.' typ with
  | some (namespace_, name) => (namespace_, name)
  | none => ([], typ)

/-- Modelled from the spec: `gir.ParseVersionName` is not part of the available sources. A
namespace qualifier is "a library name optionally suffixed with a version (e.g. Foo-1.0)":
the name is the text before the first `-`, the version the text after it, and a qualifier
without `-` has the empty version. -/
def ParseVersionName (fullNamespace : Str) : Str × Str :=
  match strings.Cut '-' fullNamespace with
  | some (name, version) => (name, version)
  | none => (fullNamespace, [])

end gir

/-! ## Namespace / version resolver -/

/-- `EqNamespace` of `filter.go`: compares the wanted namespace `nsp` with the namespace of
`girType`, popping the version off `nsp` when `nsp` has one and the type's namespace has
none. Returns the bare type name and whether the namespaces agree. -/
def EqNamespace (nsp girType : Str) : Str × Bool :=
  let (namespace_, typ) := gir.SplitGIRType girType
  let (n, ver) := gir.ParseVersionName nsp
  let nsp :=
    if ver ≠ [] then
      let (_, version) := gir.ParseVersionName namespace_
      if version = [] then n else nsp
    else nsp
  (typ, decide (namespace_ = nsp))

/-! ## A model of Go's `regexp` package -/

/-- The two methods of a compiled Go `*regexp.Regexp` that `filter.go` calls. -/
structure Regexp where
  /-- Go `MatchString`: some substring of the argument matches the expression. -/
  MatchString : Str → Bool
  /-- Go `ReplaceAllString(src, repl)`. -/
  ReplaceAllString : Str → Str → Str

namespace regexp

/-- Syntax trees of the regular expressions covered by the model: literals, `.`, the
anchors `^` and `$`, concatenation, alternation, the greedy postfix operators, and
parenthesised groups. -/
inductive Re where
  | empty
  | lit (c : Char)
  | any
  | bol
  | eol
  | cat (a b : Re)
  | alt (a b : Re)
  | star (a : Re)
  | plus (a : Re)
  | opt (a : Re)
  | group (a : Re)
  deriving DecidableEq, Repr

/-- One open group while parsing: the finished alternatives (latest first) and the items
of the alternative being read (latest first). -/
structure Frame where
  alts : List Re
  seq : List Re

/-- The concatenation of items given latest first. -/
def catOf : List Re → Re
  | [] => Re.empty
  | [r] => r
  | r :: rs => Re.cat (catOf rs) r

/-- The alternation of alternatives given latest first. -/
def altOf : List Re → Re
  | [] => Re.empty
  | [r] => r
  | r :: rs => Re.alt (altOf rs) r

/-- The expression a finished group stands for: alternation binds weaker than
concatenation. -/
def Frame.close (f : Frame) : Re :=
  altOf (catOf f.seq :: f.alts)

/-- Whether the item is the result of a postfix operator; Go rejects a `*` or `+` put
directly after one, and reads a `?` there as a request for a non-greedy match. -/
def Re.isRepeat : Re → Bool
  | Re.star _ => true
  | Re.plus _ => true
  | Re.opt _ => true
  | _ => false

/-- Characters that a backslash turns into a literal. -/
def isPunct (c : Char) : Bool :=
  c ∈ ['\\', '.', '+', '*', '?', '(', ')', '|', '[', ']', '{', '}', '^', '$', '-', '_', ':']

/-- Parser for the modelled subset of the RE2 syntax, reading the pattern left to right
with the open groups on a stack. `none` for an invalid pattern and for one outside the
subset (classes, counted repetition, `(?` groups, non-greedy operators, escapes of letters
and digits). -/
def parseLoop : Str → Frame → List Frame → Option Re
  | [], cur, [] => some cur.close
  | [], _, _ :: _ => none
  | '(' :: '?' :: _, _, _ => none
  | '(' :: cs, cur, stack => parseLoop cs ⟨[], []⟩ (cur :: stack)
  | ')' :: _, _, [] => none
  | ')' :: cs, cur, parent :: stack =>
    parseLoop cs ⟨parent.alts, Re.group cur.close :: parent.seq⟩ stack
  | '|' :: cs, cur, stack => parseLoop cs ⟨catOf cur.seq :: cur.alts, []⟩ stack
  | '*' :: cs, cur, stack =>
    match cur.seq with
    | [] => none
    | r :: rs => if r.isRepeat then none else parseLoop cs ⟨cur.alts, Re.star r :: rs⟩ stack
  | '+' :: cs, cur, stack =>
    match cur.seq with
    | [] => none
    | r :: rs => if r.isRepeat then none else parseLoop cs ⟨cur.alts, Re.plus r :: rs⟩ stack
  | '?' :: cs, cur, stack =>
    match cur.seq with
    | [] => none
    | r :: rs => if r.isRepeat then none else parseLoop cs ⟨cur.alts, Re.opt r :: rs⟩ stack
  | '\\' :: c :: cs, cur, stack =>
    if isPunct c then parseLoop cs ⟨cur.alts, Re.lit c :: cur.seq⟩ stack else none
  | ['\\'], _, _ => none
  | '[' :: _, _, _ => none
  | '{' :: _, _, _ => none
  | '.' :: cs, cur, stack => parseLoop cs ⟨cur.alts, Re.any :: cur.seq⟩ stack
  | '^' :: cs, cur, stack => parseLoop cs ⟨cur.alts, Re.bol :: cur.seq⟩ stack
  | '$' :: cs, cur, stack => parseLoop cs ⟨cur.alts, Re.eol :: cur.seq⟩ stack
  | c :: cs, cur, stack => parseLoop cs ⟨cur.alts, Re.lit c :: cur.seq⟩ stack

/-- Parse a pattern of the modelled subset. -/
def parse (pattern : Str) : Option Re :=
  parseLoop pattern ⟨[], []⟩ []

/-- End positions of the iterations of a starred expression from position `p`, more
iterations first (greedy); `f` gives the end positions of one iteration, and only an
iteration that consumes input is repeated. -/
def starEnds (f : Nat → List Nat) : Nat → Nat → List Nat
  | 0, p => [p]
  | fuel + 1, p => ((f p).filter (fun q => p < q)).flatMap (starEnds f fuel) ++ [p]

/-- The positions where a match of `r` that starts at position `start` of the text `s` can
end, in the order a backtracking search finds them (Go's leftmost-first preference). -/
def ends (s : Str) : Re → Nat → List Nat
  | Re.empty, start => [start]
  | Re.lit c, start => if s.get? start = some c then [start + 1] else []
  | Re.any, start =>
    match s.get? start with
    | some c => if c = '\n' then [] else [start + 1]
    | none => []
  | Re.bol, start => if start = 0 then [start] else []
  | Re.eol, start => if start = s.length then [start] else []
  | Re.cat a b, start => (ends s a start).flatMap (ends s b)
  | Re.alt a b, start => ends s a start ++ ends s b start
  | Re.star a, start => starEnds (ends s a) (s.length + 1) start
  | Re.plus a, start => (ends s a start).flatMap (starEnds (ends s a) (s.length + 1))
  | Re.opt a, start => ends s a start ++ [start]
  | Re.group a, start => ends s a start

/-- The leftmost match at or after `pos`: its start and the end preferred there. -/
def findFrom (r : Re) (s : Str) (pos : Nat) : Option (Nat × Nat) :=
  ((List.range (s.length + 1)).filter (fun i => pos ≤ i)).findSome?
    (fun i => (ends s r i).head?.map (fun j => (i, j)))

/-- Go `MatchString`: the expression matches somewhere in `s`. -/
def Re.MatchString (r : Re) (s : Str) : Bool :=
  (findFrom r s 0).isSome

/-- The loop of Go's `replaceAll`: copy the text between matches, put the replacement for
every match except an empty one right after the previous match, and always advance. -/
def replaceLoop (r : Re) (s repl : Str) : Nat → Nat → Nat → Str → Str
  | 0, _, lastMatchEnd, buf => buf ++ s.drop lastMatchEnd
  | fuel + 1, searchPos, lastMatchEnd, buf =>
    if s.length < searchPos then buf ++ s.drop lastMatchEnd
    else match findFrom r s searchPos with
      | none => buf ++ s.drop lastMatchEnd
      | some (a0, a1) =>
        let buf := buf ++ (s.drop lastMatchEnd).take (a0 - lastMatchEnd)
        let buf := if lastMatchEnd < a1 ∨ a0 = 0 then buf ++ repl else buf
        let searchPos := if a1 < searchPos + 1 then searchPos + 1 else a1
        replaceLoop r s repl fuel searchPos a1 buf

/-- Go `ReplaceAllString` for a replacement text without `$` references: the replacement is
copied as it is, where Go expands `$1`, `${name}` and `$$`. -/
def Re.ReplaceAllString (r : Re) (src repl : Str) : Str :=
  replaceLoop r src repl (src.length + 2) 0 0 []

/-- Go `regexp.MustCompile`, which panics on a pattern it cannot parse. In the model `none`
is also the result for a valid pattern outside the modelled subset (such as the class in
`gtk_[a-z]+`), on which Go does not panic: this engine stands for Go only on patterns of the
subset, and the general statements take the engine as a parameter. -/
def MustCompile (pattern : Str) : Option Regexp :=
  (parse pattern).map (fun r => ⟨r.MatchString, r.ReplaceAllString⟩)

/-- The number of capture groups of an expression. -/
def Re.groups : Re → Nat
  | Re.empty => 0
  | Re.lit _ => 0
  | Re.any => 0
  | Re.bol => 0
  | Re.eol => 0
  | Re.cat a b => a.groups + b.groups
  | Re.alt a b => a.groups + b.groups
  | Re.star a => a.groups
  | Re.plus a => a.groups
  | Re.opt a => a.groups
  | Re.group a => a.groups + 1

/-- The spans of the capture groups matched so far, latest first: group number, start and
end position. -/
abbrev Caps := List (Nat × Nat × Nat)

/-- The iterations of a starred expression with the captures carried along, more iterations
first; the counterpart of `starEnds`. -/
def capStar (f : Nat → Caps → List (Nat × Caps)) : Nat → Nat → Caps → List (Nat × Caps)
  | 0, p, caps => [(p, caps)]
  | fuel + 1, p, caps =>
    ((f p caps).filter (fun q => p < q.1)).flatMap (fun q => capStar f fuel q.1 q.2) ++ [(p, caps)]

/-- The counterpart of `ends` with capture groups: the end positions of the matches of `r`
from `start`, in the order a backtracking search finds them, each with the spans of the
groups; `k` is the number of the first group of `r`. -/
def captures (s : Str) : Re → Nat → Nat → Caps → List (Nat × Caps)
  | Re.empty, _, start, caps => [(start, caps)]
  | Re.lit c, _, start, caps => if s[start]? = some c then [(start + 1, caps)] else []
  | Re.any, _, start, caps =>
    match s[start]? with
    | some c => if c = '\n' then [] else [(start + 1, caps)]
    | none => []
  | Re.bol, _, start, caps => if start = 0 then [(start, caps)] else []
  | Re.eol, _, start, caps => if start = s.length then [(start, caps)] else []
  | Re.cat a b, k, start, caps =>
    (captures s a k start caps).flatMap (fun q => captures s b (k + a.groups) q.1 q.2)
  | Re.alt a b, k, start, caps =>
    captures s a k start caps ++ captures s b (k + a.groups) start caps
  | Re.star a, k, start, caps => capStar (captures s a k) (s.length + 1) start caps
  | Re.plus a, k, start, caps =>
    (captures s a k start caps).flatMap
      (fun q => capStar (captures s a k) (s.length + 1) q.1 q.2)
  | Re.opt a, k, start, caps => captures s a k start caps ++ [(start, caps)]
  | Re.group a, k, start, caps =>
    (captures s a (k + 1) start caps).map (fun q => (q.1, (k, start, q.1) :: q.2))

/-- The text of `s` from position `i` up to position `j`. -/
def extract (s : Str) (i j : Nat) : Str :=
  (s.drop i).take (j - i)

/-- The text of group `g`: its latest span, or the empty string for a group that took no
part in the match. -/
def groupText (s : Str) (caps : Caps) (g : Nat) : Str :=
  match caps.find? (fun c => c.1 == g) with
  | some (_, i, j) => extract s i j
  | none => []

/-- The leftmost match among the given start positions: the start, and the end and captures
the search prefers there. -/
def submatchFrom (r : Re) (s : Str) : List Nat → Option (Nat × Nat × Caps)
  | [] => none
  | i :: rest =>
    match (captures s r 1 i []).head? with
    | some (e, caps) => some (i, e, caps)
    | none => submatchFrom r s rest

/-- Go `FindStringSubmatch`: the text of the leftmost match followed by the texts of its
capture groups, or the empty slice when there is no match. -/
def Re.FindStringSubmatch (r : Re) (s : Str) : List Str :=
  match submatchFrom r s (List.range (s.length + 1)) with
  | none => []
  | some (i, e, caps) =>
    extract s i e :: (List.range r.groups).map (fun g => groupText s caps (g + 1))

end regexp

/-! ## Panics -/

/-- The ways a run of this code ends abruptly. -/
inductive Panic where
  /-- An explicit `log.Panicf`, or the panic of `regexp.MustCompile`. -/
  | logPanic
  /-- A method called through a nil `*gir.TypeFindResult`. -/
  | nilDereference
  /-- An index past the end of a slice. -/
  | indexOutOfRange
  deriving DecidableEq, Repr

/-- The index of the first element of a list that satisfies `p`: a `for i, x := range list`
loop that stops at the first hit. -/
def firstIndex {α : Type} (p : α → Bool) : List α → Option Nat
  | [] => none
  | a :: l => if p a then some 0 else (firstIndex p l).map (fun i => i + 1)

/-! ## The semantic model (package `gir`) -/

namespace gir

/-- Modelled from the spec: a parameter "carries a direction (in / out / in-out) and an
ownership-transfer annotation". -/
structure ParameterAttrs where
  Name : Str
  Direction : Str
  TransferOwnership : Str
  deriving DecidableEq, Repr

/-- Modelled from the spec: callable attributes are the "shared sub-record of
Function/Callback/constructor/method — name, native (C) identifier, introspectability flag,
parameter list". -/
structure CallableAttrs where
  Name : Str
  CIdentifier : Str
  Introspectable : Option Bool
  Parameters : List ParameterAttrs
  deriving DecidableEq, Repr

/-- Modelled from the spec: a signal of a class or interface. -/
structure Signal where
  Name : Str
  Parameters : List ParameterAttrs
  deriving DecidableEq, Repr

/-- Modelled from the spec: a field of a record (or class). -/
structure Field where
  Name : Str
  deriving DecidableEq, Repr

/-- Modelled from the spec: an enum member with its native identifier. -/
structure Member where
  Name : Str
  CIdentifier : Str
  deriving DecidableEq, Repr

/-- Modelled from the spec: a class node. `Doc` is the documentation text, absent when the
node has none. -/
structure Class where
  Name : Str
  Doc : Option Str
  Constructors : List CallableAttrs
  Methods : List CallableAttrs
  VirtualMethods : List CallableAttrs
  Signals : List Signal
  Fields : List Field
  deriving DecidableEq, Repr

/-- Modelled from the spec: a record node. -/
structure Record where
  Name : Str
  Doc : Option Str
  Constructors : List CallableAttrs
  Methods : List CallableAttrs
  Fields : List Field
  deriving DecidableEq, Repr

/-- Modelled from the spec: an interface node. -/
structure Interface where
  Name : Str
  Doc : Option Str
  Methods : List CallableAttrs
  VirtualMethods : List CallableAttrs
  Signals : List Signal
  deriving DecidableEq, Repr

/-- Modelled from the spec: an enum node. -/
structure Enum where
  Name : Str
  Doc : Option Str
  Members : List Member
  deriving DecidableEq, Repr

/-- Modelled from the spec: a callback node; its name is the name of its callable
attributes. -/
structure Callback where
  CallableAttrs : CallableAttrs
  Doc : Option Str
  deriving DecidableEq, Repr

/-- Modelled from the spec: a top-level function node. -/
structure Function where
  CallableAttrs : CallableAttrs
  Doc : Option Str
  deriving DecidableEq, Repr

/-- Modelled from the spec: a GIR node is "polymorphic over variants {Class, Record,
Interface, Enum, Callback, Function}"; this is what `TypeFindResult.Type` points to. -/
inductive Node where
  | Class (v : Class)
  | Record (v : Record)
  | Interface (v : Interface)
  | Enum (v : Enum)
  | Callback (v : Callback)
  | Function (v : Function)
  deriving DecidableEq, Repr

/-- Modelled from the spec: the name of a node (`TypeFindResult.Name`). -/
def Node.Name : Node → Str
  | .Class v => v.Name
  | .Record v => v.Name
  | .Interface v => v.Name
  | .Enum v => v.Name
  | .Callback v => v.CallableAttrs.Name
  | .Function v => v.CallableAttrs.Name

/-- Modelled from the spec: the node with its name replaced (`TypeFindResult.SetName`). -/
def Node.SetName : Node → Str → Node
  | .Class v, n => .Class { v with Name := n }
  | .Record v, n => .Record { v with Name := n }
  | .Interface v, n => .Interface { v with Name := n }
  | .Enum v, n => .Enum { v with Name := n }
  | .Callback v, n => .Callback { v with CallableAttrs := { v.CallableAttrs with Name := n } }
  | .Function v, n => .Function { v with CallableAttrs := { v.CallableAttrs with Name := n } }

/-- Modelled from the spec: the documentation of a node (`cmt.GetInfoFields(_).Elements.Doc`). -/
def Node.Doc : Node → Option Str
  | .Class v => v.Doc
  | .Record v => v.Doc
  | .Interface v => v.Doc
  | .Enum v => v.Doc
  | .Callback v => v.Doc
  | .Function v => v.Doc

/-- Modelled from the spec: the node with its documentation replaced. -/
def Node.SetDoc : Node → Option Str → Node
  | .Class v, d => .Class { v with Doc := d }
  | .Record v, d => .Record { v with Doc := d }
  | .Interface v, d => .Interface { v with Doc := d }
  | .Enum v, d => .Enum { v with Doc := d }
  | .Callback v, d => .Callback { v with Doc := d }
  | .Function v, d => .Function { v with Doc := d }

/-- Modelled from the spec: a native library package reference. -/
structure Package where
  Name : Str
  deriving DecidableEq, Repr

/-- Modelled from the spec: a native header-include reference. -/
structure CInclude where
  Name : Str
  deriving DecidableEq, Repr

/-- Modelled from the spec: a repository "holds a namespace name+version, a list of native
library package references, a list of native header-include references, and the list of
top-level type/function/callback declarations it defines"; `Path` is the file it was
loaded from. -/
structure Repository where
  Path : Str
  Name : Str
  Version : Str
  Packages : List Package
  CIncludes : List CInclude
  Types : List Node
  deriving DecidableEq, Repr

/-- Modelled from the spec: the full set of loaded repositories. -/
abbrev Repositories := List Repository

/-- Modelled from the spec: the namespace qualifier of a repository, its name suffixed with
its version. -/
def VersionedNamespace (repo : Repository) : Str :=
  repo.Name ++ '-' :: repo.Version

/-- Modelled from the spec: what `FindFullType` returns, a pointer to a node of the shared
model: the place of the node (repository and declaration index) and the node there. -/
structure TypeFindResult where
  repo : Nat
  index : Nat
  Type_ : Node
  deriving DecidableEq, Repr

/-- Modelled from the spec: `Repositories.FindFullType` is not part of the available sources.
"Dotted-name resolution splits the input into a namespace qualifier and a remainder;
namespace qualifiers must include an explicit version token ... Lookup failure returns an
absent result". The repository is the first whose versioned namespace is the qualifier, the
node the first declaration in it whose name is the remainder. -/
def Repositories.FindFullType (repos : Repositories) (fullType : Str) : Option TypeFindResult :=
  let (vNamespace, typ) := SplitGIRType fullType
  let (_, version) := ParseVersionName vNamespace
  if version = [] then none
  else
    match firstIndex (fun repo => decide (VersionedNamespace repo = vNamespace)) repos with
    | none => none
    | some r =>
      match repos.get? r with
      | none => none
      | some repo =>
        match firstIndex (fun node => decide (node.Name = typ)) repo.Types with
        | none => none
        | some i => (repo.Types.get? i).map (fun node => ⟨r, i, node⟩)

/-- Modelled from the spec: `Repositories.FromGIRFile`, lookup "by originating file path";
the index of the first repository loaded from that file. -/
def Repositories.FromGIRFile (repos : Repositories) (girFile : Str) : Option Nat :=
  firstIndex (fun repo => decide (repo.Path = girFile)) repos

/-- A write through the pointer `res`: the model with the node at that place replaced. -/
def Repositories.store (repos : Repositories) (res : TypeFindResult) (node : Node) :
    Repositories :=
  match repos.get? res.repo with
  | none => repos
  | some repo => repos.set res.repo { repo with Types := repo.Types.set res.index node }

end gir

/-! ## The in-place removal idiom -/

/-- The loop `kept := list[:0]; for _, x := range list { if keep(x) { kept = append(kept, x) } }`
of `filter.go`. `kept` shares the backing array of `list` and never outgrows it, so each
`append` overwrites the array element at index `len(kept)`, and the `range` loop reads its
element `i` from that same array. The state is the number of iterations left, the read
index `i`, `len(kept)`, and the backing array. -/
def keepLoop {α : Type} (keep : α → Bool) : Nat → Nat → Nat → List α → List α × Nat
  | 0, _, w, backing => (backing, w)
  | n + 1, i, w, backing =>
    match backing[i]? with
    | none => (backing, w)
    | some x =>
      if keep x then keepLoop keep n (i + 1) (w + 1) (backing.set w x)
      else keepLoop keep n (i + 1) w backing

/-- The slice `kept` after the loop: the first `len(kept)` elements of the backing array. -/
def keepInPlace {α : Type} (keep : α → Bool) (list : List α) : List α :=
  ((keepLoop keep list.length 0 0 list).1).take (keepLoop keep list.length 0 0 list).2

/-! ## Preprocessors -/

/-- A `Preprocessor`: its `Preprocess` method, run for its effect on the shared model. -/
abbrev Preprocessor := gir.Repositories → Except Panic gir.Repositories

/-- `ApplyPreprocessors` of `filter.go`: run the preprocessors in list order on the model. -/
def ApplyPreprocessors (repos : gir.Repositories) : List Preprocessor → Except Panic gir.Repositories
  | [] => .ok repos
  | preproc :: rest =>
    match preproc repos with
    | .ok repos => ApplyPreprocessors repos rest
    | .error e => .error e

/-- The test of `MakePathMatcher` for a regex input:
`strings.HasPrefix(input, "/") && strings.HasSuffix(input, "/")`. -/
def slashDelimited (input : Str) : Bool :=
  strings.HasPrefix input "/".toList && strings.HasSuffix input "/".toList

/-- One iteration of the loop of `MakePathMatcher`: a slash-delimited input is trimmed of its
slashes and compiled (`regexp.MustCompile` panics on failure), any other input is compared
for equality. -/
def pathMatchFn (compile : Str → Option Regexp) (input : Str) : Except Panic (Str → Bool) :=
  if slashDelimited input then
    match compile (strings.Trim input '/') with
    | some re => .ok re.MatchString
    | none => .error .logPanic
  else .ok (fun v => decide (v = input))

/-- The loop of `MakePathMatcher` that fills `fns`. -/
def pathMatchFns (compile : Str → Option Regexp) : List Str → Except Panic (List (Str → Bool))
  | [] => .ok []
  | input :: rest =>
    match pathMatchFn compile input with
    | .error e => .error e
    | .ok fn =>
      match pathMatchFns compile rest with
      | .error e => .error e
      | .ok fns => .ok (fn :: fns)

/-- `MakePathMatcher` of `filter.go`: the returned closure is true at the first of `fns` that
is true of the string. -/
def MakePathMatcher (compile : Str → Option Regexp) (inputs : List Str) :
    Except Panic (Str → Bool) :=
  match pathMatchFns compile inputs with
  | .error e => .error e
  | .ok fns => .ok (fun str => fns.any (fun fn => fn str))

/-- The closure returned by `RemovePkgconfig`. -/
def RemovePkgconfig.Preprocess (match_ : Str → Bool) (girFile : Str) : Preprocessor :=
  fun repos =>
    match repos.FromGIRFile girFile with
    | none => .ok repos
    | some r =>
      match repos[r]? with
      | none => .ok repos
      | some repo =>
        .ok (repos.set r { repo with
          Packages := keepInPlace (fun pkg => !(match_ pkg.Name)) repo.Packages })

/-- `RemovePkgconfig` of `filter.go`. -/
def RemovePkgconfig (compile : Str → Option Regexp) (girFile : Str) (pkgs : List Str) :
    Except Panic Preprocessor :=
  match MakePathMatcher compile pkgs with
  | .error e => .error e
  | .ok match_ => .ok (RemovePkgconfig.Preprocess match_ girFile)

/-- The closure returned by `RemoveCIncludes`. -/
def RemoveCIncludes.Preprocess (match_ : Str → Bool) (girFile : Str) : Preprocessor :=
  fun repos =>
    match repos.FromGIRFile girFile with
    | none => .ok repos
    | some r =>
      match repos[r]? with
      | none => .ok repos
      | some repo =>
        .ok (repos.set r { repo with
          CIncludes := keepInPlace (fun cincl => !(match_ cincl.Name)) repo.CIncludes })

/-- `RemoveCIncludes` of `filter.go`. -/
def RemoveCIncludes (compile : Str → Option Regexp) (girFile : Str) (cincls : List Str) :
    Except Panic Preprocessor :=
  match MakePathMatcher compile cincls with
  | .error e => .error e
  | .ok match_ => .ok (RemoveCIncludes.Preprocess match_ girFile)

/-- `girTypeMustBeVersioned` of `filter.go`. -/
def girTypeMustBeVersioned (girType : Str) : Except Panic Unit :=
  let (namespace_, _) := gir.SplitGIRType girType
  let (_, version) := gir.ParseVersionName namespace_
  if version = [] then .error .logPanic else .ok ()

/-- The closure returned by `PreserveGetName`. When the type is not found the source only
logs and goes on to `result.Name()`, a method call through the nil result. `GuessSnake` is
`strcases.GuessSnake`, whose heuristic the spec leaves open. -/
def PreserveGetName.Preprocess (GuessSnake : Str → Bool) (girType : Str) : Preprocessor :=
  fun repos =>
    match repos.FindFullType girType with
    | none => .error .nilDereference
    | some result =>
      let name := result.Type_.Name
      if GuessSnake name then
        .ok (repos.store result (result.Type_.SetName ("get_".toList ++ name)))
      else
        .ok (repos.store result (result.Type_.SetName ("Get".toList ++ name)))

/-- `PreserveGetName` of `filter.go`. -/
def PreserveGetName (GuessSnake : Str → Bool) (girType : Str) : Except Panic Preprocessor :=
  match girTypeMustBeVersioned girType with
  | .error e => .error e
  | .ok () => .ok (PreserveGetName.Preprocess GuessSnake girType)

/-- The body of the member loop of `RenameEnumMembers`: split the identifier at its first
underscore, rewrite `parts[1]`, and join again. `parts[1]` does not exist when the
identifier has no underscore. -/
def renameMember (re : Regexp) (replace : Str) (member : gir.Member) : Except Panic gir.Member :=
  match strings.SplitN member.CIdentifier '_' 2 with
  | [p0, p1] => .ok { member with CIdentifier := p0 ++ '_' :: re.ReplaceAllString p1 replace }
  | _ => .error .indexOutOfRange

/-- The member loop of `RenameEnumMembers`, in list order. -/
def renameMembers (re : Regexp) (replace : Str) : List gir.Member → Except Panic (List gir.Member)
  | [] => .ok []
  | member :: rest =>
    match renameMember re replace member with
    | .error e => .error e
    | .ok member =>
      match renameMembers re replace rest with
      | .error e => .error e
      | .ok rest => .ok (member :: rest)

/-- The closure returned by `RenameEnumMembers`. -/
def RenameEnumMembers.Preprocess (re : Regexp) (enum replace : Str) : Preprocessor :=
  fun repos =>
    match repos.FindFullType enum with
    | none => .ok repos
    | some result =>
      match result.Type_ with
      | .Enum enum =>
        match renameMembers re replace enum.Members with
        | .error e => .error e
        | .ok members => .ok (repos.store result (.Enum { enum with Members := members }))
      | _ => .error .logPanic

/-- `RenameEnumMembers` of `filter.go`; `compile` is `regexp.MustCompile`, absent when it
panics. -/
def RenameEnumMembers (compile : Str → Option Regexp) (enum regex replace : Str) :
    Except Panic Preprocessor :=
  match girTypeMustBeVersioned enum with
  | .error e => .error e
  | .ok () =>
    match compile regex with
    | none => .error .logPanic
    | some re => .ok (RenameEnumMembers.Preprocess re enum replace)

/-- The method `typeRenamer.Preprocess` of `filter.go`. -/
def typeRenamer.Preprocess (from_ to_ : Str) : Preprocessor :=
  fun repos =>
    match repos.FindFullType from_ with
    | none => .ok repos
    | some result =>
      let oldName := result.Type_.Name
      let renamed := result.Type_.SetName to_
      let changedMsg := "This type has been renamed from ".toList ++ oldName ++ ".".toList
      match renamed.Doc with
      | some doc => .ok (repos.store result (renamed.SetDoc (some (doc ++ "\n\n".toList ++ changedMsg))))
      | none => .ok (repos.store result renamed)

/-- `TypeRenamer` of `filter.go`. -/
def TypeRenamer (girType newName : Str) : Except Panic Preprocessor :=
  match girTypeMustBeVersioned girType with
  | .error e => .error e
  | .ok () => .ok (typeRenamer.Preprocess girType newName)

/-- `RemoveRecordFields` of `filter.go`; it has no configuration-time check. The fields
kept are those whose name is not in `fieldMap`, the set of the given `fields`. -/
def RemoveRecordFields (girType : Str) (fields : List Str) : Preprocessor :=
  fun repos =>
    match repos.FindFullType girType with
    | none => .ok repos
    | some res =>
      match res.Type_ with
      | .Record record =>
        let filtered := keepInPlace (fun field => !(fields.contains field.Name)) record.Fields
        .ok (repos.store res (.Record { record with Fields := filtered }))
      | _ => .error .logPanic

/-- Modelled from the spec: `FindParameter` is not part of the available sources; the place of the
first parameter of the callable with the given name, absent when there is none. -/
def FindParameter (c : gir.CallableAttrs) (name : Str) : Option Nat :=
  firstIndex (fun param => decide (param.Name = name)) c.Parameters

/-- One iteration of the loop of `ModifyParamDirections`: panic when the parameter is not
found, otherwise set its direction. -/
def setParamDirection (c : gir.CallableAttrs) (override : Str × Str) : Except Panic gir.CallableAttrs :=
  match FindParameter c override.1 with
  | none => .error .logPanic
  | some i =>
    match c.Parameters.get? i with
    | none => .error .nilDereference
    | some param =>
      .ok { c with Parameters := c.Parameters.set i { param with Direction := override.2 } }

/-- The mutation `ModifyParamDirections` hands to `ModifyCallable`. The Go map
`dirOverrides` is given as the list of its entries in the order the `range` loop visits
them. -/
def modifyParamDirections : List (Str × Str) → gir.CallableAttrs → Except Panic gir.CallableAttrs
  | [], c => .ok c
  | override :: rest, c =>
    match setParamDirection c override with
    | .ok c => modifyParamDirections rest c
    | .error e => .error e

/-- A loop `for i, x := range list { if x.Name == name { modFunc(&list[i]); return } }` over
constructors, methods or virtual methods: absent when no element has the name, otherwise the
outcome of the mutation of the first such element. -/
def modifyFirst (name : Str) (modFunc : gir.CallableAttrs → Except Panic gir.CallableAttrs) :
    List gir.CallableAttrs → Option (Except Panic (List gir.CallableAttrs))
  | [] => none
  | c :: rest =>
    if c.Name = name then
      some (match modFunc c with
        | .ok c => .ok (c :: rest)
        | .error e => .error e)
    else
      match modifyFirst name modFunc rest with
      | none => none
      | some (.ok rest) => some (.ok (c :: rest))
      | some (.error e) => some (.error e)

/-- The slice expression `threeParts[:2]` on the result of `strings.SplitN(s, ".", 3)`. With
fewer than two parts (no `.` in `s`) Go reslices within the capacity `min(3, len(s)+1)` of
the slice `SplitN` allocated: an empty second part, or a panic for the empty `s`. -/
def firstTwo : List Str → Except Panic (List Str)
  | [] => .error .indexOutOfRange
  | [p] => if p = [] then .error .indexOutOfRange else .ok [p, []]
  | p :: q :: _ => .ok [p, q]

/-- The search of `modifyCallable.Preprocess` in the member lists of the owner: constructors
then methods for a class or a record, methods then virtual methods for an interface; no
member of that name, or another kind of owner, is `notFound`. -/
def modifyMember (name : Str) (modFunc : gir.CallableAttrs → Except Panic gir.CallableAttrs) :
    gir.Node → Except Panic gir.Node
  | .Class v =>
    match modifyFirst name modFunc v.Constructors with
    | some (.ok l) => .ok (.Class { v with Constructors := l })
    | some (.error e) => .error e
    | none =>
      match modifyFirst name modFunc v.Methods with
      | some (.ok l) => .ok (.Class { v with Methods := l })
      | some (.error e) => .error e
      | none => .error .logPanic
  | .Record v =>
    match modifyFirst name modFunc v.Constructors with
    | some (.ok l) => .ok (.Record { v with Constructors := l })
    | some (.error e) => .error e
    | none =>
      match modifyFirst name modFunc v.Methods with
      | some (.ok l) => .ok (.Record { v with Methods := l })
      | some (.error e) => .error e
      | none => .error .logPanic
  | .Interface v =>
    match modifyFirst name modFunc v.Methods with
    | some (.ok l) => .ok (.Interface { v with Methods := l })
    | some (.error e) => .error e
    | none =>
      match modifyFirst name modFunc v.VirtualMethods with
      | some (.ok l) => .ok (.Interface { v with VirtualMethods := l })
      | some (.error e) => .error e
      | none => .error .logPanic
  | _ => .error .logPanic

/-- The method `modifyCallable.Preprocess` of `filter.go`. -/
def modifyCallable.Preprocess (girType : Str)
    (modFunc : gir.CallableAttrs → Except Panic gir.CallableAttrs) : Preprocessor :=
  fun repos =>
    let threeParts := strings.SplitN girType '.' 3
    match firstTwo threeParts with
    | .error e => .error e
    | .ok two =>
      match repos.FindFullType (strings.Join two ".".toList) with
      | none => .ok repos
      | some result =>
        match result.Type_ with
        | .Function v =>
          match modFunc v.CallableAttrs with
          | .ok c => .ok (repos.store result (.Function { v with CallableAttrs := c }))
          | .error e => .error e
        | .Callback v =>
          match modFunc v.CallableAttrs with
          | .ok c => .ok (repos.store result (.Callback { v with CallableAttrs := c }))
          | .error e => .error e
        | node =>
          match threeParts with
          | [_, _, member] =>
            match modifyMember member modFunc node with
            | .ok node => .ok (repos.store result node)
            | .error e => .error e
          | _ => .error .logPanic

/-- `ModifyCallable` of `filter.go`. -/
def ModifyCallable (girType : Str) (f : gir.CallableAttrs → Except Panic gir.CallableAttrs) :
    Except Panic Preprocessor :=
  match girTypeMustBeVersioned girType with
  | .error e => .error e
  | .ok () => .ok (modifyCallable.Preprocess girType f)

/-- `MustIntrospect` of `filter.go`. -/
def MustIntrospect (girType : Str) : Except Panic Preprocessor :=
  ModifyCallable girType (fun c => .ok { c with Introspectable := some true })

/-- `RenameCallable` of `filter.go`. -/
def RenameCallable (girType newName : Str) : Except Panic Preprocessor :=
  ModifyCallable girType (fun c => .ok { c with Name := newName })

/-- `ModifyParamDirections` of `filter.go`. -/
def ModifyParamDirections (girType : Str) (dirOverrides : List (Str × Str)) :
    Except Panic Preprocessor :=
  ModifyCallable girType (modifyParamDirections dirOverrides)

/-- The package variable `signalMatcherRe` of `filter.go`, the compiled pattern
`(.*)\.(.*)::(.*)`. -/
def signalMatcherRe : regexp.Re :=
  (regexp.parse "(.*)\\.(.*)::(.*)".toList).getD regexp.Re.empty

/-- A loop `for i, signal := range v.Signals { if signal.Name == name { f(&v.Signals[i]);
return } }`: absent when no signal has the name, otherwise the outcome of the mutation of the
first such signal. -/
def modifyFirstSignal (name : Str) (f : gir.Signal → Except Panic gir.Signal) :
    List gir.Signal → Option (Except Panic (List gir.Signal))
  | [] => none
  | signal :: rest =>
    if signal.Name = name then
      some (match f signal with
        | .ok signal => .ok (signal :: rest)
        | .error e => .error e)
    else
      match modifyFirstSignal name f rest with
      | none => none
      | some (.ok rest) => some (.ok (signal :: rest))
      | some (.error e) => some (.error e)

/-- The closure returned by `ModifySignal`, for the captured parts `parts[1]`, `parts[2]`
and `parts[3]`: the owner looked up is `parts[1] + "." + parts[2]`, the signal searched for
is `parts[3]`; a missing owner or signal, and an owner that is neither class nor interface,
leave the model as it is. -/
def ModifySignal.Preprocess (part1 part2 part3 : Str) (f : gir.Signal → Except Panic gir.Signal) :
    Preprocessor :=
  fun repos =>
    match repos.FindFullType (part1 ++ '.' :: part2) with
    | none => .ok repos
    | some result =>
      match result.Type_ with
      | .Class v =>
        match modifyFirstSignal part3 f v.Signals with
        | some (.ok l) => .ok (repos.store result (.Class { v with Signals := l }))
        | some (.error e) => .error e
        | none => .ok repos
      | .Interface v =>
        match modifyFirstSignal part3 f v.Signals with
        | some (.ok l) => .ok (repos.store result (.Interface { v with Signals := l }))
        | some (.error e) => .error e
        | none => .ok repos
      | _ => .ok repos

/-- `ModifySignal` of `filter.go`: it panics unless `FindStringSubmatch` returns four
parts. -/
def ModifySignal (girType : Str) (f : gir.Signal → Except Panic gir.Signal) :
    Except Panic Preprocessor :=
  match signalMatcherRe.FindStringSubmatch girType with
  | [_, part1, part2, part3] => .ok (ModifySignal.Preprocess part1 part2 part3 f)
  | _ => .error .logPanic

/-! ## Filter engine -/

/-- The implementations of the interface `FilterMatcher`: `absoluteFilter`, `regexFilter`,
and `other` for any further implementation (such as `fileFilter`, whose lookups `Find` and
`TypeFile` are not part of the available sources), given by its decision on the qualified GIR name
and the native identifier. -/
inductive FilterMatcher where
  | absoluteFilter (namespace_ matcher : Str)
  | regexFilter (namespace_ : Str) (matcher : Regexp)
  | other (decision : Str → Str → Bool)

/-- The methods `absoluteFilter.Filter` and `regexFilter.Filter` of `filter.go`. -/
def FilterMatcher.Filter : FilterMatcher → Str → Str → Bool
  | .absoluteFilter namespace_ matcher, gir, c =>
    if namespace_ = "C".toList then decide (c = matcher)
    else
      let (typ, eq) := EqNamespace namespace_ gir
      eq && decide (typ = matcher)
  | .regexFilter namespace_ matcher, gir, c =>
    if namespace_ = "C".toList then matcher.MatchString c
    else if namespace_ = "*".toList then matcher.MatchString gir
    else
      let (typ, eq) := EqNamespace namespace_ gir
      eq && matcher.MatchString typ
  | .other decision, gir, c => decision gir c

/-- What `filter.go` uses of a `FileGenerator`: the name of its namespace
(`gen.Namespace().Namespace.Name`) and its ordered filter list (`gen.Filters()`). -/
structure FileGenerator where
  Namespace : Str
  Filters : List FilterMatcher

/-- Modelled from the spec: `EnsureNamespace` is not part of the available sources. "The candidate
GIR name is first namespace-qualified against the generator's own namespace if it is not
already": a name without `.` gets the generator's namespace name in front. -/
def EnsureNamespace (nsp : Str) (girType : Str) : Str :=
  if strings.Contains girType ".".toList then girType else nsp ++ '.' :: girType

/-- What a call of `Filter` did: its result, the index of the matcher named in the debug
log line (absent when nothing is logged), and how many matchers had their `Filter`
called. -/
structure FilterRun where
  omit_ : Bool
  logged : Option Nat
  consulted : Nat
  deriving DecidableEq, Repr

/-- The loop of `Filter` over the matchers from index `i` on. -/
def filterLoop (gir c : Str) : List FilterMatcher → Nat → FilterRun
  | [], i => ⟨false, none, i⟩
  | filter :: rest, i =>
    if filter.Filter gir c then ⟨true, some i, i + 1⟩ else filterLoop gir c rest (i + 1)

/-- `Filter` of `filter.go`, with what it logged. -/
def Filter.run (gen : FileGenerator) (gir c : Str) : FilterRun :=
  filterLoop (EnsureNamespace gen.Namespace gir) c gen.Filters 0

/-- `Filter` of `filter.go`: whether the type is to be omitted. -/
def Filter (gen : FileGenerator) (gir c : Str) : Bool :=
  (Filter.run gen gir c).omit_

/-- `FilterCType` of `filter.go`. -/
def FilterCType (gen : FileGenerator) (c : Str) : Bool :=
  Filter gen ['\x00'] c

/-- Modelled from the spec: `strcases.Dots` is not part of the available sources; it builds "the
compound dotted name for a member", the parts joined by `.`. -/
def strcases.Dots (parts : List Str) : Str :=
  strings.Join parts ".".toList

/-- `FilterSub` of `filter.go`: an empty native identifier is replaced by the one-character
string `"\x00"` before `Filter` is asked. -/
def FilterSub (gen : FileGenerator) (parent sub cType : Str) : Bool :=
  let cType := if cType = [] then ['\x00'] else cType
  let girName := strcases.Dots [gen.Namespace, parent, sub]
  Filter gen girName cType

/-- `FilterMethod` of `filter.go`; a `gir.Method` is given by its callable attributes. -/
def FilterMethod (gen : FileGenerator) (parent : Str) (method : gir.CallableAttrs) : Bool :=
  FilterSub gen parent method.Name method.CIdentifier

/-- `FilterField` of `filter.go`. -/
def FilterField (gen : FileGenerator) (parent : Str) (field : gir.Field) : Bool :=
  FilterSub gen parent field.Name []

/-- `AbsoluteFilter` of `filter.go`. -/
def AbsoluteFilter (abs : Str) : Except Panic FilterMatcher :=
  match strings.SplitN abs '.' 2 with
  | [p0, p1] => .ok (.absoluteFilter p0 p1)
  | _ => .error .logPanic

/-- `wholeMatchRegex` of `filter.go`. -/
def wholeMatchRegex (regex : Str) : Str :=
  if strings.Contains regex "(?".toList then regex
  else '^' :: regex ++ "$".toList

/-- `RegexFilter` of `filter.go`; `compile` is `regexp.MustCompile`, absent when it
panics. -/
def RegexFilter (compile : Str → Option Regexp) (matcher : Str) : Except Panic FilterMatcher :=
  match strings.SplitN matcher '.' 2 with
  | [p0, p1] =>
    match compile (wholeMatchRegex p1) with
    | some regex => .ok (.regexFilter p0 regex)
    | none => .error .logPanic
  | _ => .error .logPanic

/-! ## The native-callback trampoline of `pkg/gsk/v4/gsk_export.go` -/

namespace gbox

/-- Modelled from the spec: the registry of package `gbox` maps a handle to "a boxed managed
value". The box is a Go `interface{}`: the nil interface, a `ParseErrorFunc` (the nil
function value `none`, or the function named by a number), or a value of some other dynamic
type. -/
inductive Boxed where
  | nil
  | ParseErrorFunc (fn : Option Nat)
  | other (tag : Nat)
  deriving DecidableEq, Repr

/-- Modelled from the spec: the handle registry, its live mappings (latest first) and the
next handle to mint; "handles are never reused while live". -/
structure Registry where
  live : List (Nat × Boxed)
  next : Nat
  deriving DecidableEq, Repr

/-- Modelled from the spec: `Register(managedValue) -> handle`. -/
def Registry.Register (reg : Registry) (v : Boxed) : Nat × Registry :=
  (reg.next, { live := (reg.next, v) :: reg.live, next := reg.next + 1 })

/-- Modelled from the spec: `Release(handle)` "drops the mapping". -/
def Registry.Release (reg : Registry) (handle : Nat) : Registry :=
  { reg with live := reg.live.filter (fun entry => !(entry.1 == handle)) }

/-- Modelled from the spec: `gbox.Get`, the lookup behind `Resolve`: the value registered
under the handle, the nil interface for a handle without a live mapping. -/
def Registry.Get (reg : Registry) (handle : Nat) : Boxed :=
  match reg.live.find? (fun entry => entry.1 == handle) with
  | some entry => entry.2
  | none => .nil

end gbox

/-- The panics of the trampoline: the explicit `panic("callback not found")`, the failed
type assertion `v.(ParseErrorFunc)`, and the call of a nil function value. -/
inductive TrampolinePanic where
  | callbackNotFound
  | interfaceConversion
  | nilDereference
  deriving DecidableEq, Repr

/-- One call of a managed `ParseErrorFunc`: the callback, the native addresses its two
`*ParseLocation` arguments alias, and the managed error. -/
structure ParseErrorCall where
  fn : Nat
  start : Nat
  end_ : Nat
  err : Option Str
  deriving DecidableEq, Repr

/-- Modelled from the spec: `gextras.NewStructNative` wraps a native address "rather than
copying": the wrapper is the address. -/
def gextras.NewStructNative (native : Nat) : Nat :=
  native

/-- Modelled from the spec: `gerror.Take` "converts a native error object, if present, into
the managed error model"; a native error is given by its message, a nil pointer by its
absence. -/
def gerror.Take (gerror : Option Str) : Option Str :=
  gerror

/-- The exported trampoline `_gotk4_gsk4_ParseErrorFunc` of `gsk_export.go`, on the registry
state `reg`. It returns nothing to its native caller; the result is the list of managed
callback calls it made. The test `v == nil` panics on the nil interface, the assertion
`v.(ParseErrorFunc)` on a value of another type, and the call `fn(_start, _end, _err)` on a
nil `ParseErrorFunc`, after the arguments were converted. -/
def _gotk4_gsk4_ParseErrorFunc (reg : gbox.Registry) (arg1 arg2 : Nat) (arg3 : Option Str)
    (arg4 : Nat) : Except TrampolinePanic (List ParseErrorCall) :=
  match reg.Get arg4 with
  | .nil => .error .callbackNotFound
  | .other _ => .error .interfaceConversion
  | .ParseErrorFunc fn =>
    let _start := gextras.NewStructNative arg1
    let _end := gextras.NewStructNative arg2
    let _err := gerror.Take arg3
    match fn with
    | none => .error .nilDereference
    | some fn => .ok [{ fn := fn, start := _start, end_ := _end, err := _err }]

/-- Follows the spec's words: "`s` fully equals a regex match" of the pattern, that is, a
match of the expression that starts at the beginning of `s` ends at its end. -/
def regexp.Re.FullMatch (r : regexp.Re) (s : Str) : Bool :=
  decide (s.length ∈ regexp.ends s r 0)

/-! ## Example models -/

/-- A repository for namespace `Foo` with the given version and declarations. -/
def fooRepo (version : Str) (types : List gir.Node) : gir.Repository :=
  { Path := "Foo.gir".toList, Name := "Foo".toList, Version := version,
    Packages := [], CIncludes := [], Types := types }

/-- The enum `Bar` with members of the given native identifiers. -/
def barEnum (cIdentifiers : List Str) : gir.Node :=
  .Enum { Name := "Bar".toList, Doc := none,
          Members := cIdentifiers.map (fun c => { Name := c, CIdentifier := c }) }

/-- The class `Widget` of `widgetRepo`. -/
def widgetClass (direction : Str) : gir.Class :=
  { Name := "Widget".toList, Doc := none,
    Constructors := [⟨"new".toList, "foo_widget_new".toList, none, []⟩],
    Methods := [
      ⟨"set_value".toList, "foo_widget_set_value".toList, none,
        [⟨"value".toList, direction, "none".toList⟩, ⟨"flags".toList, "in".toList, "none".toList⟩]⟩,
      ⟨"get_value".toList, "foo_widget_get_value".toList, none,
        [⟨"value".toList, "in".toList, "none".toList⟩]⟩],
    VirtualMethods := [], Signals := [], Fields := [] }

/-- A repository for namespace `Foo` with the class `Widget`: a constructor `new`, the
method `set_value` with parameters `value` (of the given direction) and `flags`, and the
method `get_value` with a parameter `value`. -/
def widgetRepo (version direction : Str) : gir.Repository :=
  fooRepo version [.Class {
    Name := "Widget".toList, Doc := none,
    Constructors := [⟨"new".toList, "foo_widget_new".toList, none, []⟩],
    Methods := [
      ⟨"set_value".toList, "foo_widget_set_value".toList, none,
        [⟨"value".toList, direction, "none".toList⟩, ⟨"flags".toList, "in".toList, "none".toList⟩]⟩,
      ⟨"get_value".toList, "foo_widget_get_value".toList, none,
        [⟨"value".toList, "in".toList, "none".toList⟩]⟩],
    VirtualMethods := [], Signals := [], Fields := [] }]

/-- A repository for namespace `Foo-1` with the top-level function of the given name and the
enum `Bar`. -/
def funcRepo (name : Str) : gir.Repository :=
  fooRepo "1".toList
    [.Function ⟨⟨name, "foo_do_thing".toList, none, []⟩, none⟩, barEnum ["FOO_BAR_ONE".toList]]

/-- The class `Widget` with a constructor and a method both called `create`, of the given
native identifiers, and a method `show`. -/
def createClass (ctorC methodC : Str) : gir.Class :=
  { Name := "Widget".toList, Doc := none,
    Constructors := [⟨"create".toList, ctorC, none, []⟩],
    Methods := [⟨"show".toList, "foo_widget_show".toList, none, []⟩,
      ⟨"create".toList, methodC, none, []⟩],
    VirtualMethods := [], Signals := [], Fields := [] }

/-- A repository for namespace `Foo-1` with the class of `createClass`. -/
def createRepo (ctorC methodC : Str) : gir.Repository :=
  fooRepo "1".toList [.Class (createClass ctorC methodC)]

/-- A repository loaded from `Foo.gir` with the given package and include names and the
record `Rec` with the given field names. -/
def pkgRepo (pkgs cincls fields : List Str) : gir.Repository :=
  { Path := "Foo.gir".toList, Name := "Foo".toList, Version := "1".toList,
    Packages := pkgs.map (fun n => ⟨n⟩), CIncludes := cincls.map (fun n => ⟨n⟩),
    Types := [.Record ⟨"Rec".toList, none, [], [], fields.map (fun n => ⟨n⟩)⟩] }

/-! ## Theorems -/

/-! ### Splitting at a separator -/

theorem Cut_append (sep : Char) (a b : Str) (h : sep ∉ a) :
    strings.Cut sep (a ++ sep :: b) = some (a, b) := by
  induction a with
  | nil => simp [strings.Cut]
  | cons c cs ih =>
    have hc : c ≠ sep := fun e => h (by simp [e])
    have hcs : sep ∉ cs := fun e => h (by simp [e])
    simp [strings.Cut, hc, ih hcs]

theorem Cut_eq_none (sep : Char) (s : Str) (h : sep ∉ s) : strings.Cut sep s = none := by
  induction s with
  | nil => rfl
  | cons c cs ih =>
    have hc : c ≠ sep := fun e => h (by simp [e])
    have hcs : sep ∉ cs := fun e => h (by simp [e])
    simp [strings.Cut, hc, ih hcs]

theorem Cut_eq_some (sep : Char) (s a b : Str) (h : strings.Cut sep s = some (a, b)) :
    s = a ++ sep :: b ∧ sep ∉ a := by
  induction s generalizing a with
  | nil => simp [strings.Cut] at h
  | cons c cs ih =>
    by_cases hc : c = sep
    · simp [strings.Cut, hc] at h
      obtain ⟨rfl, rfl⟩ := h
      simp [hc]
    · cases hcut : strings.Cut sep cs with
      | none => simp [strings.Cut, hc, hcut] at h
      | some ab =>
        obtain ⟨a', b'⟩ := ab
        simp [strings.Cut, hc, hcut] at h
        obtain ⟨rfl, rfl⟩ := h
        obtain ⟨h1, h2⟩ := ih a' hcut
        refine ⟨by simp [h1], ?_⟩
        intro hmem
        rcases List.mem_cons.1 hmem with e | e
        · exact hc e.symm
        · exact h2 e

theorem Cut_none_not_mem (sep : Char) (s : Str) (h : strings.Cut sep s = none) : sep ∉ s := by
  induction s with
  | nil => simp
  | cons c cs ih =>
    by_cases hc : c = sep
    · simp [strings.Cut, hc] at h
    · cases hcut : strings.Cut sep cs with
      | none =>
        intro hmem
        rcases List.mem_cons.1 hmem with e | e
        · exact hc e.symm
        · exact ih hcut e
      | some ab => simp [strings.Cut, hc, hcut] at h

theorem Cut_of_mem (sep : Char) (s : Str) (h : sep ∈ s) :
    ∃ a b, strings.Cut sep s = some (a, b) := by
  cases hcut : strings.Cut sep s with
  | none => exact absurd h (Cut_none_not_mem sep s hcut)
  | some ab => exact ⟨ab.1, ab.2, rfl⟩

theorem SplitGIRType_append (N X : Str) (h : '.' ∉ N) :
    gir.SplitGIRType (N ++ '.' :: X) = (N, X) := by
  simp [gir.SplitGIRType, Cut_append '.' N X h]

theorem SplitN_two_append (sep : Char) (a b : Str) (h : sep ∉ a) :
    strings.SplitN (a ++ sep :: b) sep 2 = [a, b] := by
  simp [strings.SplitN, Cut_append sep a b h]

/-- How `EqNamespace` decides, with the candidate's namespace and bare name written out. -/
theorem EqNamespace_eq (nsp girType : Str) :
    EqNamespace nsp girType =
      ((gir.SplitGIRType girType).2,
        decide ((gir.SplitGIRType girType).1 =
          if (gir.ParseVersionName nsp).2 ≠ [] ∧
              (gir.ParseVersionName (gir.SplitGIRType girType).1).2 = []
          then (gir.ParseVersionName nsp).1 else nsp)) := by
  unfold EqNamespace
  by_cases h1 : (gir.ParseVersionName nsp).2 = [] <;>
    by_cases h2 : (gir.ParseVersionName (gir.SplitGIRType girType).1).2 = [] <;>
    simp [h1, h2]

/-! ### The in-place removal idiom is a filter -/

theorem keepLoop_spec {α : Type} (keep : α → Bool) (l : List α) (n i w : Nat)
    (backing : List α) (hn : i + n = l.length) (hlen : backing.length = l.length)
    (hw : ((l.take i).filter keep).length = w) (hwi : w ≤ i)
    (hkept : ∀ k, k < w → backing[k]? = ((l.take i).filter keep)[k]?)
    (hrest : ∀ k, i ≤ k → backing[k]? = l[k]?) :
    ((keepLoop keep n i w backing).1).take (keepLoop keep n i w backing).2 = l.filter keep := by
  induction n generalizing i w backing with
  | zero =>
    have hi : i = l.length := by omega
    subst hi
    simp only [keepLoop]
    rw [List.take_length] at hw hkept
    apply List.ext_getElem?
    intro k
    by_cases hk : k < w
    · rw [List.getElem?_take_of_lt hk]
      exact hkept k hk
    · rw [List.getElem?_eq_none (by rw [List.length_take]; omega),
        List.getElem?_eq_none (by omega)]
  | succ n ih =>
    have hi : i < l.length := by omega
    have hxi : backing[i]? = some l[i] := by
      rw [hrest i (Nat.le_refl i), List.getElem?_eq_getElem hi]
    have htake : l.take (i + 1) = l.take i ++ [l[i]] := by
      rw [List.take_succ, List.getElem?_eq_getElem hi]
      rfl
    simp only [keepLoop, hxi]
    by_cases hx : keep l[i] = true
    · simp only [hx, if_true]
      apply ih (i + 1) (w + 1) (backing.set w l[i]) (by omega) (by simpa using hlen)
      · rw [htake, List.filter_append]
        simp [hx, hw]
      · omega
      · intro k hk
        rw [htake, List.filter_append]
        simp only [List.filter_cons, hx, if_true, List.filter_nil]
        by_cases hkw : k = w
        · subst hkw
          rw [List.getElem?_set_self (by omega)]
          rw [List.getElem?_append_right (by omega)]
          simp [hw]
        · have hklt : k < w := by omega
          rw [List.getElem?_set_ne (by omega)]
          rw [List.getElem?_append_left (by omega)]
          exact hkept k hklt
      · intro k hk
        rw [List.getElem?_set_ne (by omega)]
        exact hrest k (by omega)
    · simp only [hx, if_false]
      apply ih (i + 1) w backing (by omega) hlen
      · rw [htake, List.filter_append]
        simp [hx, hw]
      · omega
      · intro k hk
        rw [htake, List.filter_append]
        have hx' : keep l[i] = false := by simpa using hx
        simp only [List.filter_cons, hx', Bool.false_eq_true, if_false, List.filter_nil,
          List.append_nil]
        exact hkept k hk
      · intro k hk
        exact hrest k (by omega)

/-- The in-place loop leaves exactly the elements that are kept, in their order. -/
theorem keepInPlace_eq_filter {α : Type} (keep : α → Bool) (l : List α) :
    keepInPlace keep l = l.filter keep :=
  keepLoop_spec keep l l.length 0 0 l (by omega) rfl (by simp) (Nat.le_refl 0)
    (fun k hk => absurd hk (Nat.not_lt_zero k)) (fun _ _ => rfl)

/-! ### C1 -/

/-- C1: for a requested qualifier `Q` that carries a version and a candidate `N.X` whose
namespace `N` (text without `.`) carries none, `EqNamespace` returns `X` and matches exactly
when `N` is `Q` with its version stripped; when `N` itself carries a version the comparison
is plain equality of `N` with `Q`. -/
theorem EqNamespace_versioned_qualifier (Q N X : Str) (hN : '.' ∉ N)
    (hQ : (gir.ParseVersionName Q).2 ≠ []) :
    ((gir.ParseVersionName N).2 = [] →
        EqNamespace Q (N ++ '.' :: X) = (X, decide (N = (gir.ParseVersionName Q).1))) ∧
    ((gir.ParseVersionName N).2 ≠ [] →
        EqNamespace Q (N ++ '.' :: X) = (X, decide (N = Q))) := by
  constructor <;> intro hV <;>
    simp [EqNamespace_eq, SplitGIRType_append N X hN, hQ, hV]

theorem EqNamespace_versioned_qualifier_witness :
    ((gir.ParseVersionName "Foo".toList).2 = [] →
        EqNamespace "Foo-1.0".toList ("Foo".toList ++ '.' :: "Bar".toList)
          = ("Bar".toList, decide ("Foo".toList = (gir.ParseVersionName "Foo-1.0".toList).1))) ∧
    ((gir.ParseVersionName "Foo".toList).2 ≠ [] →
        EqNamespace "Foo-1.0".toList ("Foo".toList ++ '.' :: "Bar".toList)
          = ("Bar".toList, decide ("Foo".toList = "Foo-1.0".toList))) :=
  EqNamespace_versioned_qualifier "Foo-1.0".toList "Foo".toList "Bar".toList
    (by decide) (by decide)

/-! ### C2 -/

theorem filterLoop_omit (g c : Str) (fs : List FilterMatcher) (k : Nat) :
    (filterLoop g c fs k).omit_ = true ↔ ∃ f ∈ fs, f.Filter g c = true := by
  induction fs generalizing k with
  | nil => simp [filterLoop]
  | cons f rest ih =>
    by_cases hf : f.Filter g c = true
    · simp [filterLoop, hf]
    · simp [filterLoop, hf, ih]

theorem filterLoop_logged (g c : Str) (fs : List FilterMatcher) (k i : Nat) :
    (filterLoop g c fs k).logged = some i ↔
      k ≤ i ∧ (∃ f, fs[i - k]? = some f ∧ f.Filter g c = true) ∧
        ∀ j, j < i - k → ∀ f, fs[j]? = some f → f.Filter g c = false := by
  induction fs generalizing k with
  | nil => simp [filterLoop]
  | cons f rest ih =>
    by_cases hf : f.Filter g c = true
    · simp only [filterLoop, hf, if_true, Option.some.injEq]
      constructor
      · rintro rfl
        simp [hf]
      · rintro ⟨hk, ⟨f', hf', hm⟩, hall⟩
        by_contra hne
        have hpos : 0 < i - k := by omega
        have := hall 0 hpos f (by simp)
        simp [hf] at this
    · have hf' : f.Filter g c = false := by simpa using hf
      simp only [filterLoop, hf', Bool.false_eq_true, if_false, ih]
      constructor
      · rintro ⟨hk, ⟨f', hget, hm⟩, hall⟩
        have e : i - k = (i - (k + 1)) + 1 := by omega
        refine ⟨by omega, ⟨f', by rw [e]; simpa using hget, hm⟩, ?_⟩
        intro j hj f'' hj'
        cases j with
        | zero =>
          simp at hj'
          subst hj'
          exact hf'
        | succ j =>
          simp at hj'
          exact hall j (by omega) f'' hj'
      · rintro ⟨hk, ⟨f', hget, hm⟩, hall⟩
        have hne : i ≠ k := by
          rintro rfl
          simp at hget
          subst hget
          simp [hf'] at hm
        have e : i - k = (i - (k + 1)) + 1 := by omega
        rw [e] at hget
        refine ⟨by omega, ⟨f', by simpa using hget, hm⟩, ?_⟩
        intro j hj f'' hj'
        exact hall (j + 1) (by omega) f'' (by simpa using hj')

theorem filterLoop_consulted (g c : Str) (fs : List FilterMatcher) (k : Nat) :
    (∀ i, (filterLoop g c fs k).logged = some i →
        (filterLoop g c fs k).omit_ = true ∧ (filterLoop g c fs k).consulted = i + 1) ∧
    ((filterLoop g c fs k).omit_ = false →
        (filterLoop g c fs k).logged = none ∧ (filterLoop g c fs k).consulted = k + fs.length) := by
  induction fs generalizing k with
  | nil => simp [filterLoop]
  | cons f rest ih =>
    by_cases hf : f.Filter g c = true
    · simp [filterLoop, hf]
    · have hf' : f.Filter g c = false := by simpa using hf
      simp only [filterLoop, hf', Bool.false_eq_true, if_false]
      refine ⟨(ih (k + 1)).1, fun h => ?_⟩
      have := (ih (k + 1)).2 h
      refine ⟨this.1, ?_⟩
      rw [this.2, List.length_cons]
      omega

/-- C2: `Filter` takes the decision of the first matcher, in `gen.Filters()` order, that
reports true for the namespace-qualified name and the native identifier. It returns true iff
some matcher of the list matches; the matcher it logs is the one at the least matching
index, and no matcher after that one is consulted; when it returns false nothing is logged
and every matcher was consulted; for the empty list it returns false. -/
theorem Filter_first_match (gen : FileGenerator) (gir c : Str) :
    (Filter gen gir c = true ↔
      ∃ f ∈ gen.Filters, f.Filter (EnsureNamespace gen.Namespace gir) c = true) ∧
    (∀ i, (Filter.run gen gir c).logged = some i ↔
      (∃ f, gen.Filters[i]? = some f ∧ f.Filter (EnsureNamespace gen.Namespace gir) c = true) ∧
      ∀ j, j < i → ∀ f, gen.Filters[j]? = some f →
        f.Filter (EnsureNamespace gen.Namespace gir) c = false) ∧
    (∀ i, (Filter.run gen gir c).logged = some i →
      Filter gen gir c = true ∧ (Filter.run gen gir c).consulted = i + 1) ∧
    (Filter gen gir c = false →
      (Filter.run gen gir c).logged = none ∧
        (Filter.run gen gir c).consulted = gen.Filters.length) ∧
    (gen.Filters = [] → Filter gen gir c = false) := by
  refine ⟨filterLoop_omit _ _ _ _, ?_, ?_, ?_, ?_⟩
  · intro i
    have := filterLoop_logged (EnsureNamespace gen.Namespace gir) c gen.Filters 0 i
    simpa [Filter.run] using this
  · exact (filterLoop_consulted _ _ _ _).1
  · intro h
    have := (filterLoop_consulted (EnsureNamespace gen.Namespace gir) c gen.Filters 0).2 h
    simpa [Filter.run] using this
  · intro h
    simp [Filter, Filter.run, h, filterLoop]

theorem Filter_first_match_witness :
    Filter ⟨"Foo".toList, [.absoluteFilter "Foo".toList "Bar".toList,
        .absoluteFilter "C".toList "foo_bar".toList]⟩ "Bar".toList "foo_bar".toList = true ∧
    (Filter.run ⟨"Foo".toList, [.absoluteFilter "Foo".toList "Bar".toList,
        .absoluteFilter "C".toList "foo_bar".toList]⟩ "Bar".toList "foo_bar".toList).consulted
      = 0 + 1 :=
  (Filter_first_match ⟨"Foo".toList, [.absoluteFilter "Foo".toList "Bar".toList,
      .absoluteFilter "C".toList "foo_bar".toList]⟩ "Bar".toList "foo_bar".toList).2.2.1 0
    (by decide)

/-! ### C4 -/

/-- The namespace comparison of `EqNamespace`: the candidate's namespace is the wanted one,
or the wanted one has a version, the candidate's has none, and the candidate's namespace is
the wanted one without its version. -/
theorem EqNamespace_snd_iff (nsp girType : Str) :
    (EqNamespace nsp girType).2 = true ↔
      (gir.SplitGIRType girType).1 = nsp ∨
      ((gir.ParseVersionName nsp).2 ≠ [] ∧
        (gir.ParseVersionName (gir.SplitGIRType girType).1).2 = [] ∧
        (gir.SplitGIRType girType).1 = (gir.ParseVersionName nsp).1) := by
  rw [EqNamespace_eq]
  by_cases h1 : (gir.ParseVersionName nsp).2 = []
  · simp [h1]
  · by_cases h2 : (gir.ParseVersionName (gir.SplitGIRType girType).1).2 = []
    · simp only [h1, h2, ne_eq, not_false_eq_true, and_self, if_true, decide_eq_true_eq,
        true_and]
      constructor
      · intro h
        exact Or.inr h
      · rintro (h | h)
        · rw [h] at h2
          exact absurd h2 h1
        · exact h
    · simp [h1, h2]

theorem EnsureNamespace_of_dot (nsp a b : Str) :
    EnsureNamespace nsp (a ++ '.' :: b) = a ++ '.' :: b := by
  have h : strings.Contains (a ++ '.' :: b) ['.'] = true := by
    induction a with
    | nil => simp [strings.Contains, List.isPrefixOf]
    | cons x xs ih => simp [strings.Contains, ih]
  have h' : strings.Contains (a ++ '.' :: b) ".".toList = true := h
  simp only [EnsureNamespace, h', if_true]

/-- Every string with a `.` is the text before its first `.`, the `.`, and the rest. -/
theorem split_at_first_dot (abs : Str) (h : '.' ∈ abs) :
    ∃ NS Name : Str, '.' ∉ NS ∧ abs = NS ++ '.' :: Name := by
  obtain ⟨a, b, hcut⟩ := Cut_of_mem '.' abs h
  obtain ⟨h1, h2⟩ := Cut_eq_some '.' abs a b hcut
  exact ⟨a, b, h2, h1⟩

/-- C4, as stated, fails for a filter string whose namespace has a version with a `.`:
`AbsoluteFilter("Foo-1.0.Bar")` splits the string at its first `.` and stores the namespace
`Foo-1` and the name `0.Bar`, so the candidate `Foo.Bar`, whose namespace `Foo` equals
`Foo-1.0` under the version elision of `EqNamespace` and whose bare name is `Bar`, is not
omitted. -/
theorem AbsoluteFilter_splits_at_first_dot :
    EqNamespace "Foo-1.0".toList "Foo.Bar".toList = ("Bar".toList, true) ∧
    AbsoluteFilter "Foo-1.0.Bar".toList
      = .ok (.absoluteFilter "Foo-1".toList "0.Bar".toList) ∧
    (∃ m, AbsoluteFilter "Foo-1.0.Bar".toList = .ok m ∧
      m.Filter "Foo.Bar".toList "foo_bar".toList = false ∧
      ∀ nsp : Str, Filter ⟨nsp, [m]⟩ "Foo.Bar".toList "foo_bar".toList = false) := by
  refine ⟨by decide, rfl, .absoluteFilter "Foo-1".toList "0.Bar".toList, rfl, by decide, ?_⟩
  intro nsp
  have e1 : EnsureNamespace nsp "Foo.Bar".toList = "Foo.Bar".toList :=
    EnsureNamespace_of_dot nsp "Foo".toList "Bar".toList
  simp only [Filter, Filter.run, e1]
  decide

/-- C4, amended: `AbsoluteFilter` splits its filter string at the first `.`, into `NS` (the
text before it, hence without a `.`) and `Name` (all the rest), and panics on a string
without a `.`. The matcher it builds, when `NS` is `C`, matches iff the native identifier is
`Name`, whatever the GIR name is, and otherwise matches iff the namespace of the GIR name
equals `NS` under the version elision of `EqNamespace` and its bare name is `Name`. For
`Foo-1.0.Bar`, `NS` is `Foo-1` and `Name` is `0.Bar`, and with the filter list
`[AbsoluteFilter("Foo-1.0.Bar")]`, `Filter(gen, "Foo-1.0.Bar", "foo_bar")` is true and
`Filter(gen, "Foo-1.0.Baz", "foo_baz")` is false, for every generator namespace. -/
theorem AbsoluteFilter_matches :
    (∀ NS Name : Str, '.' ∉ NS →
      AbsoluteFilter (NS ++ '.' :: Name) = .ok (.absoluteFilter NS Name) ∧
      ∃ m, AbsoluteFilter (NS ++ '.' :: Name) = .ok m ∧
        ∀ girName c : Str,
          (NS = "C".toList → (m.Filter girName c = true ↔ c = Name)) ∧
          (NS ≠ "C".toList → (m.Filter girName c = true ↔
            (((gir.SplitGIRType girName).1 = NS ∨
              ((gir.ParseVersionName NS).2 ≠ [] ∧
                (gir.ParseVersionName (gir.SplitGIRType girName).1).2 = [] ∧
                (gir.SplitGIRType girName).1 = (gir.ParseVersionName NS).1)) ∧
              (gir.SplitGIRType girName).2 = Name)) ∧
            (m.Filter girName c = true ↔
              (EqNamespace NS girName).2 = true ∧ (gir.SplitGIRType girName).2 = Name))) ∧
    (∀ abs : Str, '.' ∈ abs → ∃ NS Name : Str, '.' ∉ NS ∧ abs = NS ++ '.' :: Name) ∧
    (∀ abs : Str, '.' ∉ abs → AbsoluteFilter abs = .error .logPanic) ∧
    (∃ m, AbsoluteFilter "Foo-1.0.Bar".toList = .ok m ∧
      ∀ nsp : Str,
        Filter ⟨nsp, [m]⟩ "Foo-1.0.Bar".toList "foo_bar".toList = true ∧
        Filter ⟨nsp, [m]⟩ "Foo-1.0.Baz".toList "foo_baz".toList = false) := by
  refine ⟨?_, split_at_first_dot, ?_, ?_⟩
  · intro NS Name hNS
    have hab : AbsoluteFilter (NS ++ '.' :: Name) = .ok (.absoluteFilter NS Name) := by
      simp [AbsoluteFilter, SplitN_two_append '.' NS Name hNS]
    refine ⟨hab, .absoluteFilter NS Name, hab, ?_⟩
    intro girName c
    constructor
    · intro h
      simp [FilterMatcher.Filter, h]
    · intro h
      have key := EqNamespace_snd_iff NS girName
      have hfst : (EqNamespace NS girName).1 = (gir.SplitGIRType girName).2 := by
        rw [EqNamespace_eq]
      constructor
      · simp only [FilterMatcher.Filter, h, if_false, Bool.and_eq_true, decide_eq_true_eq]
        rw [key, hfst]
      · simp only [FilterMatcher.Filter, h, if_false, Bool.and_eq_true, decide_eq_true_eq]
        rw [hfst]
  · intro abs h
    have hcut : strings.Cut '.' abs = none := by
      cases hc : strings.Cut '.' abs with
      | none => rfl
      | some ab =>
        obtain ⟨a, b⟩ := ab
        have := (Cut_eq_some '.' abs a b hc).1
        exact absurd (by rw [this]; simp) h
    simp [AbsoluteFilter, strings.SplitN, hcut]
  · refine ⟨.absoluteFilter "Foo-1".toList "0.Bar".toList, rfl, ?_⟩
    intro nsp
    have e1 := EnsureNamespace_of_dot nsp "Foo-1".toList "0.Bar".toList
    have e2 := EnsureNamespace_of_dot nsp "Foo-1".toList "0.Baz".toList
    have e1' : EnsureNamespace nsp "Foo-1.0.Bar".toList = "Foo-1.0.Bar".toList := e1
    have e2' : EnsureNamespace nsp "Foo-1.0.Baz".toList = "Foo-1.0.Baz".toList := e2
    constructor
    · simp only [Filter, Filter.run, e1']
      decide
    · simp only [Filter, Filter.run, e2']
      decide

theorem AbsoluteFilter_matches_witness :
    AbsoluteFilter ("Foo-1".toList ++ '.' :: "0.Bar".toList)
      = .ok (.absoluteFilter "Foo-1".toList "0.Bar".toList) ∧
    ∃ m, AbsoluteFilter ("Foo-1".toList ++ '.' :: "0.Bar".toList) = .ok m ∧
      ∀ girName c : Str,
        ("Foo-1".toList = "C".toList → (m.Filter girName c = true ↔ c = "0.Bar".toList)) ∧
        ("Foo-1".toList ≠ "C".toList → (m.Filter girName c = true ↔
          (((gir.SplitGIRType girName).1 = "Foo-1".toList ∨
            ((gir.ParseVersionName "Foo-1".toList).2 ≠ [] ∧
              (gir.ParseVersionName (gir.SplitGIRType girName).1).2 = [] ∧
              (gir.SplitGIRType girName).1 = (gir.ParseVersionName "Foo-1".toList).1)) ∧
            (gir.SplitGIRType girName).2 = "0.Bar".toList)) ∧
          (m.Filter girName c = true ↔
            (EqNamespace "Foo-1".toList girName).2 = true ∧
              (gir.SplitGIRType girName).2 = "0.Bar".toList)) :=
  AbsoluteFilter_matches.1 "Foo-1".toList "0.Bar".toList (by decide)

/-! ### C5 -/

/-- C5, as stated, fails: the unversioned qualifier `Foo` does not match a candidate whose
namespace is the versioned `Foo-1`. -/
theorem EqNamespace_unversioned_qualifier_no_match :
    EqNamespace "Foo".toList "Foo-1.Bar".toList = ("Bar".toList, false) := by
  decide

/-- C5, amended: the version is elided in one direction only. For a library name `N` (no
`.` and no `-`), a version `v` and a bare name `X`, the unversioned qualifier `N` does not
match the candidate `N-v.X`, while the versioned qualifier `N-v` (with `v` not empty) does
match the candidate `N.X`. -/
theorem EqNamespace_elides_one_direction (N v X : Str) (hdot : '.' ∉ N) (hdash : '-' ∉ N) :
    (EqNamespace N (N ++ '-' :: v ++ '.' :: X)).2 = false ∧
    (v ≠ [] → EqNamespace (N ++ '-' :: v) (N ++ '.' :: X) = (X, true)) := by
  have hN : gir.ParseVersionName N = (N, []) := by
    simp [gir.ParseVersionName, Cut_eq_none '-' N hdash]
  constructor
  · rw [EqNamespace_eq]
    simp only [hN, ne_eq, not_true_eq_false, false_and, if_false, decide_eq_false_iff_not]
    intro h
    cases hcut : strings.Cut '.' (N ++ '-' :: v ++ '.' :: X) with
    | none =>
      have := Cut_none_not_mem _ _ hcut
      simp at this
    | some ab =>
      obtain ⟨a, b⟩ := ab
      simp only [gir.SplitGIRType, hcut] at h
      subst h
      obtain ⟨h1, h2⟩ := Cut_eq_some _ _ _ _ hcut
      simp at h1
  · intro hv
    rw [EqNamespace_eq, SplitGIRType_append N X hdot]
    have hQ : gir.ParseVersionName (N ++ '-' :: v) = (N, v) := by
      simp [gir.ParseVersionName, Cut_append '-' N v hdash]
    simp [hQ, hN, hv]

theorem EqNamespace_elides_one_direction_witness :
    (EqNamespace "Foo".toList ("Foo".toList ++ '-' :: "1".toList ++ '.' :: "Bar".toList)).2 = false ∧
    ("1".toList ≠ [] →
      EqNamespace ("Foo".toList ++ '-' :: "1".toList) ("Foo".toList ++ '.' :: "Bar".toList)
        = ("Bar".toList, true)) :=
  EqNamespace_elides_one_direction "Foo".toList "1".toList "Bar".toList (by decide) (by decide)

/-! ### C3 -/

/-- C3 fails on the code for a pattern with a top-level alternation: `wholeMatchRegex` turns
`a|b` into `^a|b$`, where each anchor binds to one alternative only, so the filter
`RegexFilter("C.a|b")` matches the identifier `ac`, of which only the proper prefix `a`
matches `a|b`. -/
theorem RegexFilter_alternation_matches_partially :
    wholeMatchRegex "a|b".toList = "^a|b$".toList ∧
    (∃ m, RegexFilter regexp.MustCompile "C.a|b".toList = .ok m ∧
      m.Filter "Foo.Bar".toList "ac".toList = true) ∧
    (regexp.parse "a|b".toList).map (fun r => r.FullMatch "ac".toList) = some false ∧
    (regexp.parse "a|b".toList).map (fun r => r.FullMatch "a".toList) = some true := by
  refine ⟨by decide, ⟨_, rfl, by decide⟩, by decide, by decide⟩

/-! ### C6 -/

theorem renameMember_of_underscore (re : Regexp) (replace : Str) (m : gir.Member) (P R : Str)
    (hm : m.CIdentifier = P ++ '_' :: R) (hP : '_' ∉ P) :
    renameMember re replace m =
      .ok { m with CIdentifier := P ++ '_' :: re.ReplaceAllString R replace } := by
  simp [renameMember, hm, SplitN_two_append '_' P R hP]

theorem renameMembers_ok (re : Regexp) (replace : Str) (ms : List gir.Member)
    (hall : ∀ m ∈ ms, '_' ∈ m.CIdentifier) :
    ∃ ms', renameMembers re replace ms = .ok ms' ∧ ms'.length = ms.length ∧
      ∀ (i : Nat) (m : gir.Member) (P R : Str), ms[i]? = some m → m.CIdentifier = P ++ '_' :: R → '_' ∉ P →
        ms'[i]? = some { m with CIdentifier := P ++ '_' :: re.ReplaceAllString R replace } := by
  induction ms with
  | nil => exact ⟨[], rfl, rfl, by simp⟩
  | cons m rest ih =>
    obtain ⟨rest', hrest, hlen, hget⟩ := ih (fun x hx => hall x (by simp [hx]))
    obtain ⟨P, R, hcut⟩ := Cut_of_mem '_' m.CIdentifier (hall m (by simp))
    obtain ⟨hm, hP⟩ := Cut_eq_some _ _ _ _ hcut
    refine ⟨{ m with CIdentifier := P ++ '_' :: re.ReplaceAllString R replace } :: rest', ?_, ?_, ?_⟩
    · simp [renameMembers, renameMember_of_underscore re replace m P R hm hP, hrest]
    · simp [hlen]
    · intro i x P' R' hi hx hP'
      cases i with
      | zero =>
        simp at hi
        subst hi
        have e : strings.Cut '_' m.CIdentifier = some (P', R') := by
          rw [hx]
          exact Cut_append '_' P' R' hP'
        rw [hcut] at e
        simp at e
        obtain ⟨rfl, rfl⟩ := e
        simp
      | succ i =>
        simp at hi
        simpa using hget i x P' R' hi hx hP'

theorem renameMember_without_underscore (re : Regexp) (replace : Str) (m : gir.Member)
    (hm : '_' ∉ m.CIdentifier) : renameMember re replace m = .error .indexOutOfRange := by
  simp [renameMember, strings.SplitN, Cut_eq_none '_' m.CIdentifier hm]

/-- The member loop panics at the first member without an underscore, whatever the members
before and after it are. -/
theorem renameMembers_error (re : Regexp) (replace : Str) (ms : List gir.Member)
    (h : ∃ m ∈ ms, '_' ∉ m.CIdentifier) :
    renameMembers re replace ms = .error .indexOutOfRange := by
  induction ms with
  | nil => simp at h
  | cons m rest ih =>
    by_cases hm : '_' ∈ m.CIdentifier
    · obtain ⟨P, R, hcut⟩ := Cut_of_mem '_' m.CIdentifier hm
      obtain ⟨hmc, hP⟩ := Cut_eq_some _ _ _ _ hcut
      obtain ⟨x, hx, hxu⟩ := h
      rcases List.mem_cons.1 hx with e | e
      · subst e
        exact absurd hm hxu
      · simp [renameMembers, renameMember_of_underscore re replace m P R hmc hP,
          ih ⟨x, e, hxu⟩]
    · simp [renameMembers, renameMember_without_underscore re replace m hm]

/-- C6 fails on the code for an enum that has a member without an underscore beside a
member `P_R`: with the members `FOO`, `FOO_BAR_ONE`, regex `ONE` and replacement `FIRST`,
the access `parts[1]` panics at `FOO`, the preprocessor does not complete, and
`FOO_BAR_ONE` does not become `FOO_BAR_FIRST`. For every regex engine and every enum found,
the preprocessor panics when some member identifier has no underscore. When every member
identifier has an underscore, the preprocessor completes, the member list keeps its length
and order, and a member whose identifier is `P_R` (`P` the text before the first underscore)
gets the identifier `P_` followed by `ReplaceAllString(R, replace)`: the prefix `P` is kept
whatever the regex is. In particular, members `FOO_BAR_ONE`, `FOO_BAR_TWO` with regex `ONE`
and replacement `FIRST` become `FOO_BAR_FIRST`, `FOO_BAR_TWO`, and with regex `FOO` and
replacement `X` the members `FOO_FOO_ONE`, `FOO_BAR_TWO` become `FOO_X_ONE`, `FOO_BAR_TWO`. -/
theorem RenameEnumMembers_rewrite_stops_without_underscore :
    (∃ p, RenameEnumMembers regexp.MustCompile "Foo-1.Bar".toList "ONE".toList "FIRST".toList
        = .ok p ∧
      p [fooRepo "1".toList [barEnum ["FOO".toList, "FOO_BAR_ONE".toList]]]
        = .error .indexOutOfRange) ∧
    (∀ (compile : Str → Option Regexp) (enum regex replace : Str) (p : Preprocessor),
      RenameEnumMembers compile enum regex replace = .ok p →
      ∃ re, compile regex = some re ∧
        ∀ (repos : gir.Repositories) (result : gir.TypeFindResult) (e : gir.Enum),
          repos.FindFullType enum = some result → result.Type_ = .Enum e →
          ((∃ m ∈ e.Members, '_' ∉ m.CIdentifier) → p repos = .error .indexOutOfRange) ∧
          ((∀ m ∈ e.Members, '_' ∈ m.CIdentifier) →
            ∃ members,
              p repos = .ok (repos.store result (.Enum { e with Members := members })) ∧
              members.length = e.Members.length ∧
              ∀ (i : Nat) (m : gir.Member) (P R : Str), e.Members[i]? = some m →
                m.CIdentifier = P ++ '_' :: R → '_' ∉ P →
                members[i]? =
                  some { m with CIdentifier := P ++ '_' :: re.ReplaceAllString R replace })) ∧
    (∃ p, RenameEnumMembers regexp.MustCompile "Foo-1.Bar".toList "ONE".toList "FIRST".toList
        = .ok p ∧
      p [fooRepo "1".toList [barEnum ["FOO_BAR_ONE".toList, "FOO_BAR_TWO".toList]]] =
        .ok [fooRepo "1".toList [.Enum { Name := "Bar".toList, Doc := none, Members :=
          [⟨"FOO_BAR_ONE".toList, "FOO_BAR_FIRST".toList⟩,
           ⟨"FOO_BAR_TWO".toList, "FOO_BAR_TWO".toList⟩] }]]) ∧
    (∃ p, RenameEnumMembers regexp.MustCompile "Foo-1.Bar".toList "FOO".toList "X".toList
        = .ok p ∧
      p [fooRepo "1".toList [barEnum ["FOO_FOO_ONE".toList, "FOO_BAR_TWO".toList]]] =
        .ok [fooRepo "1".toList [.Enum { Name := "Bar".toList, Doc := none, Members :=
          [⟨"FOO_FOO_ONE".toList, "FOO_X_ONE".toList⟩,
           ⟨"FOO_BAR_TWO".toList, "FOO_BAR_TWO".toList⟩] }]]) := by
  refine ⟨⟨_, rfl, by rfl⟩, ?_, ⟨_, rfl, by rfl⟩, ⟨_, rfl, by rfl⟩⟩
  intro compile enum regex replace p hp
  unfold RenameEnumMembers at hp
  cases hv : girTypeMustBeVersioned enum with
  | error e => simp [hv] at hp
  | ok u =>
    cases hc : compile regex with
    | none => simp [hv, hc] at hp
    | some re =>
      simp only [hv, hc] at hp
      injection hp with hp
      subst hp
      refine ⟨re, rfl, ?_⟩
      intro repos result e hfind hty
      constructor
      · intro hex
        simp [RenameEnumMembers.Preprocess, hfind, hty,
          renameMembers_error re replace e.Members hex]
      · intro hall
        obtain ⟨ms', hms, hlen, hget⟩ := renameMembers_ok re replace e.Members hall
        refine ⟨ms', ?_, hlen, hget⟩
        simp [RenameEnumMembers.Preprocess, hfind, hty, hms]

theorem RenameEnumMembers_rewrite_stops_without_underscore_witness :
    ∃ (p : Preprocessor) (re : Regexp) (members : List gir.Member),
      RenameEnumMembers regexp.MustCompile "Foo-1.Bar".toList "ONE".toList "FIRST".toList
        = .ok p ∧
      regexp.MustCompile "ONE".toList = some re ∧
      p [fooRepo "1".toList [barEnum ["FOO_BAR_ONE".toList, "FOO_BAR_TWO".toList]]] =
        .ok (gir.Repositories.store
          [fooRepo "1".toList [barEnum ["FOO_BAR_ONE".toList, "FOO_BAR_TWO".toList]]]
          ⟨0, 0, barEnum ["FOO_BAR_ONE".toList, "FOO_BAR_TWO".toList]⟩
          (.Enum { Name := "Bar".toList, Doc := none, Members := members })) ∧
      members.length = 2 ∧
      members[0]? = some ⟨"FOO_BAR_ONE".toList,
        "FOO".toList ++ '_' :: re.ReplaceAllString "BAR_ONE".toList "FIRST".toList⟩ ∧
      p [fooRepo "1".toList [barEnum ["FOO_BAR_ONE".toList, "FOO".toList]]]
        = .error .indexOutOfRange := by
  obtain ⟨re, hre, h⟩ := RenameEnumMembers_rewrite_stops_without_underscore.2.1
    regexp.MustCompile "Foo-1.Bar".toList "ONE".toList "FIRST".toList _ rfl
  obtain ⟨members, h1, h2, h3⟩ :=
    (h [fooRepo "1".toList [barEnum ["FOO_BAR_ONE".toList, "FOO_BAR_TWO".toList]]]
      ⟨0, 0, barEnum ["FOO_BAR_ONE".toList, "FOO_BAR_TWO".toList]⟩
      { Name := "Bar".toList, Doc := none,
        Members := [⟨"FOO_BAR_ONE".toList, "FOO_BAR_ONE".toList⟩,
          ⟨"FOO_BAR_TWO".toList, "FOO_BAR_TWO".toList⟩] }
      (by rfl) rfl).2 (by decide)
  have h4 :=
    (h [fooRepo "1".toList [barEnum ["FOO_BAR_ONE".toList, "FOO".toList]]]
      ⟨0, 0, barEnum ["FOO_BAR_ONE".toList, "FOO".toList]⟩
      { Name := "Bar".toList, Doc := none,
        Members := [⟨"FOO_BAR_ONE".toList, "FOO_BAR_ONE".toList⟩,
          ⟨"FOO".toList, "FOO".toList⟩] }
      (by rfl) rfl).1 ⟨⟨"FOO".toList, "FOO".toList⟩, by decide, by decide⟩
  exact ⟨_, re, members, rfl, hre, h1, h2,
    h3 0 ⟨"FOO_BAR_ONE".toList, "FOO_BAR_ONE".toList⟩ "FOO".toList "BAR_ONE".toList rfl rfl
      (by decide), h4⟩

/-! ### C7 -/

/-- C7 fails on the code: for a member whose identifier `FOO` has no underscore,
`strings.SplitN` returns one part and the access `parts[1]` panics, so the preprocessor
does not complete, although the regex `ZZZ` matches nothing in the identifier. The same
holds for every compiled regex and every member without an underscore. -/
theorem RenameEnumMembers_panics_without_underscore :
    (∃ p, RenameEnumMembers regexp.MustCompile "Foo-1.Bar".toList "ZZZ".toList "x".toList
        = .ok p ∧
      p [fooRepo "1".toList [barEnum ["FOO".toList]]] = .error .indexOutOfRange) ∧
    (regexp.parse "ZZZ".toList).map (fun r => r.MatchString "FOO".toList) = some false ∧
    (∀ (re : Regexp) (replace : Str) (m : gir.Member), '_' ∉ m.CIdentifier →
      renameMember re replace m = .error .indexOutOfRange) := by
  refine ⟨⟨_, rfl, by rfl⟩, by decide, ?_⟩
  intro re replace m hm
  simp [renameMember, strings.SplitN, Cut_eq_none '_' m.CIdentifier hm]

/-! ### C8 -/

/-- C8 fails on the code: when the type does not resolve, the closure of `PreserveGetName`
logs and, lacking a `return`, goes on to call `Name` through the nil result, which panics;
the model is not handed back unchanged. When the type is found with name `n`, its name
becomes `get_` + `n` if `n` is guessed to be snake case and `Get` + `n` otherwise. -/
theorem PreserveGetName_not_found_panics (GuessSnake : Str → Bool) :
    (∃ p, PreserveGetName GuessSnake "Foo-1.Missing".toList = .ok p ∧
      p [fooRepo "1".toList [barEnum ["FOO_BAR_ONE".toList]]] = .error .nilDereference) ∧
    (∀ (girType : Str) (repos : gir.Repositories), repos.FindFullType girType = none →
      PreserveGetName.Preprocess GuessSnake girType repos = .error .nilDereference) ∧
    (∀ (girType : Str) (repos : gir.Repositories) (result : gir.TypeFindResult),
      repos.FindFullType girType = some result →
      PreserveGetName.Preprocess GuessSnake girType repos =
        .ok (repos.store result (result.Type_.SetName
          ((if GuessSnake result.Type_.Name then "get_".toList else "Get".toList)
            ++ result.Type_.Name)))) := by
  refine ⟨⟨_, rfl, by rfl⟩, ?_, ?_⟩
  · intro girType repos h
    simp [PreserveGetName.Preprocess, h]
  · intro girType repos result h
    by_cases hg : GuessSnake result.Type_.Name = true <;>
      simp [PreserveGetName.Preprocess, h, hg]

/-! ### C9 -/

theorem firstIndex_spec {α : Type} (p : α → Bool) (l : List α) (i : Nat)
    (h : firstIndex p l = some i) : ∃ x, l[i]? = some x ∧ p x = true := by
  induction l generalizing i with
  | nil => simp [firstIndex] at h
  | cons a rest ih =>
    by_cases ha : p a = true
    · simp [firstIndex, ha] at h
      subst h
      exact ⟨a, by simp, ha⟩
    · cases hr : firstIndex p rest with
      | none => simp [firstIndex, ha, hr] at h
      | some k =>
        simp [firstIndex, ha, hr] at h
        subst h
        obtain ⟨x, hx, hpx⟩ := ih k hr
        exact ⟨x, by simpa using hx, hpx⟩

theorem firstIndex_lt {α : Type} (p : α → Bool) (l : List α) (i : Nat)
    (h : firstIndex p l = some i) : i < l.length := by
  obtain ⟨x, hx, _⟩ := firstIndex_spec p l i h
  exact (List.getElem?_eq_some_iff.1 hx).1

theorem firstIndex_set_same {α : Type} (p : α → Bool) (l : List α) (i : Nat) (x : α)
    (h : firstIndex p l = some i) (hx : p x = true) : firstIndex p (l.set i x) = some i := by
  induction l generalizing i with
  | nil => simp [firstIndex] at h
  | cons a rest ih =>
    by_cases ha : p a = true
    · simp [firstIndex, ha] at h
      subst h
      simp [firstIndex, hx]
    · cases hr : firstIndex p rest with
      | none => simp [firstIndex, ha, hr] at h
      | some k =>
        simp [firstIndex, ha, hr] at h
        subst h
        simp [firstIndex, ha, ih k hr]

theorem firstIndex_set_none {α : Type} (p : α → Bool) (l : List α) (i : Nat) (x : α)
    (h : firstIndex p l = none) (hi : i < l.length) (hx : p x = true) :
    firstIndex p (l.set i x) = some i := by
  induction l generalizing i with
  | nil => simp at hi
  | cons a rest ih =>
    by_cases ha : p a = true
    · simp [firstIndex, ha] at h
    · cases hr : firstIndex p rest with
      | some k => simp [firstIndex, ha, hr] at h
      | none =>
        cases i with
        | zero => simp [firstIndex, hx]
        | succ k =>
          have hk : k < rest.length := by simpa using hi
          simp [firstIndex, ha, ih k hr hk]

/-- How `FindFullType` resolves a name `NS.T` whose qualifier `NS` has no `.` and has a
version: the place of the first repository with that versioned namespace, and in it the
place of the first declaration named `T`. -/
theorem FindFullType_some (repos : gir.Repositories) (NS T : Str) (res : gir.TypeFindResult)
    (hdot : '.' ∉ NS) (h : repos.FindFullType (NS ++ '.' :: T) = some res) :
    (gir.ParseVersionName NS).2 ≠ [] ∧
    ∃ repo, firstIndex (fun repo => decide (gir.VersionedNamespace repo = NS)) repos = some res.repo ∧
      repos[res.repo]? = some repo ∧
      firstIndex (fun node => decide (node.Name = T)) repo.Types = some res.index ∧
      repo.Types[res.index]? = some res.Type_ := by
  unfold gir.Repositories.FindFullType at h
  simp only [SplitGIRType_append NS T hdot] at h
  by_cases hver : (gir.ParseVersionName NS).2 = []
  · simp [hver] at h
  · refine ⟨hver, ?_⟩
    cases hr : firstIndex (fun repo => decide (gir.VersionedNamespace repo = NS)) repos with
    | none => simp [hver, hr] at h
    | some r =>
      cases hrepo : repos[r]? with
      | none => simp [hver, hr, hrepo] at h
      | some repo =>
        cases hi : firstIndex (fun node => decide (node.Name = T)) repo.Types with
        | none => simp [hver, hr, hrepo, hi] at h
        | some i =>
          cases hnode : repo.Types[i]? with
          | none => simp [hver, hr, hrepo, hi, hnode] at h
          | some node =>
            simp [hver, hr, hrepo, hi, hnode] at h
            subst h
            exact ⟨repo, rfl, hrepo, hi, hnode⟩

theorem FindFullType_none (repos : gir.Repositories) (NS T : Str) (r : Nat)
    (repo : gir.Repository) (hdot : '.' ∉ NS) (hver : (gir.ParseVersionName NS).2 ≠ [])
    (hr : firstIndex (fun repo => decide (gir.VersionedNamespace repo = NS)) repos = some r)
    (hrepo : repos[r]? = some repo)
    (h : repos.FindFullType (NS ++ '.' :: T) = none) :
    firstIndex (fun node => decide (node.Name = T)) repo.Types = none := by
  unfold gir.Repositories.FindFullType at h
  simp only [SplitGIRType_append NS T hdot] at h
  cases hi : firstIndex (fun node => decide (node.Name = T)) repo.Types with
  | none => rfl
  | some i =>
    obtain ⟨node, hnode, _⟩ := firstIndex_spec _ _ _ hi
    simp [hver, hr, hrepo, hi, hnode] at h

/-- Looking a name up after a write: when the declaration at place `i` of the repository for
`NS` is replaced by a node named `T`, and no declaration before place `i` is named `T`, then
`NS.T` resolves to that place and node. -/
theorem FindFullType_set (repos : gir.Repositories) (NS T : Str) (r i : Nat)
    (repo : gir.Repository) (node : gir.Node)
    (hdot : '.' ∉ NS) (hver : (gir.ParseVersionName NS).2 ≠ [])
    (hr : firstIndex (fun repo => decide (gir.VersionedNamespace repo = NS)) repos = some r)
    (hrepo : repos[r]? = some repo) (hi : i < repo.Types.length)
    (hT : firstIndex (fun n => decide (n.Name = T)) repo.Types = none ∨
      firstIndex (fun n => decide (n.Name = T)) repo.Types = some i)
    (hname : node.Name = T) :
    gir.Repositories.FindFullType (repos.set r { repo with Types := repo.Types.set i node })
      (NS ++ '.' :: T) = some ⟨r, i, node⟩ := by
  have hrlt : r < repos.length := firstIndex_lt _ _ _ hr
  have hp : (fun repo => decide (gir.VersionedNamespace repo = NS))
      { repo with Types := repo.Types.set i node } = true := by
    obtain ⟨x, hx, hpx⟩ := firstIndex_spec _ _ _ hr
    rw [hrepo] at hx
    injection hx with hx
    subst hx
    simpa [gir.VersionedNamespace] using hpx
  have h1 := firstIndex_set_same _ repos r { repo with Types := repo.Types.set i node } hr hp
  have h2 : firstIndex (fun n => decide (n.Name = T)) (repo.Types.set i node) = some i := by
    rcases hT with hT | hT
    · exact firstIndex_set_none _ _ _ _ hT hi (by simp [hname])
    · exact firstIndex_set_same _ _ _ _ hT (by simp [hname])
  unfold gir.Repositories.FindFullType
  simp only [SplitGIRType_append NS T hdot]
  simp [hver, h1, h2, hrlt, hi]

theorem store_eq (repos : gir.Repositories) (res : gir.TypeFindResult) (repo : gir.Repository)
    (node : gir.Node) (hrepo : repos[res.repo]? = some repo) :
    repos.store res node =
      repos.set res.repo { repo with Types := repo.Types.set res.index node } := by
  simp [gir.Repositories.store, hrepo]

theorem ApplyPreprocessors_append (repos : gir.Repositories) (ps qs : List Preprocessor) :
    ApplyPreprocessors repos (ps ++ qs) =
      match ApplyPreprocessors repos ps with
      | .ok repos => ApplyPreprocessors repos qs
      | .error e => .error e := by
  induction ps generalizing repos with
  | nil => simp [ApplyPreprocessors]
  | cons pre rest ih =>
    cases h : pre repos with
    | error e => simp [ApplyPreprocessors, h]
    | ok r => simp [ApplyPreprocessors, h, ih]

theorem typeRenamer_record (repos : gir.Repositories) (from_ to_ : Str)
    (result : gir.TypeFindResult) (record : gir.Record)
    (hfind : repos.FindFullType from_ = some result) (hrec : result.Type_ = .Record record) :
    typeRenamer.Preprocess from_ to_ repos =
      .ok (repos.store result (.Record { record with
        Name := to_,
        Doc := record.Doc.map (fun doc => doc ++ "\n\n".toList ++
          ("This type has been renamed from ".toList ++ record.Name ++ ".".toList)) })) := by
  cases hdoc : record.Doc with
  | none => simp [typeRenamer.Preprocess, hfind, hrec, gir.Node.SetName, gir.Node.Doc, hdoc,
      gir.Node.Name]
  | some doc => simp [typeRenamer.Preprocess, hfind, hrec, gir.Node.SetName, gir.Node.Doc, hdoc,
      gir.Node.Name, gir.Node.SetDoc]

theorem RemoveRecordFields_record (repos : gir.Repositories) (girType f : Str)
    (res : gir.TypeFindResult) (record : gir.Record)
    (hfind : repos.FindFullType girType = some res) (hrec : res.Type_ = .Record record) :
    RemoveRecordFields girType [f] repos =
      .ok (repos.store res (.Record { record with
        Fields := record.Fields.filter (fun fld => decide (fld.Name ≠ f)) })) := by
  have e : record.Fields.filter (fun field => !([f].contains field.Name)) =
      record.Fields.filter (fun fld => decide (fld.Name ≠ f)) := by
    apply List.filter_congr
    intro x _
    by_cases hx : x.Name = f <;> simp [hx]
  simp [RemoveRecordFields, hfind, hrec, keepInPlace_eq_filter, e]

/-- C9: `ApplyPreprocessors` runs the list in order, each preprocessor on the model the
earlier ones left (the run of `ps ++ qs` is the run of `qs` on the result of `ps`). For a
model in which `NS.A` resolves to a record with a field `f` and `NS.B` does not resolve:
`[TypeRenamer(NS.A, B), RemoveRecordFields(NS.B, f)]` ends with `NS.B` resolving to a record
named `B` whose fields are the old ones without `f`; the reverse order ends with `NS.B`
resolving to a record named `B` that has all the old fields, `f` among them, the removal
having returned the model unchanged. -/
theorem ApplyPreprocessors_order :
    (∀ (repos : gir.Repositories) (ps qs : List Preprocessor),
      ApplyPreprocessors repos (ps ++ qs) =
        match ApplyPreprocessors repos ps with
        | .ok repos => ApplyPreprocessors repos qs
        | .error e => .error e) ∧
    (∀ (repos : gir.Repositories) (NS A B f : Str) (p : Preprocessor)
      (result : gir.TypeFindResult) (record : gir.Record),
      '.' ∉ NS →
      TypeRenamer (NS ++ '.' :: A) B = .ok p →
      repos.FindFullType (NS ++ '.' :: A) = some result →
      result.Type_ = .Record record →
      (∃ fld ∈ record.Fields, fld.Name = f) →
      repos.FindFullType (NS ++ '.' :: B) = none →
      (∃ repos1,
        ApplyPreprocessors repos [p, RemoveRecordFields (NS ++ '.' :: B) [f]] = .ok repos1 ∧
        ∃ res1 rec1, repos1.FindFullType (NS ++ '.' :: B) = some res1 ∧
          res1.Type_ = .Record rec1 ∧ rec1.Name = B ∧
          rec1.Fields = record.Fields.filter (fun fld => decide (fld.Name ≠ f)) ∧
          ∀ fld ∈ rec1.Fields, fld.Name ≠ f) ∧
      RemoveRecordFields (NS ++ '.' :: B) [f] repos = .ok repos ∧
      (∃ repos2,
        ApplyPreprocessors repos [RemoveRecordFields (NS ++ '.' :: B) [f], p] = .ok repos2 ∧
        ∃ res2 rec2, repos2.FindFullType (NS ++ '.' :: B) = some res2 ∧
          res2.Type_ = .Record rec2 ∧ rec2.Name = B ∧
          rec2.Fields = record.Fields ∧
          ∃ fld ∈ rec2.Fields, fld.Name = f)) := by
  refine ⟨ApplyPreprocessors_append, ?_⟩
  intro repos NS A B f p result record hdot hp hA hrec hf hB
  -- the renamer that was built
  have hp' : p = typeRenamer.Preprocess (NS ++ '.' :: A) B := by
    unfold TypeRenamer at hp
    cases hv : girTypeMustBeVersioned (NS ++ '.' :: A) with
    | error e => simp [hv] at hp
    | ok u =>
      simp only [hv] at hp
      injection hp with hp
      exact hp.symm
  subst hp'
  obtain ⟨hver, repo, hr, hrepo, hi, hnode⟩ := FindFullType_some repos NS A result hdot hA
  have hBnone := FindFullType_none repos NS B result.repo repo hdot hver hr hrepo hB
  have hilt : result.index < repo.Types.length := firstIndex_lt _ _ _ hi
  have hren := typeRenamer_record repos (NS ++ '.' :: A) B result record hA hrec
  rw [store_eq repos result repo _ hrepo] at hren
  have hfind1 := FindFullType_set repos NS B result.repo result.index repo
    (.Record { record with
        Name := B,
        Doc := record.Doc.map (fun doc => doc ++ "\n\n".toList ++
          ("This type has been renamed from ".toList ++ record.Name ++ ".".toList)) })
    hdot hver hr hrepo hilt (Or.inl hBnone) rfl
  have hnoop : RemoveRecordFields (NS ++ '.' :: B) [f] repos = .ok repos := by
    simp [RemoveRecordFields, hB]
  refine ⟨?_, hnoop, ?_⟩
  · -- rename, then remove
    have hrem := RemoveRecordFields_record _ (NS ++ '.' :: B) f _ _ hfind1 rfl
    obtain ⟨_, repo1, hr1, hrepo1, hi1, _⟩ := FindFullType_some _ NS B _ hdot hfind1
    rw [store_eq _ _ repo1 _ hrepo1] at hrem
    have hilt1 : result.index < repo1.Types.length := firstIndex_lt _ _ _ hi1
    have hfind2 := FindFullType_set _ NS B result.repo result.index repo1
      (.Record { record with
        Name := B,
        Doc := record.Doc.map (fun doc => doc ++ "\n\n".toList ++
          ("This type has been renamed from ".toList ++ record.Name ++ ".".toList)),
        Fields := record.Fields.filter (fun fld => decide (fld.Name ≠ f)) })
      hdot hver hr1 hrepo1 hilt1 (Or.inr hi1) rfl
    refine ⟨_, ?_, _, _, hfind2, rfl, rfl, rfl, ?_⟩
    · simp only [ApplyPreprocessors, hren, hrem]
    · intro fld hfld
      simpa using (List.mem_filter.1 hfld).2
  · -- remove, then rename
    refine ⟨_, ?_, _, _, hfind1, rfl, rfl, rfl, hf⟩
    simp only [ApplyPreprocessors, hnoop, hren]

/-- The model of the C9 scenario: namespace `Foo-1` with the record `A`, fields `f` and `g`. -/
theorem ApplyPreprocessors_order_witness :
    ∃ repos1,
      ApplyPreprocessors
        [fooRepo "1".toList [.Record ⟨"A".toList, none, [], [], [⟨"f".toList⟩, ⟨"g".toList⟩]⟩]]
        [typeRenamer.Preprocess ("Foo-1".toList ++ '.' :: "A".toList) "B".toList,
          RemoveRecordFields ("Foo-1".toList ++ '.' :: "B".toList) ["f".toList]] = .ok repos1 ∧
      ∃ res1 rec1, repos1.FindFullType ("Foo-1".toList ++ '.' :: "B".toList) = some res1 ∧
        res1.Type_ = .Record rec1 ∧ rec1.Name = "B".toList ∧
        rec1.Fields = [⟨"f".toList⟩, ⟨"g".toList⟩].filter (fun fld => decide (fld.Name ≠ "f".toList)) ∧
        ∀ fld ∈ rec1.Fields, fld.Name ≠ "f".toList :=
  (ApplyPreprocessors_order.2
    [fooRepo "1".toList [.Record ⟨"A".toList, none, [], [], [⟨"f".toList⟩, ⟨"g".toList⟩]⟩]]
    "Foo-1".toList "A".toList "B".toList "f".toList
    (typeRenamer.Preprocess ("Foo-1".toList ++ '.' :: "A".toList) "B".toList)
    ⟨0, 0, .Record ⟨"A".toList, none, [], [], [⟨"f".toList⟩, ⟨"g".toList⟩]⟩⟩
    ⟨"A".toList, none, [], [], [⟨"f".toList⟩, ⟨"g".toList⟩]⟩
    (by decide) rfl (by decide) rfl ⟨⟨"f".toList⟩, by decide, rfl⟩ (by decide)).1

/-! ### C10 -/

theorem firstIndex_map {α β : Type} (p : β → Bool) (f : α → β) (l : List α) :
    firstIndex p (l.map f) = firstIndex (fun x => p (f x)) l := by
  induction l with
  | nil => rfl
  | cons a rest ih => simp [firstIndex, ih]

theorem firstIndex_of_mem {α : Type} (p : α → Bool) (l : List α) (x : α) (hx : x ∈ l)
    (hp : p x = true) : ∃ i, firstIndex p l = some i := by
  induction l with
  | nil => simp at hx
  | cons a rest ih =>
    by_cases ha : p a = true
    · exact ⟨0, by simp [firstIndex, ha]⟩
    · rcases List.mem_cons.1 hx with e | e
      · exact absurd (e ▸ hp) ha
      · obtain ⟨i, hi⟩ := ih e
        exact ⟨i + 1, by simp [firstIndex, ha, hi]⟩

theorem firstIndex_none_of_forall {α : Type} (p : α → Bool) (l : List α)
    (h : ∀ x ∈ l, p x = false) : firstIndex p l = none := by
  induction l with
  | nil => rfl
  | cons a rest ih =>
    have ha : p a = false := h a (by simp)
    simp [firstIndex, ha, ih (fun x hx => h x (by simp [hx]))]

theorem FindParameter_eq_names (c : gir.CallableAttrs) (name : Str) :
    FindParameter c name =
      firstIndex (fun n => decide (n = name)) (c.Parameters.map (fun param => param.Name)) := by
  rw [FindParameter, firstIndex_map]

theorem names_set_direction (l : List gir.ParameterAttrs) (i : Nat) (param : gir.ParameterAttrs)
    (dir : Str) (h : l[i]? = some param) :
    (l.set i { param with Direction := dir }).map (fun q => q.Name) = l.map (fun q => q.Name) := by
  apply List.ext_getElem?
  intro k
  by_cases hk : i = k
  · subst hk
    obtain ⟨hi, he⟩ := List.getElem?_eq_some_iff.1 h
    simp [List.getElem?_map, List.getElem?_set, hi, he]
  · simp [List.getElem?_map, List.getElem?_set, hk]

theorem setParamDirection_ok (c : gir.CallableAttrs) (name dir : Str)
    (h : name ∈ c.Parameters.map (fun param => param.Name)) :
    ∃ i param, FindParameter c name = some i ∧ c.Parameters[i]? = some param ∧
      param.Name = name ∧
      setParamDirection c (name, dir) =
        .ok { c with Parameters := c.Parameters.set i { param with Direction := dir } } := by
  obtain ⟨x, hx, hname⟩ := List.mem_map.1 h
  obtain ⟨i, hi⟩ := firstIndex_of_mem (fun param => decide (param.Name = name))
    c.Parameters x hx (by simp [hname])
  obtain ⟨param, hget, hp⟩ := firstIndex_spec _ _ _ hi
  refine ⟨i, param, hi, hget, by simpa using hp, ?_⟩
  simp [setParamDirection, FindParameter, hi, hget]

theorem setParamDirection_error (c : gir.CallableAttrs) (name dir : Str)
    (h : name ∉ c.Parameters.map (fun param => param.Name)) :
    setParamDirection c (name, dir) = .error .logPanic := by
  have : firstIndex (fun param : gir.ParameterAttrs => decide (param.Name = name))
      c.Parameters = none := by
    apply firstIndex_none_of_forall
    intro x hx
    have : x.Name ≠ name := fun e => h (List.mem_map.2 ⟨x, hx, e⟩)
    simp [this]
  simp [setParamDirection, FindParameter, this]

/-- The mutation of `ModifyParamDirections` on a callable that has every parameter the map
names: it succeeds, keeps the other attributes and the parameter names and order, gives
each named parameter (the first of that name) the mapped direction, changes at most the
direction of a parameter, and leaves alone every parameter the map does not address. -/
theorem modifyParamDirections_ok (overrides : List (Str × Str)) (c : gir.CallableAttrs)
    (hnodup : (overrides.map Prod.fst).Nodup)
    (hall : ∀ o ∈ overrides, o.1 ∈ c.Parameters.map (fun param => param.Name)) :
    ∃ c', modifyParamDirections overrides c = .ok c' ∧
      c'.Name = c.Name ∧ c'.CIdentifier = c.CIdentifier ∧ c'.Introspectable = c.Introspectable ∧
      c'.Parameters.map (fun param => param.Name) = c.Parameters.map (fun param => param.Name) ∧
      (∀ o ∈ overrides, ∃ i param, FindParameter c' o.1 = some i ∧
        c'.Parameters[i]? = some param ∧ param.Direction = o.2) ∧
      (∀ (i : Nat) (param : gir.ParameterAttrs), c.Parameters[i]? = some param →
        ∃ d, c'.Parameters[i]? = some { param with Direction := d }) ∧
      (∀ (i : Nat) (param : gir.ParameterAttrs), c.Parameters[i]? = some param →
        (∀ o ∈ overrides, o.1 = param.Name → FindParameter c param.Name ≠ some i) →
        c'.Parameters[i]? = some param) := by
  induction overrides generalizing c with
  | nil =>
    exact ⟨c, rfl, rfl, rfl, rfl, rfl, by simp, fun i param h => ⟨param.Direction, h⟩,
      fun i param h _ => h⟩
  | cons o rest ih =>
    obtain ⟨name, dir⟩ := o
    have hnd : name ∉ rest.map Prod.fst ∧ (rest.map Prod.fst).Nodup := by
      simpa using hnodup
    obtain ⟨i0, p0, hfi, hget0, hname0, hstep⟩ :=
      setParamDirection_ok c name dir (hall (name, dir) (by simp))
    have hi0 : i0 < c.Parameters.length := (List.getElem?_eq_some_iff.1 hget0).1
    have hnames1 := names_set_direction c.Parameters i0 p0 dir hget0
    obtain ⟨c', hrun, hN, hC, hI, hnames, hP2, hP4, hP3⟩ :=
      ih { c with Parameters := c.Parameters.set i0 { p0 with Direction := dir } } hnd.2
        (by
          intro o ho
          show o.1 ∈ (c.Parameters.set i0 { p0 with Direction := dir }).map (fun q => q.Name)
          rw [hnames1]
          exact hall o (by simp [ho]))
    have hfind : ∀ n, FindParameter
        { c with Parameters := c.Parameters.set i0 { p0 with Direction := dir } } n =
          FindParameter c n := by
      intro n
      rw [FindParameter_eq_names, FindParameter_eq_names]
      show firstIndex _ ((c.Parameters.set i0 { p0 with Direction := dir }).map _) = _
      rw [hnames1]
    have hfind' : ∀ n, FindParameter c' n = FindParameter c n := by
      intro n
      rw [← hfind n, FindParameter_eq_names, FindParameter_eq_names, hnames]
    have hat0 : c'.Parameters[i0]? = some { p0 with Direction := dir } := by
      apply hP3 i0 { p0 with Direction := dir }
      · show (c.Parameters.set i0 { p0 with Direction := dir })[i0]? = _
        simp [List.getElem?_set, hi0]
      · intro o ho hke
        exfalso
        apply hnd.1
        have : o.1 = name := by rw [hke]; exact hname0
        exact List.mem_map.2 ⟨o, ho, this⟩
    refine ⟨c', ?_, hN, hC, hI, ?_, ?_, ?_, ?_⟩
    · simp [modifyParamDirections, hstep, hrun]
    · rw [hnames]
      exact hnames1
    · intro o ho
      rcases List.mem_cons.1 ho with e | e
      · subst e
        exact ⟨i0, _, by rw [hfind']; exact hfi, hat0, rfl⟩
      · exact hP2 o e
    · intro i param hget
      by_cases hi : i0 = i
      · subst hi
        rw [hget0] at hget
        injection hget with hget
        subst hget
        exact ⟨dir, hat0⟩
      · apply hP4 i param
        show (c.Parameters.set i0 { p0 with Direction := dir })[i]? = _
        simpa [List.getElem?_set, hi] using hget
    · intro i param hget hH
      have hi : i0 ≠ i := by
        rintro rfl
        rw [hget0] at hget
        injection hget with hget
        subst hget
        exact hH (name, dir) (by simp) hname0.symm (by rw [hname0]; exact hfi)
      apply hP3 i param
      · show (c.Parameters.set i0 { p0 with Direction := dir })[i]? = _
        simpa [List.getElem?_set, hi] using hget
      · intro o ho hke
        rw [hfind]
        exact hH o (by simp [ho]) hke

/-- The mutation of `ModifyParamDirections` panics when the map names a parameter the
callable does not have, in whatever order the map is visited. -/
theorem modifyParamDirections_missing (overrides : List (Str × Str)) (c : gir.CallableAttrs)
    (h : ∃ o ∈ overrides, o.1 ∉ c.Parameters.map (fun param => param.Name)) :
    modifyParamDirections overrides c = .error .logPanic := by
  induction overrides generalizing c with
  | nil => simp at h
  | cons o rest ih =>
    obtain ⟨name, dir⟩ := o
    by_cases hmem : name ∈ c.Parameters.map (fun param => param.Name)
    · obtain ⟨i0, p0, _, hget0, _, hstep⟩ := setParamDirection_ok c name dir hmem
      have hnames1 := names_set_direction c.Parameters i0 p0 dir hget0
      obtain ⟨o, ho, hmiss⟩ := h
      rcases List.mem_cons.1 ho with e | e
      · subst e
        exact absurd hmem hmiss
      · have := ih { c with Parameters := c.Parameters.set i0 { p0 with Direction := dir } }
          ⟨o, e, by
            show o.1 ∉ (c.Parameters.set i0 { p0 with Direction := dir }).map (fun q => q.Name)
            rw [hnames1]
            exact hmiss⟩
        simp [modifyParamDirections, hstep, this]
    · simp [modifyParamDirections, setParamDirection_error c name dir hmem]

theorem modifyFirst_none (name : Str) (f : gir.CallableAttrs → Except Panic gir.CallableAttrs)
    (l : List gir.CallableAttrs) (h : ∀ x ∈ l, x.Name ≠ name) : modifyFirst name f l = none := by
  induction l with
  | nil => rfl
  | cons a rest ih =>
    have ha : a.Name ≠ name := h a (by simp)
    simp [modifyFirst, ha, ih (fun x hx => h x (by simp [hx]))]

theorem modifyFirst_split (name : Str) (f : gir.CallableAttrs → Except Panic gir.CallableAttrs)
    (pre post : List gir.CallableAttrs) (c : gir.CallableAttrs)
    (hpre : ∀ x ∈ pre, x.Name ≠ name) (hc : c.Name = name) :
    modifyFirst name f (pre ++ c :: post) =
      some (match f c with
        | .ok c' => .ok (pre ++ c' :: post)
        | .error e => .error e) := by
  induction pre with
  | nil => simp [modifyFirst, hc]
  | cons a rest ih =>
    have ha : a.Name ≠ name := hpre a (by simp)
    have := ih (fun x hx => hpre x (by simp [hx]))
    cases hf : f c with
    | ok c' => simp [modifyFirst, ha, this, hf]
    | error e => simp [modifyFirst, ha, this, hf]

theorem SplitN_three_append (a b m : Str) (ha : '.' ∉ a) (hb : '.' ∉ b) :
    strings.SplitN (a ++ '.' :: (b ++ '.' :: m)) '.' 3 = [a, b, m] := by
  have h1 : strings.Cut '.' (a ++ '.' :: (b ++ '.' :: m)) = some (a, b ++ '.' :: m) :=
    Cut_append '.' a _ ha
  simp [strings.SplitN, h1, Cut_append '.' b m hb]

/-- The run of `modifyCallable.Preprocess` for a three-part path `NS.T.m` whose owner `NS.T`
resolves: a function or callback is mutated itself, any other node goes through the member
search. -/
theorem modifyCallable_three (repos : gir.Repositories) (NS T m : Str)
    (f : gir.CallableAttrs → Except Panic gir.CallableAttrs) (result : gir.TypeFindResult)
    (hNS : '.' ∉ NS) (hT : '.' ∉ T)
    (hfind : repos.FindFullType (NS ++ '.' :: T) = some result) :
    modifyCallable.Preprocess (NS ++ '.' :: (T ++ '.' :: m)) f repos =
      match result.Type_ with
      | .Function v =>
        (match f v.CallableAttrs with
          | .ok c => .ok (repos.store result (.Function { v with CallableAttrs := c }))
          | .error e => .error e)
      | .Callback v =>
        (match f v.CallableAttrs with
          | .ok c => .ok (repos.store result (.Callback { v with CallableAttrs := c }))
          | .error e => .error e)
      | node =>
        (match modifyMember m f node with
          | .ok node => .ok (repos.store result node)
          | .error e => .error e) := by
  have hjoin : strings.Join [NS, T] ".".toList = NS ++ '.' :: T := by
    simp [strings.Join, List.intercalate]
  unfold modifyCallable.Preprocess
  simp only [SplitN_three_append NS T m hNS hT, firstTwo, hjoin, hfind]

/-- The search in two member lists, first list hit: the mutation goes to that element. -/
theorem modifyFirst_hit (name : Str) (f : gir.CallableAttrs → Except Panic gir.CallableAttrs)
    (pre post : List gir.CallableAttrs) (c : gir.CallableAttrs)
    (hpre : ∀ x ∈ pre, x.Name ≠ name) (hc : c.Name = name) :
    (∀ c', f c = .ok c' → modifyFirst name f (pre ++ c :: post) = some (.ok (pre ++ c' :: post))) ∧
    (∀ e, f c = .error e → modifyFirst name f (pre ++ c :: post) = some (.error e)) := by
  have h := modifyFirst_split name f pre post c hpre hc
  constructor
  · intro c' hf
    rw [h, hf]
  · intro e hf
    rw [h, hf]

theorem SplitN_three_two (a b : Str) (ha : '.' ∉ a) (hb : '.' ∉ b) :
    strings.SplitN (a ++ '.' :: b) '.' 3 = [a, b] := by
  have h1 : strings.Cut '.' (a ++ '.' :: b) = some (a, b) := Cut_append '.' a b ha
  simp [strings.SplitN, h1, Cut_eq_none '.' b hb]

/-- The run of `modifyCallable.Preprocess` for a two-part path `NS.T` that resolves: a
function or callback is mutated, any other node is `notFound`. -/
theorem modifyCallable_two (repos : gir.Repositories) (NS T : Str)
    (f : gir.CallableAttrs → Except Panic gir.CallableAttrs) (result : gir.TypeFindResult)
    (hNS : '.' ∉ NS) (hT : '.' ∉ T)
    (hfind : repos.FindFullType (NS ++ '.' :: T) = some result) :
    modifyCallable.Preprocess (NS ++ '.' :: T) f repos =
      match result.Type_ with
      | .Function v =>
        (match f v.CallableAttrs with
          | .ok c => .ok (repos.store result (.Function { v with CallableAttrs := c }))
          | .error e => .error e)
      | .Callback v =>
        (match f v.CallableAttrs with
          | .ok c => .ok (repos.store result (.Callback { v with CallableAttrs := c }))
          | .error e => .error e)
      | _ => .error .logPanic := by
  have hjoin : strings.Join [NS, T] ".".toList = NS ++ '.' :: T := by
    simp [strings.Join, List.intercalate]
  unfold modifyCallable.Preprocess
  simp only [SplitN_three_two NS T hNS hT, firstTwo, hjoin, hfind]

/-- The run of `modifyCallable.Preprocess` for a three-part path `NS.T.m` whose owner `NS.T`
resolves, on the callable `c` the path locates: the owner itself when it is a function or a
callback, the first constructor named `m` of a class or record or, without such a
constructor, its first method named `m`, the first method named `m` of an interface or,
without such a method, its first virtual method named `m`. The mutation is applied to `c`
in place (`owner c'` is the owner with `c'` in the place of `c`), and its panic is the panic
of the preprocessor. -/
theorem modifyCallable_located (repos : gir.Repositories) (NS T m : Str)
    (f : gir.CallableAttrs → Except Panic gir.CallableAttrs) (result : gir.TypeFindResult)
    (c : gir.CallableAttrs) (owner : gir.CallableAttrs → gir.Node)
    (hNS : '.' ∉ NS) (hT : '.' ∉ T)
    (hfind : repos.FindFullType (NS ++ '.' :: T) = some result)
    (hloc :
      (∃ v : gir.Function, result.Type_ = .Function v ∧ c = v.CallableAttrs ∧
        owner = fun c' => .Function { v with CallableAttrs := c' }) ∨
      (∃ v : gir.Callback, result.Type_ = .Callback v ∧ c = v.CallableAttrs ∧
        owner = fun c' => .Callback { v with CallableAttrs := c' }) ∨
      (∃ (v : gir.Class) (pre post : List gir.CallableAttrs), result.Type_ = .Class v ∧
        v.Constructors = pre ++ c :: post ∧ (∀ x ∈ pre, x.Name ≠ m) ∧ c.Name = m ∧
        owner = fun c' => .Class { v with Constructors := pre ++ c' :: post }) ∨
      (∃ (v : gir.Class) (pre post : List gir.CallableAttrs), result.Type_ = .Class v ∧
        (∀ x ∈ v.Constructors, x.Name ≠ m) ∧
        v.Methods = pre ++ c :: post ∧ (∀ x ∈ pre, x.Name ≠ m) ∧ c.Name = m ∧
        owner = fun c' => .Class { v with Methods := pre ++ c' :: post }) ∨
      (∃ (v : gir.Record) (pre post : List gir.CallableAttrs), result.Type_ = .Record v ∧
        v.Constructors = pre ++ c :: post ∧ (∀ x ∈ pre, x.Name ≠ m) ∧ c.Name = m ∧
        owner = fun c' => .Record { v with Constructors := pre ++ c' :: post }) ∨
      (∃ (v : gir.Record) (pre post : List gir.CallableAttrs), result.Type_ = .Record v ∧
        (∀ x ∈ v.Constructors, x.Name ≠ m) ∧
        v.Methods = pre ++ c :: post ∧ (∀ x ∈ pre, x.Name ≠ m) ∧ c.Name = m ∧
        owner = fun c' => .Record { v with Methods := pre ++ c' :: post }) ∨
      (∃ (v : gir.Interface) (pre post : List gir.CallableAttrs),
        result.Type_ = .Interface v ∧
        v.Methods = pre ++ c :: post ∧ (∀ x ∈ pre, x.Name ≠ m) ∧ c.Name = m ∧
        owner = fun c' => .Interface { v with Methods := pre ++ c' :: post }) ∨
      (∃ (v : gir.Interface) (pre post : List gir.CallableAttrs),
        result.Type_ = .Interface v ∧ (∀ x ∈ v.Methods, x.Name ≠ m) ∧
        v.VirtualMethods = pre ++ c :: post ∧ (∀ x ∈ pre, x.Name ≠ m) ∧ c.Name = m ∧
        owner = fun c' => .Interface { v with VirtualMethods := pre ++ c' :: post })) :
    modifyCallable.Preprocess (NS ++ '.' :: (T ++ '.' :: m)) f repos =
      match f c with
      | .ok c' => .ok (repos.store result (owner c'))
      | .error e => .error e := by
  have key := modifyCallable_three repos NS T m f result hNS hT hfind
  rcases hloc with ⟨v, hv, rfl, rfl⟩ | ⟨v, hv, rfl, rfl⟩ | ⟨v, pre, post, hv, hl, hpre, hc, rfl⟩ |
    ⟨v, pre, post, hv, h0, hl, hpre, hc, rfl⟩ | ⟨v, pre, post, hv, hl, hpre, hc, rfl⟩ |
    ⟨v, pre, post, hv, h0, hl, hpre, hc, rfl⟩ | ⟨v, pre, post, hv, hl, hpre, hc, rfl⟩ |
    ⟨v, pre, post, hv, h0, hl, hpre, hc, rfl⟩
  · rw [hv] at key
    exact key
  · rw [hv] at key
    exact key
  · rw [hv] at key
    obtain ⟨h1, h2⟩ := modifyFirst_hit m f pre post c hpre hc
    rw [key]
    cases hf : f c with
    | ok c' => simp [modifyMember, hl, h1 c' hf]
    | error e => simp [modifyMember, hl, h2 e hf]
  · rw [hv] at key
    obtain ⟨h1, h2⟩ := modifyFirst_hit m f pre post c hpre hc
    have h0' := modifyFirst_none m f v.Constructors h0
    rw [key]
    cases hf : f c with
    | ok c' => simp [modifyMember, hl, h0', h1 c' hf]
    | error e => simp [modifyMember, hl, h0', h2 e hf]
  · rw [hv] at key
    obtain ⟨h1, h2⟩ := modifyFirst_hit m f pre post c hpre hc
    rw [key]
    cases hf : f c with
    | ok c' => simp [modifyMember, hl, h1 c' hf]
    | error e => simp [modifyMember, hl, h2 e hf]
  · rw [hv] at key
    obtain ⟨h1, h2⟩ := modifyFirst_hit m f pre post c hpre hc
    have h0' := modifyFirst_none m f v.Constructors h0
    rw [key]
    cases hf : f c with
    | ok c' => simp [modifyMember, hl, h0', h1 c' hf]
    | error e => simp [modifyMember, hl, h0', h2 e hf]
  · rw [hv] at key
    obtain ⟨h1, h2⟩ := modifyFirst_hit m f pre post c hpre hc
    rw [key]
    cases hf : f c with
    | ok c' => simp [modifyMember, hl, h1 c' hf]
    | error e => simp [modifyMember, hl, h2 e hf]
  · rw [hv] at key
    obtain ⟨h1, h2⟩ := modifyFirst_hit m f pre post c hpre hc
    have h0' := modifyFirst_none m f v.Methods h0
    rw [key]
    cases hf : f c with
    | ok c' => simp [modifyMember, hl, h0', h1 c' hf]
    | error e => simp [modifyMember, hl, h0', h2 e hf]

/-- A preprocessor built by `ModifyParamDirections` is `modifyCallable.Preprocess` with the
direction mutation. -/
theorem ModifyParamDirections_eq (girType : Str) (overrides : List (Str × Str))
    (p : Preprocessor) (hp : ModifyParamDirections girType overrides = .ok p) :
    p = modifyCallable.Preprocess girType (modifyParamDirections overrides) := by
  unfold ModifyParamDirections ModifyCallable at hp
  cases hv : girTypeMustBeVersioned girType with
  | error e => simp [hv] at hp
  | ok u =>
    simp only [hv] at hp
    injection hp with hp
    exact hp.symm

/-- What a run of the form `match modifyParamDirections overrides c with ...` comes to: with
every named parameter present, the callable `c'` written back has each named parameter at
its mapped direction and nothing else changed; with a named parameter absent, a panic. -/
theorem directions_outcome (overrides : List (Str × Str)) (c : gir.CallableAttrs)
    (run : Except Panic gir.Repositories) (write : gir.CallableAttrs → gir.Repositories)
    (h : run =
      match modifyParamDirections overrides c with
      | .ok c' => .ok (write c')
      | .error e => .error e) :
    ((overrides.map Prod.fst).Nodup →
      (∀ o ∈ overrides, o.1 ∈ c.Parameters.map (fun param => param.Name)) →
      ∃ c', run = .ok (write c') ∧
        c'.Name = c.Name ∧ c'.CIdentifier = c.CIdentifier ∧
        c'.Introspectable = c.Introspectable ∧
        c'.Parameters.map (fun param => param.Name)
          = c.Parameters.map (fun param => param.Name) ∧
        (∀ o ∈ overrides, ∃ i param, FindParameter c' o.1 = some i ∧
          c'.Parameters[i]? = some param ∧ param.Direction = o.2) ∧
        (∀ (i : Nat) (param : gir.ParameterAttrs), c.Parameters[i]? = some param →
          ∃ d, c'.Parameters[i]? = some { param with Direction := d }) ∧
        (∀ (i : Nat) (param : gir.ParameterAttrs), c.Parameters[i]? = some param →
          (∀ o ∈ overrides, o.1 = param.Name → FindParameter c param.Name ≠ some i) →
          c'.Parameters[i]? = some param)) ∧
    ((∃ o ∈ overrides, o.1 ∉ c.Parameters.map (fun param => param.Name)) →
      run = .error .logPanic) := by
  constructor
  · intro hnodup hall
    obtain ⟨c', hc', rest⟩ := modifyParamDirections_ok overrides c hnodup hall
    refine ⟨c', ?_, rest⟩
    rw [h, hc']
  · intro hex
    rw [h, modifyParamDirections_missing overrides c hex]

/-- C10, as stated, fails: with the path `Foo-1.0.Widget.set_value` the owner looked up is
`Foo-1.0` (the first two dot-separated parts), which is no type of the model, so the
preprocessor logs and leaves the direction of `value` at `in`. -/
theorem ModifyParamDirections_dotted_version_unchanged :
    ∃ p, ModifyParamDirections "Foo-1.0.Widget.set_value".toList
        [("value".toList, "out".toList)] = .ok p ∧
      p [widgetRepo "1.0".toList "in".toList] = .ok [widgetRepo "1.0".toList "in".toList] ∧
      p [widgetRepo "1".toList "in".toList] = .ok [widgetRepo "1".toList "in".toList] :=
  ⟨_, rfl, by rfl, by rfl⟩

/-- C10, amended: with a qualifier whose version has no `.`,
`ModifyParamDirections("Foo-1.Widget.set_value", {"value": "out"})` on a model where
namespace `Foo-1` has the class `Widget` with the method `set_value` changes the direction
of its parameter `value` from `in` to `out` and nothing else, and with a map naming the
absent parameter `nope` it panics. In general, for every callable `c` located by the dotted
path and every override map: when `c` has every parameter the map names, the preprocessor
completes and writes back, in the place of `c`, a callable with the same name, identifier,
flag and parameter names, in which each named parameter (the first of that name) has the
mapped direction, no parameter differs in more than its direction, and a parameter the map
does not address is unchanged; when the map names a parameter `c` does not have, the
preprocessor panics. The callable located by a three-part path `NS.T.m` is the owner `NS.T`
itself when that is a function or a callback, the first constructor named `m` of a class or
record or, without such a constructor, its first method named `m`, and the first method
named `m` of an interface or, without such a method, its first virtual method named `m`; the
callable located by a two-part path `NS.T` is the function or callback `NS.T`. -/
theorem ModifyParamDirections_sets_directions :
    (∃ p, ModifyParamDirections "Foo-1.Widget.set_value".toList
        [("value".toList, "out".toList)] = .ok p ∧
      p [widgetRepo "1".toList "in".toList] = .ok [widgetRepo "1".toList "out".toList]) ∧
    (∃ p, ModifyParamDirections "Foo-1.Widget.set_value".toList
        [("nope".toList, "out".toList)] = .ok p ∧
      p [widgetRepo "1".toList "in".toList] = .error .logPanic) ∧
    (∀ (repos : gir.Repositories) (NS T m : Str) (overrides : List (Str × Str))
      (p : Preprocessor) (result : gir.TypeFindResult) (c : gir.CallableAttrs)
      (owner : gir.CallableAttrs → gir.Node),
      '.' ∉ NS → '.' ∉ T →
      ModifyParamDirections (NS ++ '.' :: (T ++ '.' :: m)) overrides = .ok p →
      repos.FindFullType (NS ++ '.' :: T) = some result →
      ((∃ v : gir.Function, result.Type_ = .Function v ∧ c = v.CallableAttrs ∧
          owner = fun c' => .Function { v with CallableAttrs := c' }) ∨
        (∃ v : gir.Callback, result.Type_ = .Callback v ∧ c = v.CallableAttrs ∧
          owner = fun c' => .Callback { v with CallableAttrs := c' }) ∨
        (∃ (v : gir.Class) (pre post : List gir.CallableAttrs), result.Type_ = .Class v ∧
          v.Constructors = pre ++ c :: post ∧ (∀ x ∈ pre, x.Name ≠ m) ∧ c.Name = m ∧
          owner = fun c' => .Class { v with Constructors := pre ++ c' :: post }) ∨
        (∃ (v : gir.Class) (pre post : List gir.CallableAttrs), result.Type_ = .Class v ∧
          (∀ x ∈ v.Constructors, x.Name ≠ m) ∧
          v.Methods = pre ++ c :: post ∧ (∀ x ∈ pre, x.Name ≠ m) ∧ c.Name = m ∧
          owner = fun c' => .Class { v with Methods := pre ++ c' :: post }) ∨
        (∃ (v : gir.Record) (pre post : List gir.CallableAttrs), result.Type_ = .Record v ∧
          v.Constructors = pre ++ c :: post ∧ (∀ x ∈ pre, x.Name ≠ m) ∧ c.Name = m ∧
          owner = fun c' => .Record { v with Constructors := pre ++ c' :: post }) ∨
        (∃ (v : gir.Record) (pre post : List gir.CallableAttrs), result.Type_ = .Record v ∧
          (∀ x ∈ v.Constructors, x.Name ≠ m) ∧
          v.Methods = pre ++ c :: post ∧ (∀ x ∈ pre, x.Name ≠ m) ∧ c.Name = m ∧
          owner = fun c' => .Record { v with Methods := pre ++ c' :: post }) ∨
        (∃ (v : gir.Interface) (pre post : List gir.CallableAttrs),
          result.Type_ = .Interface v ∧
          v.Methods = pre ++ c :: post ∧ (∀ x ∈ pre, x.Name ≠ m) ∧ c.Name = m ∧
          owner = fun c' => .Interface { v with Methods := pre ++ c' :: post }) ∨
        (∃ (v : gir.Interface) (pre post : List gir.CallableAttrs),
          result.Type_ = .Interface v ∧ (∀ x ∈ v.Methods, x.Name ≠ m) ∧
          v.VirtualMethods = pre ++ c :: post ∧ (∀ x ∈ pre, x.Name ≠ m) ∧ c.Name = m ∧
          owner = fun c' => .Interface { v with VirtualMethods := pre ++ c' :: post })) →
      ((overrides.map Prod.fst).Nodup →
        (∀ o ∈ overrides, o.1 ∈ c.Parameters.map (fun param => param.Name)) →
        ∃ c', p repos = .ok (repos.store result (owner c')) ∧
          c'.Name = c.Name ∧ c'.CIdentifier = c.CIdentifier ∧
          c'.Introspectable = c.Introspectable ∧
          c'.Parameters.map (fun param => param.Name)
            = c.Parameters.map (fun param => param.Name) ∧
          (∀ o ∈ overrides, ∃ i param, FindParameter c' o.1 = some i ∧
            c'.Parameters[i]? = some param ∧ param.Direction = o.2) ∧
          (∀ (i : Nat) (param : gir.ParameterAttrs), c.Parameters[i]? = some param →
            ∃ d, c'.Parameters[i]? = some { param with Direction := d }) ∧
          (∀ (i : Nat) (param : gir.ParameterAttrs), c.Parameters[i]? = some param →
            (∀ o ∈ overrides, o.1 = param.Name → FindParameter c param.Name ≠ some i) →
            c'.Parameters[i]? = some param)) ∧
      ((∃ o ∈ overrides, o.1 ∉ c.Parameters.map (fun param => param.Name)) →
        p repos = .error .logPanic)) ∧
    (∀ (repos : gir.Repositories) (NS T : Str) (overrides : List (Str × Str))
      (p : Preprocessor) (result : gir.TypeFindResult) (c : gir.CallableAttrs)
      (owner : gir.CallableAttrs → gir.Node),
      '.' ∉ NS → '.' ∉ T →
      ModifyParamDirections (NS ++ '.' :: T) overrides = .ok p →
      repos.FindFullType (NS ++ '.' :: T) = some result →
      ((∃ v : gir.Function, result.Type_ = .Function v ∧ c = v.CallableAttrs ∧
          owner = fun c' => .Function { v with CallableAttrs := c' }) ∨
        (∃ v : gir.Callback, result.Type_ = .Callback v ∧ c = v.CallableAttrs ∧
          owner = fun c' => .Callback { v with CallableAttrs := c' })) →
      ((overrides.map Prod.fst).Nodup →
        (∀ o ∈ overrides, o.1 ∈ c.Parameters.map (fun param => param.Name)) →
        ∃ c', p repos = .ok (repos.store result (owner c')) ∧
          c'.Name = c.Name ∧ c'.CIdentifier = c.CIdentifier ∧
          c'.Introspectable = c.Introspectable ∧
          c'.Parameters.map (fun param => param.Name)
            = c.Parameters.map (fun param => param.Name) ∧
          (∀ o ∈ overrides, ∃ i param, FindParameter c' o.1 = some i ∧
            c'.Parameters[i]? = some param ∧ param.Direction = o.2) ∧
          (∀ (i : Nat) (param : gir.ParameterAttrs), c.Parameters[i]? = some param →
            ∃ d, c'.Parameters[i]? = some { param with Direction := d }) ∧
          (∀ (i : Nat) (param : gir.ParameterAttrs), c.Parameters[i]? = some param →
            (∀ o ∈ overrides, o.1 = param.Name → FindParameter c param.Name ≠ some i) →
            c'.Parameters[i]? = some param)) ∧
      ((∃ o ∈ overrides, o.1 ∉ c.Parameters.map (fun param => param.Name)) →
        p repos = .error .logPanic)) := by
  refine ⟨⟨_, rfl, by rfl⟩, ⟨_, rfl, by rfl⟩, ?_, ?_⟩
  · intro repos NS T m overrides p result c owner hNS hT hp hfind hloc
    have hp' := ModifyParamDirections_eq _ overrides p hp
    subst hp'
    exact directions_outcome overrides c _ (fun c' => repos.store result (owner c'))
      (modifyCallable_located repos NS T m _ result c owner hNS hT hfind hloc)
  · intro repos NS T overrides p result c owner hNS hT hp hfind hloc
    have hp' := ModifyParamDirections_eq _ overrides p hp
    subst hp'
    apply directions_outcome overrides c _ (fun c' => repos.store result (owner c'))
    have key := modifyCallable_two repos NS T (modifyParamDirections overrides) result hNS hT
      hfind
    rcases hloc with ⟨v, hv, rfl, rfl⟩ | ⟨v, hv, rfl, rfl⟩
    · rw [hv] at key
      exact key
    · rw [hv] at key
      exact key

theorem ModifyParamDirections_sets_directions_witness :
    ∃ (p : Preprocessor) (c' : gir.CallableAttrs),
      ModifyParamDirections "Foo-1.Widget.set_value".toList
        [("value".toList, "out".toList)] = .ok p ∧
      p [widgetRepo "1".toList "in".toList] =
        .ok (gir.Repositories.store [widgetRepo "1".toList "in".toList]
          ⟨0, 0, .Class (widgetClass "in".toList)⟩
          (.Class { widgetClass "in".toList with
            Methods := [] ++ c' :: [⟨"get_value".toList, "foo_widget_get_value".toList, none,
              [⟨"value".toList, "in".toList, "none".toList⟩]⟩] })) ∧
      c'.Name = "set_value".toList ∧
      c'.Parameters.map (fun param => param.Name) = ["value".toList, "flags".toList] ∧
      ∃ i param, FindParameter c' "value".toList = some i ∧
        c'.Parameters[i]? = some param ∧ param.Direction = "out".toList := by
  obtain ⟨c', h1, h2, _, _, h5, h6, _, _⟩ :=
    (ModifyParamDirections_sets_directions.2.2.1 [widgetRepo "1".toList "in".toList]
      "Foo-1".toList "Widget".toList "set_value".toList [("value".toList, "out".toList)] _
      ⟨0, 0, .Class (widgetClass "in".toList)⟩
      ⟨"set_value".toList, "foo_widget_set_value".toList, none,
        [⟨"value".toList, "in".toList, "none".toList⟩,
         ⟨"flags".toList, "in".toList, "none".toList⟩]⟩
      (fun c' => .Class { widgetClass "in".toList with
        Methods := [] ++ c' :: [⟨"get_value".toList, "foo_widget_get_value".toList, none,
          [⟨"value".toList, "in".toList, "none".toList⟩]⟩] })
      (by decide) (by decide) rfl (by rfl)
      (Or.inr (Or.inr (Or.inr (Or.inl ⟨widgetClass "in".toList, [], _, rfl, by decide, rfl,
        by simp, rfl, rfl⟩))))).1 (by decide) (by decide)
  exact ⟨_, c', rfl, h1, h2, h5, h6 _ (List.mem_singleton.2 rfl)⟩

/-! ### C11 -/

/-- C11, as stated, fails for an owner that is a function: with the path
`Foo-1.do_thing.anything` the owner `Foo-1.do_thing` resolves to a top-level function, which
is none of class, record and interface, and the preprocessor is not fatal: it renames the
function itself. -/
theorem modifyCallable_function_owner_not_fatal :
    ∃ p, RenameCallable "Foo-1.do_thing.anything".toList "renamed".toList = .ok p ∧
      p [funcRepo "do_thing".toList] = .ok [funcRepo "renamed".toList] :=
  ⟨_, rfl, by rfl⟩

/-- C11, amended: for a three-part path `NS.T.m` whose owner `NS.T` resolves,
`modifyCallable.Preprocess` mutates exactly one callable, in place. For a class or a record
it is the first constructor named `m`, or, when no constructor has that name, the first
method named `m`; for an interface the first method named `m`, or, when no method has that
name, the first virtual method named `m`; every other callable and member list of the owner
is kept (a method that shares its name with a constructor is not touched). It panics, with no
model handed back, when no searched member has the name, and when the owner is an enum. When
the owner is a function or a callback, the mutation is applied to the owner itself and the
member name is not looked at. -/
theorem modifyCallable_first_match (repos : gir.Repositories) (NS T m : Str)
    (f : gir.CallableAttrs → Except Panic gir.CallableAttrs) (result : gir.TypeFindResult)
    (hNS : '.' ∉ NS) (hT : '.' ∉ T)
    (hfind : repos.FindFullType (NS ++ '.' :: T) = some result) :
    (∀ (v : gir.Class), result.Type_ = .Class v →
      (∀ (pre post : List gir.CallableAttrs) (c : gir.CallableAttrs),
        v.Constructors = pre ++ c :: post → (∀ x ∈ pre, x.Name ≠ m) → c.Name = m →
        modifyCallable.Preprocess (NS ++ '.' :: (T ++ '.' :: m)) f repos =
          match f c with
          | .ok c' => .ok (repos.store result
              (.Class { v with Constructors := pre ++ c' :: post }))
          | .error e => .error e) ∧
      ((∀ x ∈ v.Constructors, x.Name ≠ m) →
        ∀ (pre post : List gir.CallableAttrs) (c : gir.CallableAttrs),
        v.Methods = pre ++ c :: post → (∀ x ∈ pre, x.Name ≠ m) → c.Name = m →
        modifyCallable.Preprocess (NS ++ '.' :: (T ++ '.' :: m)) f repos =
          match f c with
          | .ok c' => .ok (repos.store result (.Class { v with Methods := pre ++ c' :: post }))
          | .error e => .error e) ∧
      ((∀ x ∈ v.Constructors, x.Name ≠ m) → (∀ x ∈ v.Methods, x.Name ≠ m) →
        modifyCallable.Preprocess (NS ++ '.' :: (T ++ '.' :: m)) f repos = .error .logPanic)) ∧
    (∀ (v : gir.Record), result.Type_ = .Record v →
      (∀ (pre post : List gir.CallableAttrs) (c : gir.CallableAttrs),
        v.Constructors = pre ++ c :: post → (∀ x ∈ pre, x.Name ≠ m) → c.Name = m →
        modifyCallable.Preprocess (NS ++ '.' :: (T ++ '.' :: m)) f repos =
          match f c with
          | .ok c' => .ok (repos.store result
              (.Record { v with Constructors := pre ++ c' :: post }))
          | .error e => .error e) ∧
      ((∀ x ∈ v.Constructors, x.Name ≠ m) →
        ∀ (pre post : List gir.CallableAttrs) (c : gir.CallableAttrs),
        v.Methods = pre ++ c :: post → (∀ x ∈ pre, x.Name ≠ m) → c.Name = m →
        modifyCallable.Preprocess (NS ++ '.' :: (T ++ '.' :: m)) f repos =
          match f c with
          | .ok c' => .ok (repos.store result (.Record { v with Methods := pre ++ c' :: post }))
          | .error e => .error e) ∧
      ((∀ x ∈ v.Constructors, x.Name ≠ m) → (∀ x ∈ v.Methods, x.Name ≠ m) →
        modifyCallable.Preprocess (NS ++ '.' :: (T ++ '.' :: m)) f repos = .error .logPanic)) ∧
    (∀ (v : gir.Interface), result.Type_ = .Interface v →
      (∀ (pre post : List gir.CallableAttrs) (c : gir.CallableAttrs),
        v.Methods = pre ++ c :: post → (∀ x ∈ pre, x.Name ≠ m) → c.Name = m →
        modifyCallable.Preprocess (NS ++ '.' :: (T ++ '.' :: m)) f repos =
          match f c with
          | .ok c' => .ok (repos.store result
              (.Interface { v with Methods := pre ++ c' :: post }))
          | .error e => .error e) ∧
      ((∀ x ∈ v.Methods, x.Name ≠ m) →
        ∀ (pre post : List gir.CallableAttrs) (c : gir.CallableAttrs),
        v.VirtualMethods = pre ++ c :: post → (∀ x ∈ pre, x.Name ≠ m) → c.Name = m →
        modifyCallable.Preprocess (NS ++ '.' :: (T ++ '.' :: m)) f repos =
          match f c with
          | .ok c' => .ok (repos.store result
              (.Interface { v with VirtualMethods := pre ++ c' :: post }))
          | .error e => .error e) ∧
      ((∀ x ∈ v.Methods, x.Name ≠ m) → (∀ x ∈ v.VirtualMethods, x.Name ≠ m) →
        modifyCallable.Preprocess (NS ++ '.' :: (T ++ '.' :: m)) f repos = .error .logPanic)) ∧
    (∀ (v : gir.Enum), result.Type_ = .Enum v →
      modifyCallable.Preprocess (NS ++ '.' :: (T ++ '.' :: m)) f repos = .error .logPanic) ∧
    (∀ (v : gir.Function), result.Type_ = .Function v →
      modifyCallable.Preprocess (NS ++ '.' :: (T ++ '.' :: m)) f repos =
        match f v.CallableAttrs with
        | .ok c => .ok (repos.store result (.Function { v with CallableAttrs := c }))
        | .error e => .error e) ∧
    (∀ (v : gir.Callback), result.Type_ = .Callback v →
      modifyCallable.Preprocess (NS ++ '.' :: (T ++ '.' :: m)) f repos =
        match f v.CallableAttrs with
        | .ok c => .ok (repos.store result (.Callback { v with CallableAttrs := c }))
        | .error e => .error e) := by
  have key := modifyCallable_three repos NS T m f result hNS hT hfind
  refine ⟨?_, ?_, ?_, ?_, ?_, ?_⟩
  · intro v hv
    rw [hv] at key
    refine ⟨?_, ?_, ?_⟩
    · intro pre post c hl hpre hc
      obtain ⟨h1, h2⟩ := modifyFirst_hit m f pre post c hpre hc
      rw [key]
      cases hf : f c with
      | ok c' => simp [modifyMember, hl, h1 c' hf]
      | error e => simp [modifyMember, hl, h2 e hf]
    · intro hctor pre post c hl hpre hc
      obtain ⟨h1, h2⟩ := modifyFirst_hit m f pre post c hpre hc
      have h0 := modifyFirst_none m f v.Constructors hctor
      rw [key]
      cases hf : f c with
      | ok c' => simp [modifyMember, hl, h0, h1 c' hf]
      | error e => simp [modifyMember, hl, h0, h2 e hf]
    · intro hctor hmeth
      rw [key]
      simp [modifyMember, modifyFirst_none m f _ hctor, modifyFirst_none m f _ hmeth]
  · intro v hv
    rw [hv] at key
    refine ⟨?_, ?_, ?_⟩
    · intro pre post c hl hpre hc
      obtain ⟨h1, h2⟩ := modifyFirst_hit m f pre post c hpre hc
      rw [key]
      cases hf : f c with
      | ok c' => simp [modifyMember, hl, h1 c' hf]
      | error e => simp [modifyMember, hl, h2 e hf]
    · intro hctor pre post c hl hpre hc
      obtain ⟨h1, h2⟩ := modifyFirst_hit m f pre post c hpre hc
      have h0 := modifyFirst_none m f v.Constructors hctor
      rw [key]
      cases hf : f c with
      | ok c' => simp [modifyMember, hl, h0, h1 c' hf]
      | error e => simp [modifyMember, hl, h0, h2 e hf]
    · intro hctor hmeth
      rw [key]
      simp [modifyMember, modifyFirst_none m f _ hctor, modifyFirst_none m f _ hmeth]
  · intro v hv
    rw [hv] at key
    refine ⟨?_, ?_, ?_⟩
    · intro pre post c hl hpre hc
      obtain ⟨h1, h2⟩ := modifyFirst_hit m f pre post c hpre hc
      rw [key]
      cases hf : f c with
      | ok c' => simp [modifyMember, hl, h1 c' hf]
      | error e => simp [modifyMember, hl, h2 e hf]
    · intro hmeth pre post c hl hpre hc
      obtain ⟨h1, h2⟩ := modifyFirst_hit m f pre post c hpre hc
      have h0 := modifyFirst_none m f v.Methods hmeth
      rw [key]
      cases hf : f c with
      | ok c' => simp [modifyMember, hl, h0, h1 c' hf]
      | error e => simp [modifyMember, hl, h0, h2 e hf]
    · intro hmeth hvirt
      rw [key]
      simp [modifyMember, modifyFirst_none m f _ hmeth, modifyFirst_none m f _ hvirt]
  · intro v hv
    rw [hv] at key
    rw [key]
    simp [modifyMember]
  · intro v hv
    rw [hv] at key
    exact key
  · intro v hv
    rw [hv] at key
    exact key

theorem modifyCallable_first_match_witness :
    modifyCallable.Preprocess
        ("Foo-1".toList ++ '.' :: ("Widget".toList ++ '.' :: "create".toList))
        (fun c => .ok { c with CIdentifier := "changed".toList })
        [createRepo "foo_ctor".toList "foo_method".toList] =
      .ok [createRepo "changed".toList "foo_method".toList] :=
  ((modifyCallable_first_match [createRepo "foo_ctor".toList "foo_method".toList]
      "Foo-1".toList "Widget".toList "create".toList
      (fun c => .ok { c with CIdentifier := "changed".toList })
      ⟨0, 0, .Class (createClass "foo_ctor".toList "foo_method".toList)⟩
      (by decide) (by decide) (by rfl)).1
    (createClass "foo_ctor".toList "foo_method".toList) rfl).1
    [] [] ⟨"create".toList, "foo_ctor".toList, none, []⟩ rfl (by simp) rfl

/-! ### C12 -/

theorem RemovePkgconfig_inv (compile : Str → Option Regexp) (girFile : Str) (pkgs : List Str)
    (p : Preprocessor) (h : RemovePkgconfig compile girFile pkgs = .ok p) :
    ∃ match_, MakePathMatcher compile pkgs = .ok match_ ∧
      p = RemovePkgconfig.Preprocess match_ girFile := by
  unfold RemovePkgconfig at h
  cases hm : MakePathMatcher compile pkgs with
  | error e => simp [hm] at h
  | ok match_ =>
    simp only [hm] at h
    injection h with h
    exact ⟨match_, rfl, h.symm⟩

theorem RemoveCIncludes_inv (compile : Str → Option Regexp) (girFile : Str) (cincls : List Str)
    (p : Preprocessor) (h : RemoveCIncludes compile girFile cincls = .ok p) :
    ∃ match_, MakePathMatcher compile cincls = .ok match_ ∧
      p = RemoveCIncludes.Preprocess match_ girFile := by
  unfold RemoveCIncludes at h
  cases hm : MakePathMatcher compile cincls with
  | error e => simp [hm] at h
  | ok match_ =>
    simp only [hm] at h
    injection h with h
    exact ⟨match_, rfl, h.symm⟩

theorem RemoveRecordFields_found (repos : gir.Repositories) (girType : Str) (fields : List Str)
    (res : gir.TypeFindResult) (record : gir.Record)
    (hfind : repos.FindFullType girType = some res) (hrec : res.Type_ = .Record record) :
    RemoveRecordFields girType fields repos =
      .ok (repos.store res (.Record { record with
        Fields := record.Fields.filter (fun fld => !(fields.contains fld.Name)) })) := by
  simp [RemoveRecordFields, hfind, hrec, keepInPlace_eq_filter]

/-- C12: the three removal preprocessors, whose code rebuilds the list in place over its own
backing array, leave exactly the filter of the original list: the packages, respectively
includes, whose name the path matcher does not match, and the fields whose name is not among
the given names, in their original order and unchanged; the in-place loop equals `filter`
for every predicate and list. When the repository file, respectively the type, is not found
the model is returned unchanged. -/
theorem removal_in_place_is_filter :
    (∀ (α : Type) (keep : α → Bool) (l : List α), keepInPlace keep l = l.filter keep) ∧
    (∀ (compile : Str → Option Regexp) (girFile : Str) (pkgs : List Str) (p : Preprocessor),
      RemovePkgconfig compile girFile pkgs = .ok p →
      ∃ match_, MakePathMatcher compile pkgs = .ok match_ ∧
        ∀ repos : gir.Repositories,
          (repos.FromGIRFile girFile = none → p repos = .ok repos) ∧
          (∀ (r : Nat) (repo : gir.Repository),
            repos.FromGIRFile girFile = some r → repos[r]? = some repo →
            p repos = .ok (repos.set r { repo with
              Packages := repo.Packages.filter (fun pkg => !(match_ pkg.Name)) }))) ∧
    (∀ (compile : Str → Option Regexp) (girFile : Str) (cincls : List Str) (p : Preprocessor),
      RemoveCIncludes compile girFile cincls = .ok p →
      ∃ match_, MakePathMatcher compile cincls = .ok match_ ∧
        ∀ repos : gir.Repositories,
          (repos.FromGIRFile girFile = none → p repos = .ok repos) ∧
          (∀ (r : Nat) (repo : gir.Repository),
            repos.FromGIRFile girFile = some r → repos[r]? = some repo →
            p repos = .ok (repos.set r { repo with
              CIncludes := repo.CIncludes.filter (fun cincl => !(match_ cincl.Name)) }))) ∧
    (∀ (girType : Str) (fields : List Str) (repos : gir.Repositories),
      (repos.FindFullType girType = none → RemoveRecordFields girType fields repos = .ok repos) ∧
      (∀ (res : gir.TypeFindResult) (record : gir.Record),
        repos.FindFullType girType = some res → res.Type_ = .Record record →
        RemoveRecordFields girType fields repos =
          .ok (repos.store res (.Record { record with
            Fields := record.Fields.filter (fun fld => !(fields.contains fld.Name)) })))) := by
  refine ⟨fun α keep l => keepInPlace_eq_filter keep l, ?_, ?_, ?_⟩
  · intro compile girFile pkgs p hp
    obtain ⟨match_, hm, rfl⟩ := RemovePkgconfig_inv compile girFile pkgs p hp
    refine ⟨match_, hm, fun repos => ⟨?_, ?_⟩⟩
    · intro h
      simp [RemovePkgconfig.Preprocess, h]
    · intro r repo h hr
      simp [RemovePkgconfig.Preprocess, h, hr, keepInPlace_eq_filter]
  · intro compile girFile cincls p hp
    obtain ⟨match_, hm, rfl⟩ := RemoveCIncludes_inv compile girFile cincls p hp
    refine ⟨match_, hm, fun repos => ⟨?_, ?_⟩⟩
    · intro h
      simp [RemoveCIncludes.Preprocess, h]
    · intro r repo h hr
      simp [RemoveCIncludes.Preprocess, h, hr, keepInPlace_eq_filter]
  · intro girType fields repos
    refine ⟨?_, ?_⟩
    · intro h
      simp [RemoveRecordFields, h]
    · intro res record hfind hrec
      exact RemoveRecordFields_found repos girType fields res record hfind hrec

theorem removal_in_place_is_filter_witness :
    RemoveRecordFields "Foo-1.Rec".toList ["b".toList]
        [pkgRepo [] [] ["a".toList, "b".toList, "c".toList, "b".toList]] =
      .ok (gir.Repositories.store
        [pkgRepo [] [] ["a".toList, "b".toList, "c".toList, "b".toList]]
        ⟨0, 0, .Record ⟨"Rec".toList, none, [], [],
          [⟨"a".toList⟩, ⟨"b".toList⟩, ⟨"c".toList⟩, ⟨"b".toList⟩]⟩⟩
        (.Record ⟨"Rec".toList, none, [], [],
          ([⟨"a".toList⟩, ⟨"b".toList⟩, ⟨"c".toList⟩, ⟨"b".toList⟩] :
            List gir.Field).filter (fun fld => !(["b".toList].contains fld.Name))⟩)) :=
  (removal_in_place_is_filter.2.2.2 "Foo-1.Rec".toList ["b".toList]
      [pkgRepo [] [] ["a".toList, "b".toList, "c".toList, "b".toList]]).2
    ⟨0, 0, .Record ⟨"Rec".toList, none, [], [],
      [⟨"a".toList⟩, ⟨"b".toList⟩, ⟨"c".toList⟩, ⟨"b".toList⟩]⟩⟩
    ⟨"Rec".toList, none, [], [], [⟨"a".toList⟩, ⟨"b".toList⟩, ⟨"c".toList⟩, ⟨"b".toList⟩]⟩
    (by rfl) rfl

/-! ### C20 -/

theorem set_of_getElem? {α : Type} (l : List α) (i : Nat) (x : α) (h : l[i]? = some x) :
    l.set i x = l := by
  apply List.ext_getElem?
  intro k
  by_cases hk : i = k
  · subst hk
    rw [List.getElem?_set_self (List.getElem?_eq_some_iff.1 h).1, h]
  · rw [List.getElem?_set_ne hk]

theorem FromGIRFile_set (repos : gir.Repositories) (girFile : Str) (r : Nat)
    (repo repo' : gir.Repository) (h : repos.FromGIRFile girFile = some r)
    (hr : repos[r]? = some repo) (hpath : repo'.Path = repo.Path) :
    gir.Repositories.FromGIRFile (repos.set r repo') girFile = some r ∧
      (repos.set r repo')[r]? = some repo' := by
  have hlt : r < repos.length := firstIndex_lt _ _ _ h
  obtain ⟨x, hx, hp⟩ := firstIndex_spec _ _ _ h
  rw [hr] at hx
  injection hx with hx
  subst hx
  refine ⟨?_, by simp [hlt]⟩
  exact firstIndex_set_same _ repos r repo' h (by simpa [hpath] using hp)

theorem RemovePkgconfig_twice (match_ : Str → Bool) (girFile : Str) (repos : gir.Repositories) :
    ApplyPreprocessors repos
        [RemovePkgconfig.Preprocess match_ girFile, RemovePkgconfig.Preprocess match_ girFile] =
      ApplyPreprocessors repos [RemovePkgconfig.Preprocess match_ girFile] := by
  cases h : repos.FromGIRFile girFile with
  | none => simp [ApplyPreprocessors, RemovePkgconfig.Preprocess, h]
  | some r =>
    cases hr : repos[r]? with
    | none => simp [ApplyPreprocessors, RemovePkgconfig.Preprocess, h, hr]
    | some repo =>
      obtain ⟨h', hr'⟩ := FromGIRFile_set repos girFile r repo
        { repo with Packages := repo.Packages.filter (fun pkg => !(match_ pkg.Name)) } h hr rfl
      simp [ApplyPreprocessors, RemovePkgconfig.Preprocess, h, hr, keepInPlace_eq_filter, h', hr',
        List.filter_filter]

theorem RemoveCIncludes_twice (match_ : Str → Bool) (girFile : Str) (repos : gir.Repositories) :
    ApplyPreprocessors repos
        [RemoveCIncludes.Preprocess match_ girFile, RemoveCIncludes.Preprocess match_ girFile] =
      ApplyPreprocessors repos [RemoveCIncludes.Preprocess match_ girFile] := by
  cases h : repos.FromGIRFile girFile with
  | none => simp [ApplyPreprocessors, RemoveCIncludes.Preprocess, h]
  | some r =>
    cases hr : repos[r]? with
    | none => simp [ApplyPreprocessors, RemoveCIncludes.Preprocess, h, hr]
    | some repo =>
      obtain ⟨h', hr'⟩ := FromGIRFile_set repos girFile r repo
        { repo with CIncludes := repo.CIncludes.filter (fun c => !(match_ c.Name)) } h hr rfl
      simp [ApplyPreprocessors, RemoveCIncludes.Preprocess, h, hr, keepInPlace_eq_filter, h', hr',
        List.filter_filter]

/-- What a successful `FindFullType` says about the model: the versioned namespace has a
version, and the result is the place of the first matching repository and of the first
declaration in it with the wanted name. -/
theorem FindFullType_inv (repos : gir.Repositories) (fullType : Str) (res : gir.TypeFindResult)
    (h : repos.FindFullType fullType = some res) :
    (gir.ParseVersionName (gir.SplitGIRType fullType).1).2 ≠ [] ∧
    ∃ repo,
      firstIndex (fun repo => decide (gir.VersionedNamespace repo = (gir.SplitGIRType fullType).1))
        repos = some res.repo ∧
      repos[res.repo]? = some repo ∧
      firstIndex (fun node => decide (node.Name = (gir.SplitGIRType fullType).2)) repo.Types
        = some res.index ∧
      repo.Types[res.index]? = some res.Type_ := by
  unfold gir.Repositories.FindFullType at h
  cases hs : gir.SplitGIRType fullType with
  | mk vns typ =>
    simp only [hs] at h ⊢
    by_cases hver : (gir.ParseVersionName vns).2 = []
    · simp [hver] at h
    · refine ⟨hver, ?_⟩
      cases hr : firstIndex (fun repo => decide (gir.VersionedNamespace repo = vns)) repos with
      | none => simp [hver, hr] at h
      | some r =>
        cases hrepo : repos[r]? with
        | none => simp [hver, hr, hrepo] at h
        | some repo =>
          cases hi : firstIndex (fun node => decide (node.Name = typ)) repo.Types with
          | none => simp [hver, hr, hrepo, hi] at h
          | some i =>
            cases hnode : repo.Types[i]? with
            | none => simp [hver, hr, hrepo, hi, hnode] at h
            | some node =>
              simp [hver, hr, hrepo, hi, hnode] at h
              subst h
              exact ⟨repo, rfl, hrepo, hi, hnode⟩

/-- A write of a node with the same name through a found pointer does not move the type:
the same name resolves to the same place, now holding the written node. -/
theorem FindFullType_store_same (repos : gir.Repositories) (fullType : Str)
    (res : gir.TypeFindResult) (node : gir.Node)
    (h : repos.FindFullType fullType = some res) (hname : node.Name = res.Type_.Name) :
    gir.Repositories.FindFullType (repos.store res node) fullType =
      some ⟨res.repo, res.index, node⟩ := by
  obtain ⟨hver, repo, hr, hrepo, hi, hnode⟩ := FindFullType_inv repos fullType res h
  have hrlt : res.repo < repos.length := firstIndex_lt _ _ _ hr
  have hilt : res.index < repo.Types.length := firstIndex_lt _ _ _ hi
  have hp : (fun repo => decide (gir.VersionedNamespace repo = (gir.SplitGIRType fullType).1))
      { repo with Types := repo.Types.set res.index node } = true := by
    obtain ⟨x, hx, hpx⟩ := firstIndex_spec _ _ _ hr
    rw [hrepo] at hx
    injection hx with hx
    subst hx
    simpa [gir.VersionedNamespace] using hpx
  have hq : (fun n : gir.Node => decide (n.Name = (gir.SplitGIRType fullType).2)) node = true := by
    obtain ⟨x, hx, hpx⟩ := firstIndex_spec _ _ _ hi
    rw [hnode] at hx
    injection hx with hx
    subst hx
    simpa [hname] using hpx
  have h1 := firstIndex_set_same _ repos res.repo
    { repo with Types := repo.Types.set res.index node } hr hp
  have h2 := firstIndex_set_same _ repo.Types res.index node hi hq
  rw [store_eq repos res repo node hrepo]
  unfold gir.Repositories.FindFullType
  cases hs : gir.SplitGIRType fullType with
  | mk vns typ =>
    simp only [hs] at hver h1 h2 ⊢
    simp [hver, h1, h2, hrlt, hilt]

theorem RemoveRecordFields_twice (girType : Str) (fields : List Str) (repos : gir.Repositories) :
    ApplyPreprocessors repos
        [RemoveRecordFields girType fields, RemoveRecordFields girType fields] =
      ApplyPreprocessors repos [RemoveRecordFields girType fields] := by
  cases h : repos.FindFullType girType with
  | none => simp [ApplyPreprocessors, RemoveRecordFields, h]
  | some res =>
    cases hty : res.Type_ with
    | Record record =>
      have h1 := RemoveRecordFields_found repos girType fields res record h hty
      have hfind2 := FindFullType_store_same repos girType res
        (.Record { record with
          Fields := record.Fields.filter (fun fld => !(fields.contains fld.Name)) }) h
        (by rw [hty]; rfl)
      have h2 := RemoveRecordFields_found _ girType fields _ _ hfind2 rfl
      obtain ⟨_, repo, _, hrepo, hi, _⟩ := FindFullType_inv repos girType res h
      have hrlt : res.repo < repos.length := (List.getElem?_eq_some_iff.1 hrepo).1
      simp only [ApplyPreprocessors, h1, h2]
      rw [store_eq repos res repo _ hrepo]
      simp [gir.Repositories.store, hrlt, List.filter_filter]
    | Class v => simp [ApplyPreprocessors, RemoveRecordFields, h, hty]
    | Interface v => simp [ApplyPreprocessors, RemoveRecordFields, h, hty]
    | Enum v => simp [ApplyPreprocessors, RemoveRecordFields, h, hty]
    | Callback v => simp [ApplyPreprocessors, RemoveRecordFields, h, hty]
    | Function v => simp [ApplyPreprocessors, RemoveRecordFields, h, hty]

theorem filter_of_all_kept {α : Type} (keep : α → Bool) (l : List α)
    (h : ∀ x ∈ l, keep x = true) : l.filter keep = l :=
  List.filter_eq_self.2 h

/-- C20: the removal preprocessors are idempotent: for every model, running
`RemovePkgconfig`, `RemoveCIncludes` or `RemoveRecordFields` twice in a row has the outcome of
running it once. One that matches nothing returns the model unchanged: a path matcher false
of every package, respectively include, name of the repository, field names of which none is
a field of the record, and a repository file or type that is not found. -/
theorem removal_idempotent :
    (∀ (compile : Str → Option Regexp) (girFile : Str) (pkgs : List Str) (p : Preprocessor),
      RemovePkgconfig compile girFile pkgs = .ok p →
      ∃ match_, MakePathMatcher compile pkgs = .ok match_ ∧
        ∀ repos : gir.Repositories,
          ApplyPreprocessors repos [p, p] = ApplyPreprocessors repos [p] ∧
          ((∀ (r : Nat) (repo : gir.Repository),
              repos.FromGIRFile girFile = some r → repos[r]? = some repo →
              ∀ pkg ∈ repo.Packages, match_ pkg.Name = false) →
            p repos = .ok repos)) ∧
    (∀ (compile : Str → Option Regexp) (girFile : Str) (cincls : List Str) (p : Preprocessor),
      RemoveCIncludes compile girFile cincls = .ok p →
      ∃ match_, MakePathMatcher compile cincls = .ok match_ ∧
        ∀ repos : gir.Repositories,
          ApplyPreprocessors repos [p, p] = ApplyPreprocessors repos [p] ∧
          ((∀ (r : Nat) (repo : gir.Repository),
              repos.FromGIRFile girFile = some r → repos[r]? = some repo →
              ∀ cincl ∈ repo.CIncludes, match_ cincl.Name = false) →
            p repos = .ok repos)) ∧
    (∀ (girType : Str) (fields : List Str) (repos : gir.Repositories),
      ApplyPreprocessors repos
          [RemoveRecordFields girType fields, RemoveRecordFields girType fields] =
        ApplyPreprocessors repos [RemoveRecordFields girType fields] ∧
      (repos.FindFullType girType = none →
        RemoveRecordFields girType fields repos = .ok repos) ∧
      (∀ (res : gir.TypeFindResult) (record : gir.Record),
        repos.FindFullType girType = some res → res.Type_ = .Record record →
        (∀ fld ∈ record.Fields, fld.Name ∉ fields) →
        RemoveRecordFields girType fields repos = .ok repos)) := by
  refine ⟨?_, ?_, ?_⟩
  · intro compile girFile pkgs p hp
    obtain ⟨match_, hm, rfl⟩ := RemovePkgconfig_inv compile girFile pkgs p hp
    refine ⟨match_, hm, fun repos => ⟨RemovePkgconfig_twice match_ girFile repos, ?_⟩⟩
    intro hall
    cases h : repos.FromGIRFile girFile with
    | none => simp [RemovePkgconfig.Preprocess, h]
    | some r =>
      cases hr : repos[r]? with
      | none => simp [RemovePkgconfig.Preprocess, h, hr]
      | some repo =>
        have hf : repo.Packages.filter (fun pkg => !(match_ pkg.Name)) = repo.Packages :=
          filter_of_all_kept _ _ (fun x hx => by simp [hall r repo h hr x hx])
        simp [RemovePkgconfig.Preprocess, h, hr, keepInPlace_eq_filter, hf,
          set_of_getElem? repos r repo hr]
  · intro compile girFile cincls p hp
    obtain ⟨match_, hm, rfl⟩ := RemoveCIncludes_inv compile girFile cincls p hp
    refine ⟨match_, hm, fun repos => ⟨RemoveCIncludes_twice match_ girFile repos, ?_⟩⟩
    intro hall
    cases h : repos.FromGIRFile girFile with
    | none => simp [RemoveCIncludes.Preprocess, h]
    | some r =>
      cases hr : repos[r]? with
      | none => simp [RemoveCIncludes.Preprocess, h, hr]
      | some repo =>
        have hf : repo.CIncludes.filter (fun c => !(match_ c.Name)) = repo.CIncludes :=
          filter_of_all_kept _ _ (fun x hx => by simp [hall r repo h hr x hx])
        simp [RemoveCIncludes.Preprocess, h, hr, keepInPlace_eq_filter, hf,
          set_of_getElem? repos r repo hr]
  · intro girType fields repos
    refine ⟨RemoveRecordFields_twice girType fields repos, ?_, ?_⟩
    · intro h
      simp [RemoveRecordFields, h]
    · intro res record hfind hrec hall
      have hf : record.Fields.filter (fun fld => !(fields.contains fld.Name)) = record.Fields :=
        filter_of_all_kept _ _ (fun x hx => by simpa using hall x hx)
      obtain ⟨_, repo, _, hrepo, _, hnode⟩ := FindFullType_inv repos girType res hfind
      rw [RemoveRecordFields_found repos girType fields res record hfind hrec, hf,
        store_eq repos res repo _ hrepo]
      rw [hrec] at hnode
      have e1 : repo.Types.set res.index (.Record record) = repo.Types :=
        set_of_getElem? _ _ _ hnode
      have e2 : ({ repo with Types := repo.Types.set res.index (.Record record) } :
          gir.Repository) = repo := by
        rw [e1]
      have e3 : ({ record with Fields := record.Fields } : gir.Record) = record := rfl
      rw [e3, e2, set_of_getElem? repos res.repo repo hrepo]

theorem removal_idempotent_witness :
    ∃ (p : Preprocessor) (match_ : Str → Bool),
      RemovePkgconfig regexp.MustCompile "Foo.gir".toList
          ["glib-2.0".toList, "/^gtk.*/".toList] = .ok p ∧
      MakePathMatcher regexp.MustCompile ["glib-2.0".toList, "/^gtk.*/".toList]
          = .ok match_ ∧
      ApplyPreprocessors
          [pkgRepo ["glib-2.0".toList, "gtk4".toList, "cairo".toList] [] []] [p, p] =
        ApplyPreprocessors
          [pkgRepo ["glib-2.0".toList, "gtk4".toList, "cairo".toList] [] []] [p] := by
  obtain ⟨match_, hm, h⟩ := removal_idempotent.1 regexp.MustCompile "Foo.gir".toList
    ["glib-2.0".toList, "/^gtk.*/".toList] _ rfl
  exact ⟨_, match_, rfl, hm,
    (h [pkgRepo ["glib-2.0".toList, "gtk4".toList, "cairo".toList] [] []]).1⟩

/-! ### C17 -/

/-- C17: a target of the wrong kind is a hard error and an absent target a soft one: the
preprocessor of `RenameEnumMembers` panics when its target resolves to a node that is not an
enum, the one of `RemoveRecordFields` when its target resolves to a node that is not a
record, in both cases handing no changed model back; when the target does not resolve, each
returns the model unchanged. -/
theorem wrong_kind_fatal_absent_soft :
    (∀ (compile : Str → Option Regexp) (enum regex replace : Str) (p : Preprocessor),
      RenameEnumMembers compile enum regex replace = .ok p →
      ∀ repos : gir.Repositories,
        (repos.FindFullType enum = none → p repos = .ok repos) ∧
        (∀ result : gir.TypeFindResult, repos.FindFullType enum = some result →
          (∀ e : gir.Enum, result.Type_ ≠ .Enum e) → p repos = .error .logPanic)) ∧
    (∀ (girType : Str) (fields : List Str) (repos : gir.Repositories),
      (repos.FindFullType girType = none →
        RemoveRecordFields girType fields repos = .ok repos) ∧
      (∀ res : gir.TypeFindResult, repos.FindFullType girType = some res →
        (∀ record : gir.Record, res.Type_ ≠ .Record record) →
        RemoveRecordFields girType fields repos = .error .logPanic)) := by
  constructor
  · intro compile enum regex replace p hp
    unfold RenameEnumMembers at hp
    cases hv : girTypeMustBeVersioned enum with
    | error e => simp [hv] at hp
    | ok u =>
      cases hc : compile regex with
      | none => simp [hv, hc] at hp
      | some re =>
        simp only [hv, hc] at hp
        injection hp with hp
        subst hp
        intro repos
        constructor
        · intro h
          simp [RenameEnumMembers.Preprocess, h]
        · intro result h hne
          cases hty : result.Type_ with
          | Enum e => exact absurd hty (hne e)
          | Class v => simp [RenameEnumMembers.Preprocess, h, hty]
          | Record v => simp [RenameEnumMembers.Preprocess, h, hty]
          | Interface v => simp [RenameEnumMembers.Preprocess, h, hty]
          | Callback v => simp [RenameEnumMembers.Preprocess, h, hty]
          | Function v => simp [RenameEnumMembers.Preprocess, h, hty]
  · intro girType fields repos
    constructor
    · intro h
      simp [RemoveRecordFields, h]
    · intro res h hne
      cases hty : res.Type_ with
      | Record r => exact absurd hty (hne r)
      | Class v => simp [RemoveRecordFields, h, hty]
      | Enum v => simp [RemoveRecordFields, h, hty]
      | Interface v => simp [RemoveRecordFields, h, hty]
      | Callback v => simp [RemoveRecordFields, h, hty]
      | Function v => simp [RemoveRecordFields, h, hty]

theorem wrong_kind_fatal_absent_soft_witness :
    RemoveRecordFields "Foo-1.Bar".toList ["f".toList]
        [fooRepo "1".toList [barEnum ["FOO_BAR_ONE".toList]]] = .error .logPanic :=
  (wrong_kind_fatal_absent_soft.2 "Foo-1.Bar".toList ["f".toList]
      [fooRepo "1".toList [barEnum ["FOO_BAR_ONE".toList]]]).2
    ⟨0, 0, barEnum ["FOO_BAR_ONE".toList]⟩ (by rfl)
    (by intro record h; simp [barEnum] at h)

/-! ### C18 -/

theorem girTypeMustBeVersioned_eq (girType : Str) :
    girTypeMustBeVersioned girType =
      if (gir.ParseVersionName (gir.SplitGIRType girType).1).2 = [] then .error .logPanic
      else .ok () := by
  unfold girTypeMustBeVersioned
  rfl

/-- A constructor that only checks the version of its target: it succeeds exactly when the
namespace part of the target has a version, and otherwise it panics. -/
theorem versioned_gate {β : Type} (girType : Str) (q : β) :
    ((∃ p, (match girTypeMustBeVersioned girType with
        | .error e => (.error e : Except Panic β)
        | .ok () => .ok q) = .ok p) ↔
      (gir.ParseVersionName (gir.SplitGIRType girType).1).2 ≠ []) ∧
    ((match girTypeMustBeVersioned girType with
        | .error e => (.error e : Except Panic β)
        | .ok () => .ok q) = .error .logPanic ↔
      (gir.ParseVersionName (gir.SplitGIRType girType).1).2 = []) := by
  rw [girTypeMustBeVersioned_eq]
  by_cases h : (gir.ParseVersionName (gir.SplitGIRType girType).1).2 = [] <;> simp [h]

/-- C18, as stated, fails for `RenameEnumMembers`: with the versioned target `Foo-1.Bar`,
which `girTypeMustBeVersioned` accepts, its construction is still fatal when the regex, here
`(`, does not compile. -/
theorem RenameEnumMembers_fatal_on_bad_regex :
    girTypeMustBeVersioned "Foo-1.Bar".toList = .ok () ∧
    regexp.MustCompile "(".toList = none ∧
    (RenameEnumMembers regexp.MustCompile "Foo-1.Bar".toList "(".toList "x".toList).toBool
      = false := by
  refine ⟨rfl, rfl, rfl⟩

/-- C18, amended: `girTypeMustBeVersioned` accepts a target exactly when its namespace part,
the text before its first `.`, has a non-empty version, and panics for every other target,
among them every target without a `.`. Constructing `PreserveGetName`, `TypeRenamer`,
`ModifyCallable`, `MustIntrospect`, `RenameCallable` or `ModifyParamDirections` succeeds
exactly when the target is accepted and panics otherwise; constructing `RenameEnumMembers`
succeeds exactly when the target is accepted and its regex compiles. -/
theorem versioned_target_required :
    (∀ girType : Str,
      (girTypeMustBeVersioned girType = .ok () ↔
        (gir.ParseVersionName (gir.SplitGIRType girType).1).2 ≠ []) ∧
      (girTypeMustBeVersioned girType = .error .logPanic ↔
        (gir.ParseVersionName (gir.SplitGIRType girType).1).2 = [])) ∧
    (∀ NS rest : Str, '.' ∉ NS →
      (girTypeMustBeVersioned (NS ++ '.' :: rest) = .ok () ↔ (gir.ParseVersionName NS).2 ≠ [])) ∧
    (∀ girType : Str, '.' ∉ girType → girTypeMustBeVersioned girType = .error .logPanic) ∧
    (∀ (GuessSnake : Str → Bool) (girType : Str),
      ((∃ p, PreserveGetName GuessSnake girType = .ok p) ↔
        girTypeMustBeVersioned girType = .ok ()) ∧
      (PreserveGetName GuessSnake girType = .error .logPanic ↔
        girTypeMustBeVersioned girType = .error .logPanic)) ∧
    (∀ girType newName : Str,
      ((∃ p, TypeRenamer girType newName = .ok p) ↔ girTypeMustBeVersioned girType = .ok ()) ∧
      (TypeRenamer girType newName = .error .logPanic ↔
        girTypeMustBeVersioned girType = .error .logPanic)) ∧
    (∀ (girType : Str) (f : gir.CallableAttrs → Except Panic gir.CallableAttrs),
      ((∃ p, ModifyCallable girType f = .ok p) ↔ girTypeMustBeVersioned girType = .ok ()) ∧
      (ModifyCallable girType f = .error .logPanic ↔
        girTypeMustBeVersioned girType = .error .logPanic)) ∧
    (∀ girType : Str,
      ((∃ p, MustIntrospect girType = .ok p) ↔ girTypeMustBeVersioned girType = .ok ()) ∧
      (MustIntrospect girType = .error .logPanic ↔
        girTypeMustBeVersioned girType = .error .logPanic)) ∧
    (∀ girType newName : Str,
      ((∃ p, RenameCallable girType newName = .ok p) ↔
        girTypeMustBeVersioned girType = .ok ()) ∧
      (RenameCallable girType newName = .error .logPanic ↔
        girTypeMustBeVersioned girType = .error .logPanic)) ∧
    (∀ (girType : Str) (dirOverrides : List (Str × Str)),
      ((∃ p, ModifyParamDirections girType dirOverrides = .ok p) ↔
        girTypeMustBeVersioned girType = .ok ()) ∧
      (ModifyParamDirections girType dirOverrides = .error .logPanic ↔
        girTypeMustBeVersioned girType = .error .logPanic)) ∧
    (∀ (compile : Str → Option Regexp) (enum regex replace : Str),
      ((∃ p, RenameEnumMembers compile enum regex replace = .ok p) ↔
        (girTypeMustBeVersioned enum = .ok () ∧ ∃ re, compile regex = some re)) ∧
      (RenameEnumMembers compile enum regex replace = .error .logPanic ↔
        (girTypeMustBeVersioned enum = .error .logPanic ∨ compile regex = none))) := by
  have base : ∀ girType : Str,
      (girTypeMustBeVersioned girType = .ok () ↔
        (gir.ParseVersionName (gir.SplitGIRType girType).1).2 ≠ []) ∧
      (girTypeMustBeVersioned girType = .error .logPanic ↔
        (gir.ParseVersionName (gir.SplitGIRType girType).1).2 = []) := by
    intro girType
    rw [girTypeMustBeVersioned_eq]
    by_cases h : (gir.ParseVersionName (gir.SplitGIRType girType).1).2 = [] <;> simp [h]
  have gate : ∀ {β : Type} (girType : Str) (q : β),
      ((∃ p, (match girTypeMustBeVersioned girType with
          | .error e => (.error e : Except Panic β)
          | .ok () => .ok q) = .ok p) ↔ girTypeMustBeVersioned girType = .ok ()) ∧
      ((match girTypeMustBeVersioned girType with
          | .error e => (.error e : Except Panic β)
          | .ok () => .ok q) = .error .logPanic ↔
        girTypeMustBeVersioned girType = .error .logPanic) := by
    intro β girType q
    obtain ⟨g1, g2⟩ := versioned_gate girType q
    exact ⟨g1.trans (base girType).1.symm, g2.trans (base girType).2.symm⟩
  refine ⟨base, ?_, ?_, ?_, ?_, ?_, ?_, ?_, ?_, ?_⟩
  · intro NS rest hNS
    rw [(base _).1, SplitGIRType_append NS rest hNS]
  · intro girType h
    rw [(base _).2]
    simp [gir.SplitGIRType, Cut_eq_none '.' girType h, gir.ParseVersionName, strings.Cut]
  · intro GuessSnake girType
    exact gate girType _
  · intro girType newName
    exact gate girType _
  · intro girType f
    exact gate girType _
  · intro girType
    exact gate girType _
  · intro girType newName
    exact gate girType _
  · intro girType dirOverrides
    exact gate girType _
  · intro compile enum regex replace
    unfold RenameEnumMembers
    rw [girTypeMustBeVersioned_eq]
    by_cases h : (gir.ParseVersionName (gir.SplitGIRType enum).1).2 = []
    · simp [h]
    · cases hc : compile regex <;> simp [h]

theorem versioned_target_required_witness :
    (girTypeMustBeVersioned ("Foo-1".toList ++ '.' :: "Widget.show".toList) = .ok () ↔
      (gir.ParseVersionName "Foo-1".toList).2 ≠ []) ∧
    girTypeMustBeVersioned "Widget".toList = .error .logPanic :=
  ⟨versioned_target_required.2.1 "Foo-1".toList "Widget.show".toList (by decide),
    versioned_target_required.2.2.1 "Widget".toList (by decide)⟩

/-! ### C13 -/

theorem HasPrefix_slash (s : Str) :
    strings.HasPrefix s "/".toList = true ↔ s.head? = some '/' := by
  cases s with
  | nil => simp [strings.HasPrefix]
  | cons c cs =>
    simp only [strings.HasPrefix, String.toList, List.isPrefixOf, List.head?_cons,
      Option.some.injEq, Bool.and_true, beq_iff_eq]
    exact eq_comm

theorem HasSuffix_slash (s : Str) :
    strings.HasSuffix s "/".toList = true ↔ s.getLast? = some '/' := by
  have h0 : strings.HasSuffix s "/".toList = true ↔ ['/'] <:+ s := by
    simp [strings.HasSuffix]
  rw [h0]
  constructor
  · rintro ⟨t, rfl⟩
    simp
  · intro h
    exact ⟨s.dropLast, List.dropLast_append_getLast? '/' (by simp [h])⟩

/-- The test of `MakePathMatcher` holds exactly of the strings that begin with `/` and end
with `/`. -/
theorem slashDelimited_iff (input : Str) :
    slashDelimited input = true ↔ input.head? = some '/' ∧ input.getLast? = some '/' := by
  rw [slashDelimited, Bool.and_eq_true, HasPrefix_slash, HasSuffix_slash]

theorem slashDelimited_false_iff (input : Str) :
    slashDelimited input = false ↔ ¬ (input.head? = some '/' ∧ input.getLast? = some '/') := by
  rw [← slashDelimited_iff]
  simp

theorem pathMatchFn_spec (compile : Str → Option Regexp) (input : Str) (fn : Str → Bool)
    (h : pathMatchFn compile input = .ok fn) (s : Str) :
    fn s = true ↔
      ((input.head? = some '/' ∧ input.getLast? = some '/') ∧
        ∃ re, compile (strings.Trim input '/') = some re ∧ re.MatchString s = true) ∨
      (¬ (input.head? = some '/' ∧ input.getLast? = some '/') ∧
        s = input) := by
  rw [← slashDelimited_false_iff, ← slashDelimited_iff]
  unfold pathMatchFn at h
  by_cases hs : slashDelimited input = true
  · cases hc : compile (strings.Trim input '/') with
    | none => simp [hs, hc] at h
    | some re =>
      simp only [hs, hc, if_true] at h
      injection h with h
      subst h
      simp [hs]
  · have hs' : slashDelimited input = false := by simpa using hs
    simp only [hs', Bool.false_eq_true, if_false] at h
    injection h with h
    subst h
    simp [hs']

theorem pathMatchFns_spec (compile : Str → Option Regexp) (inputs : List Str)
    (fns : List (Str → Bool)) (h : pathMatchFns compile inputs = .ok fns) (s : Str) :
    fns.any (fun fn => fn s) = true ↔
      ∃ input ∈ inputs,
        ((input.head? = some '/' ∧ input.getLast? = some '/') ∧
          ∃ re, compile (strings.Trim input '/') = some re ∧ re.MatchString s = true) ∨
        (¬ (input.head? = some '/' ∧ input.getLast? = some '/') ∧
          s = input) := by
  induction inputs generalizing fns with
  | nil =>
    simp [pathMatchFns] at h
    subst h
    simp
  | cons input rest ih =>
    unfold pathMatchFns at h
    cases h1 : pathMatchFn compile input with
    | error e => simp [h1] at h
    | ok fn =>
      cases h2 : pathMatchFns compile rest with
      | error e => simp [h1, h2] at h
      | ok fns' =>
        simp only [h1, h2] at h
        injection h with h
        subst h
        rw [List.any_cons, Bool.or_eq_true, pathMatchFn_spec compile input fn h1 s, ih fns' h2]
        simp only [List.mem_cons, exists_eq_or_imp]

/-- The loop of `MakePathMatcher` panics exactly when some input that begins and ends with
`/` does not compile, and returns the list of predicates otherwise. -/
theorem pathMatchFns_error_iff (compile : Str → Option Regexp) (inputs : List Str) :
    (pathMatchFns compile inputs = .error .logPanic ↔
      ∃ input ∈ inputs, (input.head? = some '/' ∧ input.getLast? = some '/') ∧
        compile (strings.Trim input '/') = none) ∧
    ((∃ fns, pathMatchFns compile inputs = .ok fns) ↔
      ∀ input ∈ inputs, (input.head? = some '/' ∧ input.getLast? = some '/') →
        ∃ re, compile (strings.Trim input '/') = some re) := by
  induction inputs with
  | nil => simp [pathMatchFns]
  | cons input rest ih =>
    obtain ⟨ih1, ih2⟩ := ih
    by_cases hs : slashDelimited input = true
    · have hs' := (slashDelimited_iff input).1 hs
      cases hc : compile (strings.Trim input '/') with
      | none =>
        constructor
        · simp [pathMatchFns, pathMatchFn, hs, hc, hs']
        · simp [pathMatchFns, pathMatchFn, hs, hc, hs']
      | some re =>
        cases hr : pathMatchFns compile rest with
        | error e =>
          have he : e = .logPanic := by
            cases e <;> first | rfl | skip
            all_goals
              exfalso
              have : ¬ ∃ fns, pathMatchFns compile rest = .ok fns := by simp [hr]
              rw [ih2] at this
              push_neg at this
              obtain ⟨x, hx, hxs, hxc⟩ := this
              have hnone : compile (strings.Trim x '/') = none := by
                cases hcx : compile (strings.Trim x '/') with
                | none => rfl
                | some r => exact absurd hcx (hxc r)
              have := ih1.2 ⟨x, hx, hxs, hnone⟩
              rw [hr] at this
              cases this
          subst he
          rw [hr] at ih1 ih2
          constructor
          · simp only [pathMatchFns, pathMatchFn, hs, hc, hr, if_true, true_iff]
            obtain ⟨x, hx, hxs⟩ := ih1.1 rfl
            exact ⟨x, by simp [hx], hxs⟩
          · simp only [pathMatchFns, pathMatchFn, hs, hc, hr, if_true]
            constructor
            · rintro ⟨fns, h⟩
              cases h
            · intro h
              exact ih2.2 (fun x hx => h x (by simp [hx]))
        | ok fns =>
          rw [hr] at ih1 ih2
          constructor
          · simp only [pathMatchFns, pathMatchFn, hs, hc, hr, if_true]
            constructor
            · intro h
              cases h
            · rintro ⟨x, hx, hxs, hxc⟩
              rcases List.mem_cons.1 hx with e | e
              · subst e
                rw [hc] at hxc
                cases hxc
              · exact absurd (ih1.2 ⟨x, e, hxs, hxc⟩) (by simp)
          · simp only [pathMatchFns, pathMatchFn, hs, hc, hr, if_true]
            constructor
            · intro _ x hx hxs
              rcases List.mem_cons.1 hx with e | e
              · subst e
                exact ⟨re, hc⟩
              · exact ih2.1 ⟨fns, rfl⟩ x e hxs
            · intro _
              exact ⟨_, rfl⟩
    · have hs1 : slashDelimited input = false := by simpa using hs
      have hs' := (slashDelimited_false_iff input).1 hs1
      cases hr : pathMatchFns compile rest with
      | error e =>
        rw [hr] at ih1 ih2
        constructor
        · simp only [pathMatchFns, pathMatchFn, hs1, hr, Bool.false_eq_true, if_false]
          constructor
          · intro h
            obtain ⟨x, hx, hxs⟩ := ih1.1 h
            exact ⟨x, by simp [hx], hxs⟩
          · rintro ⟨x, hx, hxs, hxc⟩
            rcases List.mem_cons.1 hx with e | e
            · subst e
              exact absurd hxs hs'
            · exact ih1.2 ⟨x, e, hxs, hxc⟩
        · simp only [pathMatchFns, pathMatchFn, hs1, hr, Bool.false_eq_true, if_false]
          constructor
          · rintro ⟨fns, h⟩
            cases h
          · intro h
            exact ih2.2 (fun x hx => h x (by simp [hx]))
      | ok fns =>
        rw [hr] at ih1 ih2
        constructor
        · simp only [pathMatchFns, pathMatchFn, hs1, hr, Bool.false_eq_true, if_false]
          constructor
          · intro h
            cases h
          · rintro ⟨x, hx, hxs, hxc⟩
            rcases List.mem_cons.1 hx with e | e
            · subst e
              exact absurd hxs hs'
            · exact absurd (ih1.2 ⟨x, e, hxs, hxc⟩) (by simp)
        · simp only [pathMatchFns, pathMatchFn, hs1, hr, Bool.false_eq_true, if_false]
          constructor
          · intro _ x hx hxs
            rcases List.mem_cons.1 hx with e | e
            · subst e
              exact absurd hxs hs'
            · exact ih2.1 ⟨fns, rfl⟩ x e hxs
          · intro _
            exact ⟨_, rfl⟩

theorem dropWhile_of_head {α : Type} (p : α → Bool) (l : List α)
    (h : ∀ x, l.head? = some x → p x = false) : l.dropWhile p = l := by
  cases l with
  | nil => rfl
  | cons a rest => simp [List.dropWhile, h a rfl]

theorem dropWhile_replicate_append (c : Char) (k : Nat) (t : Str) :
    (List.replicate k c ++ t).dropWhile (fun x => decide (x = c))
      = t.dropWhile (fun x => decide (x = c)) := by
  induction k with
  | zero => simp
  | succ k ih => simp [List.replicate_succ, List.dropWhile, ih]

/-- `strings.Trim(s, "/")` removes every leading and every trailing `/`: of `k` slashes, a
text that neither begins nor ends with `/`, and `j` slashes, the text is left. -/
theorem Trim_slashes (k j : Nat) (body : Str) (hhead : body.head? ≠ some '/')
    (hlast : body.getLast? ≠ some '/') :
    strings.Trim (List.replicate k '/' ++ (body ++ List.replicate j '/')) '/' = body := by
  unfold strings.Trim
  rw [dropWhile_replicate_append]
  cases body with
  | nil =>
    have h := dropWhile_replicate_append '/' j []
    simp only [List.append_nil, List.dropWhile_nil] at h
    simp [h]
  | cons b rest =>
    have hb : b ≠ '/' := fun e => hhead (by simp [e])
    have h2 : ((b :: rest) ++ List.replicate j '/').dropWhile (fun x => decide (x = '/'))
        = (b :: rest) ++ List.replicate j '/' := by
      simp [List.dropWhile, hb]
    rw [h2, List.reverse_append, List.reverse_replicate, dropWhile_replicate_append,
      dropWhile_of_head]
    · simp
    · intro x hx
      rw [List.head?_reverse] at hx
      have : x ≠ '/' := fun e => hlast (by rw [hx, e])
      simp [this]

/-- C13: for every input list on which `MakePathMatcher` returns a predicate, the predicate
is true of `s` iff some input matches `s`, where an input that begins with `/` and ends with
`/` (the one-character input `/` is such an input) matches when the regex compiled from it,
trimmed of its slashes, matches `s`, and every other input matches only the string identical
to it. It returns a predicate exactly when every input that begins and ends with `/`
compiles, and panics otherwise; from the empty list the predicate is false of every string;
a single input that does not both begin and end with `/` matches only itself; the trimmed
text of an input is what is left without its leading and trailing slashes. Evaluated with
the engine `regexp.MustCompile` of this file, the input `/usr/include` is a literal and
matches neither a longer path nor a shorter one, `gtk` does not match `gtk4`, a trailing
slash alone makes no regex, and `/gtk.*/` matches `gtk4` and `libgtk4` and neither `gdk` nor
`gt`. -/
theorem MakePathMatcher_matches :
    (∀ (compile : Str → Option Regexp) (inputs : List Str) (match_ : Str → Bool),
      MakePathMatcher compile inputs = .ok match_ →
      ∀ s : Str, match_ s = true ↔
        ∃ input ∈ inputs,
          ((input.head? = some '/' ∧ input.getLast? = some '/') ∧
            ∃ re, compile (strings.Trim input '/') = some re ∧ re.MatchString s = true) ∨
          (¬ (input.head? = some '/' ∧ input.getLast? = some '/') ∧
            s = input)) ∧
    (∀ (compile : Str → Option Regexp) (inputs : List Str),
      ((∃ match_, MakePathMatcher compile inputs = .ok match_) ↔
        ∀ input ∈ inputs, (input.head? = some '/' ∧ input.getLast? = some '/') →
          ∃ re, compile (strings.Trim input '/') = some re) ∧
      (MakePathMatcher compile inputs = .error .logPanic ↔
        ∃ input ∈ inputs, (input.head? = some '/' ∧ input.getLast? = some '/') ∧
          compile (strings.Trim input '/') = none)) ∧
    (∀ compile : Str → Option Regexp,
      ∃ match_, MakePathMatcher compile [] = .ok match_ ∧ ∀ s, match_ s = false) ∧
    (∀ (compile : Str → Option Regexp) (input : Str),
      ¬ (input.head? = some '/' ∧ input.getLast? = some '/') →
      ∃ match_, MakePathMatcher compile [input] = .ok match_ ∧
        ∀ s, match_ s = true ↔ s = input) ∧
    (∀ (k j : Nat) (body : Str), body.head? ≠ some '/' → body.getLast? ≠ some '/' →
      strings.Trim (List.replicate k '/' ++ (body ++ List.replicate j '/')) '/' = body) ∧
    (∃ match_, MakePathMatcher regexp.MustCompile ["/usr/include".toList] = .ok match_ ∧
      match_ "/usr/include".toList = true ∧
      match_ "/usr/include/glib-2.0".toList = false ∧
      match_ "/opt/usr/include".toList = false ∧
      match_ "usr/include".toList = false ∧
      match_ "include".toList = false) ∧
    (∃ match_, MakePathMatcher regexp.MustCompile ["gtk".toList, "gdk/".toList] = .ok match_ ∧
      match_ "gtk".toList = true ∧ match_ "gtk4".toList = false ∧
      match_ "gdk/".toList = true ∧ match_ "gdk".toList = false ∧
      match_ "gdk/x".toList = false) ∧
    (∃ match_, MakePathMatcher regexp.MustCompile ["/gtk.*/".toList] = .ok match_ ∧
      match_ "gtk4".toList = true ∧ match_ "libgtk4".toList = true ∧
      match_ "gdk".toList = false ∧ match_ "gt".toList = false) := by
  refine ⟨?_, ?_, ?_, ?_, ?_, ?_, ?_, ?_⟩
  · intro compile inputs match_ h s
    unfold MakePathMatcher at h
    cases hf : pathMatchFns compile inputs with
    | error e => simp [hf] at h
    | ok fns =>
      simp only [hf] at h
      injection h with h
      subst h
      exact pathMatchFns_spec compile inputs fns hf s
  · intro compile inputs
    obtain ⟨h1, h2⟩ := pathMatchFns_error_iff compile inputs
    rw [← h1, ← h2]
    unfold MakePathMatcher
    cases hf : pathMatchFns compile inputs with
    | error e => simp
    | ok fns => simp
  · intro compile
    exact ⟨_, rfl, fun s => rfl⟩
  · intro compile input hs
    have hs' := (slashDelimited_false_iff input).2 hs
    refine ⟨fun str => [fun v => decide (v = input)].any (fun fn => fn str), ?_, ?_⟩
    · simp [MakePathMatcher, pathMatchFns, pathMatchFn, hs']
    · intro s
      simp
  · exact Trim_slashes
  · exact ⟨_, rfl, by decide, by decide, by decide, by decide, by decide⟩
  · exact ⟨_, rfl, by decide, by decide, by decide, by decide, by decide⟩
  · exact ⟨_, rfl, by decide, by decide, by decide, by decide⟩

theorem MakePathMatcher_matches_witness :
    ∃ match_, MakePathMatcher regexp.MustCompile ["/usr/include".toList] = .ok match_ ∧
      ∀ s, match_ s = true ↔ s = "/usr/include".toList :=
  MakePathMatcher_matches.2.2.2.1 regexp.MustCompile "/usr/include".toList (by decide)

/-! ### C15 -/

/-- C15, as stated, fails: the sentinel is the one-character string `"\x00"`, which a rule on
the native identifier can match. The regex rule `C..*` (pattern `.*`, anchored to `^.*$`) and
the absolute rule with matcher `"\x00"` both omit a field, which has no native identifier. -/
theorem FilterSub_sentinel_matched :
    (∃ m, RegexFilter regexp.MustCompile "C..*".toList = .ok m ∧
      FilterField ⟨"Foo".toList, [m]⟩ "Widget".toList ⟨"priv".toList⟩ = true ∧
      FilterSub ⟨"Foo".toList, [m]⟩ "Widget".toList "show".toList [] = true) ∧
    (∃ m, AbsoluteFilter ['C', '.', '\x00'] = .ok m ∧
      FilterField ⟨"Foo".toList, [m]⟩ "Widget".toList ⟨"priv".toList⟩ = true) := by
  refine ⟨⟨_, rfl, by decide, by decide⟩, ⟨_, rfl, by decide⟩⟩

/-- C15, amended: `FilterSub` with an empty native identifier, hence `FilterField` always and
`FilterMethod` for a method without a C identifier, asks `Filter` with the one-character
string `"\x00"` in place of the native identifier. A rule with namespace token `C` then omits
the member only if it matches that string: an absolute rule iff its matcher is `"\x00"`, a
regex rule iff its regex matches `"\x00"`. A rule whose matcher is the empty string does not:
neither the absolute rule `C.` nor the regex rule `C.` omits the member, and a filter list
made of `C` rules that do not match `"\x00"` omits no such member. -/
theorem FilterSub_empty_identifier :
    (∀ (gen : FileGenerator) (parent sub : Str),
      FilterSub gen parent sub [] =
        Filter gen (strcases.Dots [gen.Namespace, parent, sub]) ['\x00']) ∧
    (∀ (gen : FileGenerator) (parent : Str) (field : gir.Field),
      FilterField gen parent field =
        Filter gen (strcases.Dots [gen.Namespace, parent, field.Name]) ['\x00']) ∧
    (∀ (gen : FileGenerator) (parent : Str) (method : gir.CallableAttrs),
      method.CIdentifier = [] →
      FilterMethod gen parent method =
        Filter gen (strcases.Dots [gen.Namespace, parent, method.Name]) ['\x00']) ∧
    (∀ (matcher girName : Str),
      (FilterMatcher.absoluteFilter "C".toList matcher).Filter girName ['\x00'] = true ↔
        matcher = ['\x00']) ∧
    (∀ (re : Regexp) (girName : Str),
      (FilterMatcher.regexFilter "C".toList re).Filter girName ['\x00'] =
        re.MatchString ['\x00']) ∧
    (∃ m, AbsoluteFilter "C.".toList = .ok m ∧ ∀ girName, m.Filter girName ['\x00'] = false) ∧
    (∃ m, RegexFilter regexp.MustCompile "C.".toList = .ok m ∧
      ∀ girName, m.Filter girName ['\x00'] = false) ∧
    (∀ (gen : FileGenerator) (parent sub : Str),
      (∀ f ∈ gen.Filters,
        (∃ matcher, f = .absoluteFilter "C".toList matcher ∧ matcher ≠ ['\x00']) ∨
        (∃ re, f = .regexFilter "C".toList re ∧ re.MatchString ['\x00'] = false)) →
      FilterSub gen parent sub [] = false) := by
  refine ⟨fun _ _ _ => rfl, fun _ _ _ => rfl, ?_, ?_, ?_, ?_, ?_, ?_⟩
  · intro gen parent method h
    simp [FilterMethod, FilterSub, h]
  · intro matcher girName
    simp only [FilterMatcher.Filter, if_true, decide_eq_true_eq]
    exact eq_comm
  · intro re girName
    simp [FilterMatcher.Filter]
  · refine ⟨.absoluteFilter "C".toList [], rfl, ?_⟩
    intro girName
    simp [FilterMatcher.Filter]
  · refine ⟨_, rfl, ?_⟩
    intro girName
    rfl
  · intro gen parent sub hall
    have hno : ¬ ∃ f ∈ gen.Filters,
        f.Filter (EnsureNamespace gen.Namespace (strcases.Dots [gen.Namespace, parent, sub]))
          ['\x00'] = true := by
      rintro ⟨f, hf, hm⟩
      rcases hall f hf with ⟨matcher, rfl, hne⟩ | ⟨re, rfl, hre⟩
      · simp only [FilterMatcher.Filter, if_true, decide_eq_true_eq] at hm
        exact hne hm.symm
      · simp [FilterMatcher.Filter, hre] at hm
    have := (filterLoop_omit
      (EnsureNamespace gen.Namespace (strcases.Dots [gen.Namespace, parent, sub])) ['\x00']
      gen.Filters 0).not.2 hno
    simpa [FilterSub, Filter, Filter.run] using this

theorem FilterSub_empty_identifier_witness :
    FilterSub ⟨"Foo".toList, [.absoluteFilter "C".toList [],
        .absoluteFilter "C".toList "foo_widget_show".toList]⟩
      "Widget".toList "show".toList [] = false :=
  FilterSub_empty_identifier.2.2.2.2.2.2.2
    ⟨"Foo".toList, [.absoluteFilter "C".toList [],
      .absoluteFilter "C".toList "foo_widget_show".toList]⟩
    "Widget".toList "show".toList
    (by
      intro f hf
      simp only [List.mem_cons, List.mem_singleton, List.not_mem_nil, or_false] at hf
      rcases hf with rfl | rfl
      · exact Or.inl ⟨[], rfl, by decide⟩
      · exact Or.inl ⟨"foo_widget_show".toList, rfl, by decide⟩)

/-! ### C16 -/

/-- C16 fails on the code: for the namespace token `*` the regex is matched against the
namespace-qualified name that `Filter` builds, not against the bare name. With
`RegexFilter("*.Foo.Bar")` the candidate `Bar` of namespace `Foo` is omitted and the candidate
`Bar` of namespace `Baz` is not; with `RegexFilter("*.Bar")` the anchored pattern `^Bar$`
matches no qualified name, so `Foo.Bar` is not omitted. The decision does not depend on the
native identifier. -/
theorem RegexFilter_star_depends_on_namespace :
    (∃ m, RegexFilter regexp.MustCompile "*.Foo.Bar".toList = .ok m ∧
      (∀ c, Filter ⟨"Foo".toList, [m]⟩ "Bar".toList c = true) ∧
      (∀ c, Filter ⟨"Baz".toList, [m]⟩ "Bar".toList c = false) ∧
      (∀ nsp c, Filter ⟨nsp, [m]⟩ "Foo.Bar".toList c = true) ∧
      (∀ nsp c, Filter ⟨nsp, [m]⟩ "Baz.Bar".toList c = false)) ∧
    (∃ m, RegexFilter regexp.MustCompile "*.Bar".toList = .ok m ∧
      (∀ c, Filter ⟨"Foo".toList, [m]⟩ "Bar".toList c = false)) ∧
    (∀ (re : Regexp) (girName c : Str),
      (FilterMatcher.regexFilter "*".toList re).Filter girName c = re.MatchString girName) := by
  refine ⟨⟨_, rfl, ?_, ?_, ?_, ?_⟩, ⟨_, rfl, ?_⟩, ?_⟩
  · intro c
    rfl
  · intro c
    rfl
  · intro nsp c
    have e : EnsureNamespace nsp "Foo.Bar".toList = "Foo.Bar".toList :=
      EnsureNamespace_of_dot nsp "Foo".toList "Bar".toList
    simp only [Filter, Filter.run, e]
    rfl
  · intro nsp c
    have e : EnsureNamespace nsp "Baz.Bar".toList = "Baz.Bar".toList :=
      EnsureNamespace_of_dot nsp "Baz".toList "Bar".toList
    simp only [Filter, Filter.run, e]
    rfl
  · intro c
    rfl
  · intro re girName c
    simp [FilterMatcher.Filter]

/-! ### C14 -/

theorem captures_any (s : Str) (hnl : '\n' ∉ s) (k p : Nat) (caps : regexp.Caps) :
    regexp.captures s .any k p caps = if p < s.length then [(p + 1, caps)] else [] := by
  by_cases hp : p < s.length
  · have h1 : s[p]? = some s[p] := List.getElem?_eq_getElem hp
    have hne : s[p] ≠ '\n' := fun e => hnl (e ▸ List.getElem_mem hp)
    simp [regexp.captures, h1, hne, hp]
  · have h1 : s[p]? = none := List.getElem?_eq_none (by omega)
    simp [regexp.captures, h1, hp]

/-- On a text without newline, `.*` from position `p` can end at every position from `p` to
the end of the text, and the search prefers the end of the text. -/
theorem capStar_any (s : Str) (hnl : '\n' ∉ s) (k fuel p : Nat) (caps : regexp.Caps)
    (hp : p ≤ s.length) (hfuel : s.length - p ≤ fuel) :
    (∀ y, y ∈ regexp.capStar (regexp.captures s .any k) fuel p caps ↔
      ∃ q, p ≤ q ∧ q ≤ s.length ∧ y = (q, caps)) ∧
    (regexp.capStar (regexp.captures s .any k) fuel p caps).head? = some (s.length, caps) := by
  induction fuel generalizing p with
  | zero =>
    have hpe : p = s.length := by omega
    subst hpe
    refine ⟨fun y => ?_, by simp [regexp.capStar]⟩
    simp only [regexp.capStar, List.mem_singleton]
    constructor
    · intro h
      exact ⟨s.length, Nat.le_refl _, Nat.le_refl _, h⟩
    · rintro ⟨q, h1, h2, rfl⟩
      have : q = s.length := by omega
      rw [this]
  | succ fuel ih =>
    by_cases hlt : p < s.length
    · obtain ⟨ihm, ihh⟩ := ih (p + 1) (by omega) (by omega)
      have e : regexp.capStar (regexp.captures s .any k) (fuel + 1) p caps =
          regexp.capStar (regexp.captures s .any k) fuel (p + 1) caps ++ [(p, caps)] := by
        simp [regexp.capStar, captures_any s hnl, hlt]
      rw [e]
      refine ⟨fun y => ?_, ?_⟩
      · rw [List.mem_append, ihm y, List.mem_singleton]
        constructor
        · rintro (⟨q, h1, h2, rfl⟩ | rfl)
          · exact ⟨q, by omega, h2, rfl⟩
          · exact ⟨p, Nat.le_refl _, hp, rfl⟩
        · rintro ⟨q, h1, h2, rfl⟩
          by_cases hq : q = p
          · subst hq
            exact Or.inr rfl
          · exact Or.inl ⟨q, by omega, h2, rfl⟩
      · cases hl : regexp.capStar (regexp.captures s .any k) fuel (p + 1) caps with
        | nil => simp [hl] at ihh
        | cons a rest =>
          rw [hl] at ihh
          simpa using ihh
    · have hpe : p = s.length := by omega
      subst hpe
      have e : regexp.capStar (regexp.captures s .any k) (fuel + 1) s.length caps =
          [(s.length, caps)] := by
        simp [regexp.capStar, captures_any s hnl]
      rw [e]
      refine ⟨fun y => ?_, by simp⟩
      simp only [List.mem_singleton]
      constructor
      · intro h
        exact ⟨s.length, Nat.le_refl _, Nat.le_refl _, h⟩
      · rintro ⟨q, h1, h2, rfl⟩
        have : q = s.length := by omega
        rw [this]

/-- The group `(.*)` numbered `k` from position `p` of a text without newline. -/
theorem captures_group_star (s : Str) (hnl : '\n' ∉ s) (k p : Nat) (caps : regexp.Caps)
    (hp : p ≤ s.length) :
    (∀ y, y ∈ regexp.captures s (.group (.star .any)) k p caps ↔
      ∃ q, p ≤ q ∧ q ≤ s.length ∧ y = (q, (k, p, q) :: caps)) ∧
    (regexp.captures s (.group (.star .any)) k p caps).head? =
      some (s.length, (k, p, s.length) :: caps) := by
  obtain ⟨hm, hh⟩ := capStar_any s hnl (k + 1) (s.length + 1) p caps hp (by omega)
  have e : regexp.captures s (.group (.star .any)) k p caps =
      (regexp.capStar (regexp.captures s .any (k + 1)) (s.length + 1) p caps).map
        (fun q => (q.1, (k, p, q.1) :: q.2)) := by
    simp [regexp.captures]
  rw [e]
  refine ⟨fun y => ?_, ?_⟩
  · rw [List.mem_map]
    constructor
    · rintro ⟨x, hx, rfl⟩
      obtain ⟨q, h1, h2, rfl⟩ := (hm x).1 hx
      exact ⟨q, h1, h2, rfl⟩
    · rintro ⟨q, h1, h2, rfl⟩
      exact ⟨(q, caps), (hm _).2 ⟨q, h1, h2, rfl⟩, rfl⟩
  · rw [List.head?_map, hh]
    rfl

theorem captures_lit (s : Str) (c : Char) (k p : Nat) (caps : regexp.Caps)
    (y : Nat × regexp.Caps) :
    y ∈ regexp.captures s (.lit c) k p caps ↔ s[p]? = some c ∧ y = (p + 1, caps) := by
  by_cases h : s[p]? = some c <;> simp [regexp.captures, h]

theorem signalMatcherRe_eq :
    signalMatcherRe =
      .cat (.cat (.cat (.cat (.cat (.group (.star .any)) (.lit '.')) (.group (.star .any)))
        (.lit ':')) (.lit ':')) (.group (.star .any)) := by
  decide

/-- The matches of the part `(.*)\.(.*)::` of the signal pattern from position `i` of a text
without newline: a `.` at some position `a`, a `::` at some later position `b`. -/
theorem captures_signal_head (s : Str) (hnl : '\n' ∉ s) (i : Nat) (hi : i ≤ s.length)
    (x : Nat × regexp.Caps) :
    x ∈ regexp.captures s
        (.cat (.cat (.cat (.cat (.group (.star .any)) (.lit '.')) (.group (.star .any)))
          (.lit ':')) (.lit ':')) 1 i [] ↔
      ∃ a b, i ≤ a ∧ s[a]? = some '.' ∧ a + 1 ≤ b ∧ s[b]? = some ':' ∧
        s[b + 1]? = some ':' ∧ x = (b + 2, [(2, a + 1, b), (1, i, a)]) := by
  change x ∈ ((((regexp.captures s (.group (.star .any)) 1 i []).flatMap
      (fun q => regexp.captures s (.lit '.') 2 q.1 q.2)).flatMap
      (fun q => regexp.captures s (.group (.star .any)) 2 q.1 q.2)).flatMap
      (fun q => regexp.captures s (.lit ':') 3 q.1 q.2)).flatMap
      (fun q => regexp.captures s (.lit ':') 3 q.1 q.2) ↔ _
  simp only [List.mem_flatMap]
  constructor
  · rintro ⟨x4, ⟨x3, ⟨x2, ⟨x1, h1, h2⟩, h3⟩, h4⟩, h5⟩
    obtain ⟨a, ha1, ha2, rfl⟩ := ((captures_group_star s hnl 1 i [] hi).1 x1).1 h1
    obtain ⟨hdot, rfl⟩ := (captures_lit s '.' 2 _ _ x2).1 h2
    have halt : a < s.length := (List.getElem?_eq_some_iff.1 hdot).1
    obtain ⟨b, hb1, hb2, rfl⟩ :=
      ((captures_group_star s hnl 2 (a + 1) _ (by omega)).1 x3).1 h3
    obtain ⟨hc1, rfl⟩ := (captures_lit s ':' 3 _ _ x4).1 h4
    obtain ⟨hc2, rfl⟩ := (captures_lit s ':' 3 _ _ x).1 h5
    exact ⟨a, b, ha1, hdot, hb1, hc1, hc2, rfl⟩
  · rintro ⟨a, b, ha1, hdot, hb1, hc1, hc2, rfl⟩
    have halt : a < s.length := (List.getElem?_eq_some_iff.1 hdot).1
    have hblt : b < s.length := (List.getElem?_eq_some_iff.1 hc1).1
    refine ⟨(b + 1, [(2, a + 1, b), (1, i, a)]), ⟨(b, [(2, a + 1, b), (1, i, a)]),
      ⟨(a + 1, [(1, i, a)]), ⟨(a, [(1, i, a)]), ?_, ?_⟩, ?_⟩, ?_⟩, ?_⟩
    · exact ((captures_group_star s hnl 1 i [] hi).1 _).2 ⟨a, ha1, by omega, rfl⟩
    · exact (captures_lit s '.' 2 _ _ _).2 ⟨hdot, rfl⟩
    · exact ((captures_group_star s hnl 2 (a + 1) _ (by omega)).1 _).2
        ⟨b, hb1, by omega, rfl⟩
    · exact (captures_lit s ':' 3 _ _ _).2 ⟨hc1, rfl⟩
    · exact (captures_lit s ':' 3 _ _ _).2 ⟨hc2, rfl⟩

theorem head?_flatMap {α β : Type} (l : List α) (f : α → List β) (y : β)
    (h : (l.flatMap f).head? = some y) : ∃ x ∈ l, (f x).head? = some y := by
  induction l with
  | nil => simp at h
  | cons a rest ih =>
    rw [List.flatMap_cons] at h
    cases hf : f a with
    | nil =>
      rw [hf, List.nil_append] at h
      obtain ⟨x, hx, hy⟩ := ih h
      exact ⟨x, by simp [hx], hy⟩
    | cons b bs =>
      rw [hf] at h
      exact ⟨a, by simp, by rw [hf]; simpa using h⟩

/-- The matches of the whole signal pattern from position `i` of a text without newline, and
the one the search prefers: it ends at the end of the text. -/
theorem captures_signal (s : Str) (hnl : '\n' ∉ s) (i : Nat) (hi : i ≤ s.length) :
    (∀ y, y ∈ regexp.captures s signalMatcherRe 1 i [] ↔
      ∃ a b e, i ≤ a ∧ s[a]? = some '.' ∧ a + 1 ≤ b ∧ s[b]? = some ':' ∧
        s[b + 1]? = some ':' ∧ b + 2 ≤ e ∧ e ≤ s.length ∧
        y = (e, [(3, b + 2, e), (2, a + 1, b), (1, i, a)])) ∧
    (∀ y, (regexp.captures s signalMatcherRe 1 i []).head? = some y →
      ∃ a b, i ≤ a ∧ s[a]? = some '.' ∧ a + 1 ≤ b ∧ s[b]? = some ':' ∧
        s[b + 1]? = some ':' ∧
        y = (s.length, [(3, b + 2, s.length), (2, a + 1, b), (1, i, a)])) := by
  rw [signalMatcherRe_eq]
  have e : regexp.captures s
      (.cat (.cat (.cat (.cat (.cat (.group (.star .any)) (.lit '.')) (.group (.star .any)))
        (.lit ':')) (.lit ':')) (.group (.star .any))) 1 i [] =
      (regexp.captures s
        (.cat (.cat (.cat (.cat (.group (.star .any)) (.lit '.')) (.group (.star .any)))
          (.lit ':')) (.lit ':')) 1 i []).flatMap
        (fun q => regexp.captures s (.group (.star .any)) 3 q.1 q.2) := rfl
  rw [e]
  constructor
  · intro y
    rw [List.mem_flatMap]
    constructor
    · rintro ⟨x, hx, hy⟩
      obtain ⟨a, b, h1, h2, h3, h4, h5, rfl⟩ := (captures_signal_head s hnl i hi x).1 hx
      have hblt : b + 1 < s.length := (List.getElem?_eq_some_iff.1 h5).1
      obtain ⟨q, hq1, hq2, rfl⟩ :=
        ((captures_group_star s hnl 3 (b + 2) _ (by omega)).1 y).1 hy
      exact ⟨a, b, q, h1, h2, h3, h4, h5, hq1, hq2, rfl⟩
    · rintro ⟨a, b, q, h1, h2, h3, h4, h5, hq1, hq2, rfl⟩
      have hblt : b + 1 < s.length := (List.getElem?_eq_some_iff.1 h5).1
      refine ⟨(b + 2, [(2, a + 1, b), (1, i, a)]),
        (captures_signal_head s hnl i hi _).2 ⟨a, b, h1, h2, h3, h4, h5, rfl⟩, ?_⟩
      exact ((captures_group_star s hnl 3 (b + 2) _ (by omega)).1 _).2 ⟨q, hq1, hq2, rfl⟩
  · intro y hy
    obtain ⟨x, hx, hxy⟩ := head?_flatMap _ _ y hy
    obtain ⟨a, b, h1, h2, h3, h4, h5, rfl⟩ := (captures_signal_head s hnl i hi x).1 hx
    have hblt : b + 1 < s.length := (List.getElem?_eq_some_iff.1 h5).1
    have hh := (captures_group_star s hnl 3 (b + 2) [(2, a + 1, b), (1, i, a)] (by omega)).2
    rw [hh] at hxy
    injection hxy with hxy
    exact ⟨a, b, h1, h2, h3, h4, h5, hxy.symm⟩

theorem drop_of_getElem? (s : Str) (a : Nat) (c : Char) (h : s[a]? = some c) :
    s.drop a = c :: s.drop (a + 1) := by
  obtain ⟨hlt, he⟩ := List.getElem?_eq_some_iff.1 h
  rw [List.drop_eq_getElem_cons hlt, he]

/-- A text with a `.` at position `a` and a `::` at a later position `b` is its three
extracted parts put together again. -/
theorem extract_reassemble (s : Str) (a b : Nat) (hdot : s[a]? = some '.') (hab : a + 1 ≤ b)
    (hc1 : s[b]? = some ':') (hc2 : s[b + 1]? = some ':') :
    s = regexp.extract s 0 a ++
      '.' :: (regexp.extract s (a + 1) b ++ ':' :: ':' :: regexp.extract s (b + 2) s.length) := by
  have e1 : regexp.extract s 0 a = s.take a := by simp [regexp.extract]
  have e3 : regexp.extract s (b + 2) s.length = s.drop (b + 2) := by
    unfold regexp.extract
    exact List.take_of_length_le (by simp)
  have e2 : s.drop (a + 1) = regexp.extract s (a + 1) b ++ s.drop b := by
    unfold regexp.extract
    have : s.drop b = (s.drop (a + 1)).drop (b - (a + 1)) := by
      rw [List.drop_drop]
      congr 1
      omega
    rw [this, List.take_append_drop]
  calc s = s.take a ++ s.drop a := (List.take_append_drop a s).symm
    _ = s.take a ++ '.' :: s.drop (a + 1) := by rw [drop_of_getElem? s a '.' hdot]
    _ = s.take a ++ '.' :: (regexp.extract s (a + 1) b ++ s.drop b) := by rw [← e2]
    _ = s.take a ++ '.' :: (regexp.extract s (a + 1) b ++ ':' :: ':' :: s.drop (b + 2)) := by
        rw [drop_of_getElem? s b ':' hc1, drop_of_getElem? s (b + 1) ':' hc2]
    _ = _ := by rw [e1, e3]

theorem shape_positions (A B C : Str) :
    (A ++ '.' :: (B ++ ':' :: ':' :: C))[A.length]? = some '.' ∧
    (A ++ '.' :: (B ++ ':' :: ':' :: C))[A.length + 1 + B.length]? = some ':' ∧
    (A ++ '.' :: (B ++ ':' :: ':' :: C))[A.length + 1 + B.length + 1]? = some ':' := by
  refine ⟨?_, ?_, ?_⟩
  · rw [List.getElem?_append_right (Nat.le_refl _)]
    simp
  · rw [List.getElem?_append_right (by omega)]
    have : A.length + 1 + B.length - A.length = B.length + 1 := by omega
    rw [this, List.getElem?_cons_succ, List.getElem?_append_right (Nat.le_refl _)]
    simp
  · rw [List.getElem?_append_right (by omega)]
    have : A.length + 1 + B.length + 1 - A.length = (B.length + 1) + 1 := by omega
    rw [this, List.getElem?_cons_succ, List.getElem?_append_right (by omega)]
    have : B.length + 1 - B.length = 1 := by omega
    rw [this]
    simp

theorem submatchFrom_none (r : regexp.Re) (s : Str) (l : List Nat)
    (h : ∀ i ∈ l, regexp.captures s r 1 i [] = []) : regexp.submatchFrom r s l = none := by
  induction l with
  | nil => rfl
  | cons i rest ih =>
    simp [regexp.submatchFrom, h i (by simp), ih (fun x hx => h x (by simp [hx]))]

/-- `FindStringSubmatch` of the signal pattern on a text without newline: with a `.` followed
later by a `::` there are four parts, the whole text and three texts that put together give
the text again; without, there is no match. -/
theorem FindStringSubmatch_signal (s : Str) (hnl : '\n' ∉ s) :
    ((∃ a b, s[a]? = some '.' ∧ a + 1 ≤ b ∧ s[b]? = some ':' ∧ s[b + 1]? = some ':') →
      ∃ A B C, signalMatcherRe.FindStringSubmatch s = [s, A, B, C] ∧
        s = A ++ '.' :: (B ++ ':' :: ':' :: C)) ∧
    ((¬ ∃ a b, s[a]? = some '.' ∧ a + 1 ≤ b ∧ s[b]? = some ':' ∧ s[b + 1]? = some ':') →
      signalMatcherRe.FindStringSubmatch s = []) := by
  constructor
  · rintro ⟨a, b, h1, h2, h3, h4⟩
    obtain ⟨hm, hh⟩ := captures_signal s hnl 0 (Nat.zero_le _)
    have hblt : b + 1 < s.length := (List.getElem?_eq_some_iff.1 h4).1
    have hmem : (s.length, [(3, b + 2, s.length), (2, a + 1, b), (1, 0, a)]) ∈
        regexp.captures s signalMatcherRe 1 0 [] :=
      (hm _).2 ⟨a, b, s.length, Nat.zero_le _, h1, h2, h3, h4, by omega, Nat.le_refl _, rfl⟩
    cases hl : regexp.captures s signalMatcherRe 1 0 [] with
    | nil => simp [hl] at hmem
    | cons y rest =>
      obtain ⟨a', b', _, g1, g2, g3, g4, hy⟩ := hh y (by rw [hl]; rfl)
      have hsub : regexp.submatchFrom signalMatcherRe s (List.range (s.length + 1)) =
          some (0, s.length, [(3, b' + 2, s.length), (2, a' + 1, b'), (1, 0, a')]) := by
        rw [List.range_succ_eq_map]
        simp [regexp.submatchFrom, hl, hy]
      have hg : signalMatcherRe.groups = 3 := by decide
      refine ⟨regexp.extract s 0 a', regexp.extract s (a' + 1) b',
        regexp.extract s (b' + 2) s.length, ?_, extract_reassemble s a' b' g1 g2 g3 g4⟩
      have hwhole : regexp.extract s 0 s.length = s := by simp [regexp.extract]
      unfold regexp.Re.FindStringSubmatch
      rw [hsub]
      simp [hg, List.range, List.range.loop, regexp.groupText, hwhole]
  · intro hno
    have hall : ∀ i ∈ List.range (s.length + 1),
        regexp.captures s signalMatcherRe 1 i [] = [] := by
      intro i hi
      have hile : i ≤ s.length := by
        have := List.mem_range.1 hi
        omega
      cases hl : regexp.captures s signalMatcherRe 1 i [] with
      | nil => rfl
      | cons y rest =>
        exfalso
        obtain ⟨a, b, e, _, h1, h2, h3, h4, _⟩ :=
          ((captures_signal s hnl i hile).1 y).1 (by rw [hl]; simp)
        exact hno ⟨a, b, h1, h2, h3, h4⟩
    simp [regexp.Re.FindStringSubmatch, submatchFrom_none _ _ _ hall]

/-- C14, as stated, fails: the pattern has no anchors, and `.` does not match a newline.
For the selector `x\nFoo-1.Widget::clicked` the match starts after the newline, the selector
is accepted, and the captured parts `Foo-1`, `Widget`, `clicked` do not put together to the
selector. -/
theorem ModifySignal_not_anchored :
    signalMatcherRe.FindStringSubmatch "x\nFoo-1.Widget::clicked".toList =
      ["Foo-1.Widget::clicked".toList, "Foo-1".toList, "Widget".toList, "clicked".toList] ∧
    (∀ f : gir.Signal → Except Panic gir.Signal,
      ModifySignal "x\nFoo-1.Widget::clicked".toList f =
        .ok (ModifySignal.Preprocess "Foo-1".toList "Widget".toList "clicked".toList f)) ∧
    "Foo-1".toList ++ '.' :: ("Widget".toList ++ ':' :: ':' :: "clicked".toList) ≠
      "x\nFoo-1.Widget::clicked".toList := by
  refine ⟨by decide, fun f => rfl, by decide⟩

/-- C14, amended: for a selector without newline characters, `ModifySignal` panics at
construction if and only if the selector is not of the shape `A.B::C`; when it is accepted,
the match is the whole selector and the three captured parts satisfy
`A + "." + B + "::" + C = selector`, and the preprocessor built looks up the owner `A.B` and
searches its signals for `C`. -/
theorem ModifySignal_selector_shape (girType : Str) (f : gir.Signal → Except Panic gir.Signal)
    (hnl : '\n' ∉ girType) :
    (ModifySignal girType f = .error .logPanic ↔
      ¬ ∃ A B C : Str, girType = A ++ '.' :: (B ++ ':' :: ':' :: C)) ∧
    (∀ p, ModifySignal girType f = .ok p →
      ∃ A B C : Str, girType = A ++ '.' :: (B ++ ':' :: ':' :: C) ∧
        signalMatcherRe.FindStringSubmatch girType = [girType, A, B, C] ∧
        p = ModifySignal.Preprocess A B C f) ∧
    (∀ (A B C : Str) (repos : gir.Repositories),
      (repos.FindFullType (A ++ '.' :: B) = none →
        ModifySignal.Preprocess A B C f repos = .ok repos) ∧
      (∀ (result : gir.TypeFindResult) (v : gir.Class),
        repos.FindFullType (A ++ '.' :: B) = some result → result.Type_ = .Class v →
        ModifySignal.Preprocess A B C f repos =
          match modifyFirstSignal C f v.Signals with
          | some (.ok l) => .ok (repos.store result (.Class { v with Signals := l }))
          | some (.error e) => .error e
          | none => .ok repos)) := by
  obtain ⟨hyes, hno⟩ := FindStringSubmatch_signal girType hnl
  have hshape : (∃ A B C : Str, girType = A ++ '.' :: (B ++ ':' :: ':' :: C)) →
      ∃ a b, girType[a]? = some '.' ∧ a + 1 ≤ b ∧ girType[b]? = some ':' ∧
        girType[b + 1]? = some ':' := by
    rintro ⟨A, B, C, rfl⟩
    obtain ⟨p1, p2, p3⟩ := shape_positions A B C
    exact ⟨A.length, A.length + 1 + B.length, p1, by omega, p2, p3⟩
  refine ⟨?_, ?_, ?_⟩
  · constructor
    · intro herr hex
      obtain ⟨A, B, C, hfind, _⟩ := hyes (hshape hex)
      simp [ModifySignal, hfind] at herr
    · intro hne
      have hnone := hno (fun hpos => hne (by
        obtain ⟨A, B, C, _, hs⟩ := hyes hpos
        exact ⟨A, B, C, hs⟩))
      simp [ModifySignal, hnone]
  · intro p hp
    by_cases hpos : ∃ a b, girType[a]? = some '.' ∧ a + 1 ≤ b ∧ girType[b]? = some ':' ∧
        girType[b + 1]? = some ':'
    · obtain ⟨A, B, C, hfind, hs⟩ := hyes hpos
      refine ⟨A, B, C, hs, hfind, ?_⟩
      simp only [ModifySignal, hfind] at hp
      injection hp with hp
      exact hp.symm
    · simp [ModifySignal, hno hpos] at hp
  · intro A B C repos
    constructor
    · intro h
      simp [ModifySignal.Preprocess, h]
    · intro result v h hv
      simp only [ModifySignal.Preprocess, h, hv]

theorem ModifySignal_selector_shape_witness :
    ∃ A B C : Str, "Foo-1.Widget::clicked".toList = A ++ '.' :: (B ++ ':' :: ':' :: C) ∧
      signalMatcherRe.FindStringSubmatch "Foo-1.Widget::clicked".toList =
        ["Foo-1.Widget::clicked".toList, A, B, C] ∧
      ModifySignal.Preprocess "Foo-1".toList "Widget".toList "clicked".toList (fun g => .ok g) =
        ModifySignal.Preprocess A B C (fun g => .ok g) :=
  (ModifySignal_selector_shape "Foo-1.Widget::clicked".toList (fun g => .ok g)
    (by decide)).2.1 _ rfl

/-! ### C19 -/

theorem Get_of_not_live (reg : gbox.Registry) (handle : Nat)
    (h : ∀ v, (handle, v) ∉ reg.live) : reg.Get handle = .nil := by
  have : reg.live.find? (fun entry => entry.1 == handle) = none := by
    rw [List.find?_eq_none]
    rintro ⟨k, v⟩ hx hk
    have hk' : k = handle := by simpa using hk
    subst hk'
    exact h v hx
  simp [gbox.Registry.Get, this]

/-- The mapping found for a handle is a mapping of that handle. -/
theorem find_handle (reg : gbox.Registry) (handle : Nat) (entry : Nat × gbox.Boxed)
    (h : reg.live.find? (fun entry => entry.1 == handle) = some entry) :
    entry = (handle, entry.2) ∧ entry ∈ reg.live := by
  have h1 := List.find?_some h
  have h2 := List.mem_of_find?_eq_some h
  have h3 : entry.1 = handle := by simpa using h1
  exact ⟨by rw [← h3], h2⟩

/-- C19, as stated, fails for a registry state in which the handle has a live mapping to a
value that is not a `ParseErrorFunc` (the type assertion panics), to a nil `ParseErrorFunc`
(the call panics), or to the nil interface (`callback not found`, although the mapping is
live): no callback is called. -/
theorem trampoline_wrong_type_panics :
    ((gbox.Registry.Register ⟨[], 1⟩ (.other 0)).1 = 1 ∧
      (gbox.Registry.Register ⟨[], 1⟩ (.other 0)).2.live = [(1, .other 0)] ∧
      _gotk4_gsk4_ParseErrorFunc (gbox.Registry.Register ⟨[], 1⟩ (.other 0)).2 100 200 none 1 =
        .error .interfaceConversion) ∧
    ((gbox.Registry.Register ⟨[], 1⟩ (.ParseErrorFunc none)).2.live
        = [(1, .ParseErrorFunc none)] ∧
      _gotk4_gsk4_ParseErrorFunc (gbox.Registry.Register ⟨[], 1⟩ (.ParseErrorFunc none)).2
        100 200 none 1 = .error .nilDereference) ∧
    ((gbox.Registry.Register ⟨[], 1⟩ .nil).2.live = [(1, .nil)] ∧
      _gotk4_gsk4_ParseErrorFunc (gbox.Registry.Register ⟨[], 1⟩ .nil).2 100 200 none 1 =
        .error .callbackNotFound) :=
  ⟨⟨rfl, rfl, rfl⟩, ⟨rfl, rfl⟩, ⟨rfl, rfl⟩⟩

/-- C19, amended: for every registry state and every handle `arg4`, the trampoline calls a
callback exactly when the latest live mapping of the handle holds a non-nil
`ParseErrorFunc`, and then it calls that function exactly once, with wrappers of the
addresses `arg1` and `arg2` and the error converted from `arg3`. In every other state it
panics without calling a callback: with `callback not found` exactly when the handle has no
live mapping or is mapped to the nil interface, at the type assertion exactly when the value
is not a `ParseErrorFunc`, and at the call exactly when the value is a nil `ParseErrorFunc`.
A handle has no live mapping in the empty registry (never registered) and after its
release; registering a value does not change what the trampoline does for a handle other
than the one minted, and the handle minted is mapped to the value registered. -/
theorem trampoline_resolves_handle (reg : gbox.Registry) (arg1 arg2 : Nat)
    (arg3 : Option Str) (arg4 : Nat) :
    (∀ calls, _gotk4_gsk4_ParseErrorFunc reg arg1 arg2 arg3 arg4 = .ok calls ↔
      ∃ fn, reg.live.find? (fun entry => entry.1 == arg4)
          = some (arg4, .ParseErrorFunc (some fn)) ∧
        calls = [{ fn := fn, start := arg1, end_ := arg2, err := arg3 }]) ∧
    (_gotk4_gsk4_ParseErrorFunc reg arg1 arg2 arg3 arg4 = .error .callbackNotFound ↔
      (∀ v, (arg4, v) ∉ reg.live) ∨
      reg.live.find? (fun entry => entry.1 == arg4) = some (arg4, .nil)) ∧
    (_gotk4_gsk4_ParseErrorFunc reg arg1 arg2 arg3 arg4 = .error .interfaceConversion ↔
      ∃ t, reg.live.find? (fun entry => entry.1 == arg4) = some (arg4, .other t)) ∧
    (_gotk4_gsk4_ParseErrorFunc reg arg1 arg2 arg3 arg4 = .error .nilDereference ↔
      reg.live.find? (fun entry => entry.1 == arg4) = some (arg4, .ParseErrorFunc none)) ∧
    (∀ n : Nat, _gotk4_gsk4_ParseErrorFunc ⟨[], n⟩ arg1 arg2 arg3 arg4
      = .error .callbackNotFound) ∧
    ((∀ v, (arg4, v) ∉ (reg.Release arg4).live) ∧
      _gotk4_gsk4_ParseErrorFunc (reg.Release arg4) arg1 arg2 arg3 arg4
        = .error .callbackNotFound) ∧
    (∀ v, arg4 ≠ reg.next →
      _gotk4_gsk4_ParseErrorFunc (reg.Register v).2 arg1 arg2 arg3 arg4
        = _gotk4_gsk4_ParseErrorFunc reg arg1 arg2 arg3 arg4) ∧
    (∀ v, (reg.Register v).2.live.find? (fun entry => entry.1 == (reg.Register v).1)
      = some ((reg.Register v).1, v)) := by
  have hcases : reg.live.find? (fun entry => entry.1 == arg4) = none ∨
      ∃ v, reg.live.find? (fun entry => entry.1 == arg4) = some (arg4, v) := by
    cases hf : reg.live.find? (fun entry => entry.1 == arg4) with
    | none => exact Or.inl rfl
    | some entry =>
      have := (find_handle reg arg4 entry hf).1
      exact Or.inr ⟨entry.2, by rw [← this]⟩
  have hnone : reg.live.find? (fun entry => entry.1 == arg4) = none ↔
      ∀ v, (arg4, v) ∉ reg.live := by
    constructor
    · intro h v hv
      have := List.find?_eq_none.1 h (arg4, v) hv
      simp at this
    · intro h
      rw [List.find?_eq_none]
      rintro ⟨k, v⟩ hx hk
      have hk' : k = arg4 := by simpa using hk
      subst hk'
      exact h v hx
  refine ⟨?_, ?_, ?_, ?_, ?_, ?_, ?_, ?_⟩
  · intro calls
    rcases hcases with h | ⟨v, h⟩
    · simp [_gotk4_gsk4_ParseErrorFunc, gbox.Registry.Get, h]
    · cases v with
      | nil => simp [_gotk4_gsk4_ParseErrorFunc, gbox.Registry.Get, h]
      | other t => simp [_gotk4_gsk4_ParseErrorFunc, gbox.Registry.Get, h]
      | ParseErrorFunc fn =>
        cases fn with
        | none => simp [_gotk4_gsk4_ParseErrorFunc, gbox.Registry.Get, h]
        | some fn =>
          simp only [_gotk4_gsk4_ParseErrorFunc, gbox.Registry.Get, h, gextras.NewStructNative,
            gerror.Take, Except.ok.injEq, Option.some.injEq, Prod.mk.injEq, true_and,
            gbox.Boxed.ParseErrorFunc.injEq]
          constructor
          · intro e
            exact ⟨fn, rfl, e.symm⟩
          · rintro ⟨fn', e1, e2⟩
            rw [e2, ← e1]
  · rcases hcases with h | ⟨v, h⟩
    · simp [_gotk4_gsk4_ParseErrorFunc, gbox.Registry.Get, h, hnone.1 h]
    · have hlive : ¬ ∀ w, (arg4, w) ∉ reg.live := by
        rw [← hnone, h]
        simp
      cases v with
      | nil => simp [_gotk4_gsk4_ParseErrorFunc, gbox.Registry.Get, h]
      | other t => simp [_gotk4_gsk4_ParseErrorFunc, gbox.Registry.Get, h, hlive]
      | ParseErrorFunc fn =>
        cases fn <;> simp [_gotk4_gsk4_ParseErrorFunc, gbox.Registry.Get, h, hlive]
  · rcases hcases with h | ⟨v, h⟩
    · simp [_gotk4_gsk4_ParseErrorFunc, gbox.Registry.Get, h]
    · cases v with
      | nil => simp [_gotk4_gsk4_ParseErrorFunc, gbox.Registry.Get, h]
      | other t => simp [_gotk4_gsk4_ParseErrorFunc, gbox.Registry.Get, h]
      | ParseErrorFunc fn =>
        cases fn <;> simp [_gotk4_gsk4_ParseErrorFunc, gbox.Registry.Get, h]
  · rcases hcases with h | ⟨v, h⟩
    · simp [_gotk4_gsk4_ParseErrorFunc, gbox.Registry.Get, h]
    · cases v with
      | nil => simp [_gotk4_gsk4_ParseErrorFunc, gbox.Registry.Get, h]
      | other t => simp [_gotk4_gsk4_ParseErrorFunc, gbox.Registry.Get, h]
      | ParseErrorFunc fn =>
        cases fn <;> simp [_gotk4_gsk4_ParseErrorFunc, gbox.Registry.Get, h]
  · intro n
    rfl
  · have hrel : ∀ v, (arg4, v) ∉ (reg.Release arg4).live := by
      intro v hv
      have := (List.mem_filter.1 hv).2
      simp at this
    refine ⟨hrel, ?_⟩
    simp [_gotk4_gsk4_ParseErrorFunc, Get_of_not_live _ arg4 hrel]
  · intro v h
    have hne : (reg.next == arg4) = false := by
      simpa using fun e => h e.symm
    have : (reg.Register v).2.Get arg4 = reg.Get arg4 := by
      simp [gbox.Registry.Register, gbox.Registry.Get, List.find?, hne]
    simp [_gotk4_gsk4_ParseErrorFunc, this]
  · intro v
    simp [gbox.Registry.Register, List.find?]

theorem trampoline_resolves_handle_witness :
    _gotk4_gsk4_ParseErrorFunc
        (gbox.Registry.Register
          (gbox.Registry.Register ⟨[], 1⟩ (.ParseErrorFunc (some 7))).2 (.other 3)).2
        100 200 (some "bad token".toList) 1 =
      _gotk4_gsk4_ParseErrorFunc (gbox.Registry.Register ⟨[], 1⟩ (.ParseErrorFunc (some 7))).2
        100 200 (some "bad token".toList) 1 ∧
    _gotk4_gsk4_ParseErrorFunc (gbox.Registry.Register ⟨[], 1⟩ (.ParseErrorFunc (some 7))).2
        100 200 (some "bad token".toList) 1 =
      .ok [{ fn := 7, start := 100, end_ := 200, err := some "bad token".toList }] :=
  ⟨(trampoline_resolves_handle (gbox.Registry.Register ⟨[], 1⟩ (.ParseErrorFunc (some 7))).2
      100 200 (some "bad token".toList) 1).2.2.2.2.2.2.1 (.other 3) (by decide),
    ((trampoline_resolves_handle (gbox.Registry.Register ⟨[], 1⟩ (.ParseErrorFunc (some 7))).2
      100 200 (some "bad token".toList) 1).1 _).2 ⟨7, rfl, rfl⟩⟩

end Gotk4
